import Mathlib

/-!
# ChCore buddy allocator (kernel/mm/buddy.c) and page-fault handler (kernel/exception/pgfault.c)

A shallow embedding of the physical-memory buddy allocator and of the handler of
translation faults, and a verification of their bookkeeping properties.

Conventions of the embedding:
* a `struct page *` is the index of the record in the `page_metadata` array
  (`page - pool->page_metadata`), a NULL pointer is `none`;
* a `void *` to a frame is its address, the pointer `NULL` is the address 0;
* `u64` values are natural numbers, and the address computations are reduced
  modulo `2 ^ 64` where the C code can wrap; a product computed in `int` is reduced
  to 32 bits in two's complement;
* the intrusive list of `struct list_head` nodes of one free list is the list of
  the page indices linked in it, first member first;
* dereferencing a NULL pointer, or reading the first member of an empty list, is
  the fault `none` of an `Option` result.
-/

set_option linter.dupNamespace false

namespace ChCore

/-! ## Data model -/

/-- Number of values of the machine type `u64`. -/
def U64 : Nat := 2 ^ 64

/-- Size of one frame. The header that defines it is not among the sources; the
value is the one buddy.c itself relies on (`BUDDY_PAGE_SIZE_ORDER (12)` at line 64,
the comment `2^order * 4K` at line 262). -/
def BUDDY_PAGE_SIZE : Nat := 0x1000

/-- Line 64 of buddy.c: `#define BUDDY_PAGE_SIZE_ORDER (12)`. -/
def BUDDY_PAGE_SIZE_ORDER : Nat := 12

/-- One record of the page metadata array (`struct page`): the fields `allocated`
and `order`; the field `node` is represented by membership in a free list. -/
structure page where
  allocated : Nat
  order : Nat
  deriving DecidableEq

/-- One free list (`struct free_list`): the linked records, first member first, and
the counter `nr_free`. The type of the counter is declared in a header that is not among
the sources; it is a natural number here, and a decrement stops at zero. -/
structure free_list where
  free_list : List Nat
  nr_free : Nat
  deriving DecidableEq

/-- The pool descriptor (`struct phys_mem_pool`). `free_lists` is indexed by order; only
the entries below `BUDDY_MAX_ORDER` exist in the C array. -/
structure phys_mem_pool where
  pool_start_addr : Nat
  page_metadata : Nat → page
  pool_mem_size : Nat
  pool_phys_page_num : Nat
  free_lists : Nat → free_list

/-- Assignment `page->allocated = v`. -/
def set_allocated (pool : phys_mem_pool) (pg : Nat) (v : Nat) : phys_mem_pool :=
  { pool with
    page_metadata := fun i =>
      if i = pg then { allocated := v, order := (pool.page_metadata i).order }
      else pool.page_metadata i }

/-- Assignment `page->order = v`. -/
def set_order (pool : phys_mem_pool) (pg : Nat) (v : Nat) : phys_mem_pool :=
  { pool with
    page_metadata := fun i =>
      if i = pg then { allocated := (pool.page_metadata i).allocated, order := v }
      else pool.page_metadata i }

/-- Assignment `pool->free_lists[order].nr_free = v`. -/
def set_nr_free (pool : phys_mem_pool) (order : Nat) (v : Nat) : phys_mem_pool :=
  { pool with
    free_lists := fun o =>
      if o = order then { free_list := (pool.free_lists o).free_list, nr_free := v }
      else pool.free_lists o }

/-- Modelled from the spec: `list_add` of the missing list.h, as used by buddy.c:
`list_add(&page->node, &pool->free_lists[order].free_list)` links the record right
after the list head, so it becomes the first member of that free list. -/
def list_add (pool : phys_mem_pool) (node : Nat) (order : Nat) : phys_mem_pool :=
  { pool with
    free_lists := fun o =>
      if o = order then
        { free_list := node :: (pool.free_lists o).free_list,
          nr_free := (pool.free_lists o).nr_free }
      else pool.free_lists o }

/-- Modelled from the spec: `list_del` of the missing list.h. `list_del(&page->node)`
unlinks the record from the list it is linked in; the call names no list, so the
record is removed from whichever free list holds it. -/
def list_del (pool : phys_mem_pool) (node : Nat) : phys_mem_pool :=
  { pool with
    free_lists := fun o =>
      { free_list := (pool.free_lists o).free_list.erase node,
        nr_free := (pool.free_lists o).nr_free } }

/-! ## Address translation (buddy.c lines 235-252) -/

/-- Function `page_to_virt`: `(page - pool->page_metadata) * BUDDY_PAGE_SIZE + pool_start_addr`
in `u64` arithmetic. -/
def page_to_virt (pool : phys_mem_pool) (pg : Nat) : Nat :=
  (pg * BUDDY_PAGE_SIZE + pool.pool_start_addr) % U64

/-- Function `virt_to_page`: `page_metadata + (addr - pool_start_addr) / BUDDY_PAGE_SIZE`,
the subtraction in `u64` arithmetic. -/
def virt_to_page (pool : phys_mem_pool) (addr : Nat) : Nat :=
  ((addr + U64 - pool.pool_start_addr) % U64) / BUDDY_PAGE_SIZE

/-- Function `get_buddy_chunk` (lines 50-76): the record at the address of `chunk` with
the bit of its order flipped, or NULL when that address is outside the pool. -/
def get_buddy_chunk (pool : phys_mem_pool) (chunk : Nat) : Option Nat :=
  let chunk_addr := page_to_virt pool chunk
  let order := (pool.page_metadata chunk).order
  let buddy_chunk_addr := chunk_addr ^^^ ((1 <<< (order + BUDDY_PAGE_SIZE_ORDER)) % U64)
  if buddy_chunk_addr < pool.pool_start_addr ∨
      buddy_chunk_addr ≥ (pool.pool_start_addr + pool.pool_mem_size) % U64 then
    none
  else
    some (virt_to_page pool buddy_chunk_addr)

/-! ## Split (buddy.c lines 95-125) -/

/-- Lines 107-122 of `split_page`: one halving of the block headed by `pg`. The buddy
pointer is dereferenced without a NULL check, so a NULL buddy is the fault `none`. -/
def split_page_halve (pool : phys_mem_pool) (pg : Nat) : Option phys_mem_pool :=
  let origin_order := (pool.page_metadata pg).order
  let split_order := (pool.page_metadata pg).order - 1
  let pool := set_order pool pg ((pool.page_metadata pg).order - 1)
  let pool := set_nr_free pool origin_order ((pool.free_lists origin_order).nr_free - 1)
  let pool := list_del pool pg
  match get_buddy_chunk pool pg with
  | none => none
  | some buddy =>
    let pool := set_allocated pool buddy 0
    let pool := set_order pool buddy (pool.page_metadata pg).order
    let pool := set_nr_free pool split_order ((pool.free_lists split_order).nr_free + 2)
    let pool := list_add pool pg split_order
    let pool := list_add pool buddy split_order
    some pool

/-- Recursion of `split_page`, structural on the number of halvings still to do. -/
def split_page_aux : Nat → phys_mem_pool → Nat → Nat → Option (phys_mem_pool × Nat)
  | 0, pool, _, pg => some (pool, pg)
  | fuel + 1, pool, order, pg =>
    if (pool.page_metadata pg).allocated = 1 ∨ (pool.page_metadata pg).order = 0 ∨
        (pool.page_metadata pg).order ≤ order then
      some (pool, pg)
    else
      let deeper :=
        if (pool.page_metadata pg).order - order > 1 then
          split_page_aux fuel pool (order + 1) pg
        else some (pool, pg)
      match deeper with
      | none => none
      | some (pool, pg) =>
        match split_page_halve pool pg with
        | none => none
        | some pool => some (pool, pg)

/-- Function `split_page(pool, order, page)`. The recursion depth is the distance between
the order of the block and the target order; at distance 0 the base case of line 99
returns the page unchanged. -/
def split_page (pool : phys_mem_pool) (order : Nat) (pg : Nat) : Option (phys_mem_pool × Nat) :=
  split_page_aux ((pool.page_metadata pg).order - order) pool order pg

/-! ## Acquire (buddy.c lines 135-171) -/

/-- The loop of lines 145-151 of `buddy_get_pages`, entered with `larger_order` and the
free list of that order: the first order at or above `larger_order` whose counter is
not zero, or `none` when the loop returns NULL. -/
def scan_larger_order (BUDDY_MAX_ORDER : Nat) (pool : phys_mem_pool) : Nat → Nat → Option Nat
  | 0, _ => none
  | fuel + 1, larger_order =>
    if (pool.free_lists larger_order).nr_free = 0 then
      if larger_order + 1 ≥ BUDDY_MAX_ORDER then none
      else scan_larger_order BUDDY_MAX_ORDER pool fuel (larger_order + 1)
    else some larger_order

/-- Function `buddy_get_pages(pool, order)`. The result `none` is a fault; otherwise the new
pool and the returned page (`none` for NULL). -/
def buddy_get_pages (BUDDY_MAX_ORDER : Nat) (pool : phys_mem_pool) (order : Nat) :
    Option (phys_mem_pool × Option Nat) :=
  if order ≥ BUDDY_MAX_ORDER then some (pool, none)
  else if (pool.free_lists order).nr_free = 0 then
    match scan_larger_order BUDDY_MAX_ORDER pool BUDDY_MAX_ORDER order with
    | none => some (pool, none)
    | some larger_order =>
      match (pool.free_lists larger_order).free_list with
      | [] => none
      | page_split :: _ =>
        match split_page pool order page_split with
        | none => none
        | some (pool, pg) =>
          let pool := set_allocated pool pg 1
          let page_order := (pool.page_metadata pg).order
          let pool := set_nr_free pool page_order ((pool.free_lists page_order).nr_free - 1)
          let pool := list_del pool page_split
          some (pool, some pg)
  else
    match (pool.free_lists order).free_list with
    | [] => none
    | pg :: _ =>
      let pool := set_allocated pool pg 1
      let pool := set_nr_free pool order ((pool.free_lists order).nr_free - 1)
      let pool := list_del pool pg
      some (pool, some pg)

/-! ## Merge and release (buddy.c lines 182-233) -/

/-- Lines 193-209 of `merge_page`: coalesce `pg` with its free buddy of the same order;
the record with the lower address survives with its order raised by one. -/
def merge_page_step (pool : phys_mem_pool) (pg buddy : Nat) : phys_mem_pool × Nat :=
  let lo := if pg > buddy then buddy else pg
  let hi := if pg > buddy then pg else buddy
  let origin_order := (pool.page_metadata lo).order
  let merge_order := (pool.page_metadata lo).order + 1
  let pool := set_nr_free pool origin_order ((pool.free_lists origin_order).nr_free - 2)
  let pool := list_del pool lo
  let pool := list_del pool hi
  let pool := set_order pool lo ((pool.page_metadata lo).order + 1)
  let pool := set_nr_free pool merge_order ((pool.free_lists merge_order).nr_free + 1)
  let pool := list_add pool lo merge_order
  (pool, lo)

/-- Recursion of `merge_page`, structural on the number of orders still above the block. -/
def merge_page_aux (BUDDY_MAX_ORDER : Nat) : Nat → phys_mem_pool → Nat → phys_mem_pool × Nat
  | 0, pool, pg => (pool, pg)
  | fuel + 1, pool, pg =>
    if (pool.page_metadata pg).order ≥ BUDDY_MAX_ORDER - 1 ∨
        (pool.page_metadata pg).allocated = 1 then
      (pool, pg)
    else
      match get_buddy_chunk pool pg with
      | none => (pool, pg)
      | some buddy =>
        if (pool.page_metadata buddy).allocated = 1 ∨
            (pool.page_metadata buddy).order ≠ (pool.page_metadata pg).order then
          (pool, pg)
        else
          merge_page_aux BUDDY_MAX_ORDER fuel (merge_page_step pool pg buddy).1
            (merge_page_step pool pg buddy).2

/-- Function `merge_page(pool, page)`. The recursion depth is the distance of the order of
the block to `BUDDY_MAX_ORDER - 1`; at distance 0 the base case of line 185 returns. -/
def merge_page (BUDDY_MAX_ORDER : Nat) (pool : phys_mem_pool) (pg : Nat) : phys_mem_pool × Nat :=
  merge_page_aux BUDDY_MAX_ORDER (BUDDY_MAX_ORDER - 1 - (pool.page_metadata pg).order) pool pg

/-- Function `buddy_free_pages(pool, page)`. -/
def buddy_free_pages (BUDDY_MAX_ORDER : Nat) (pool : phys_mem_pool) (pg : Nat) : phys_mem_pool :=
  let pool := set_allocated pool pg 0
  let origin_order := (pool.page_metadata pg).order
  let pool := set_nr_free pool origin_order ((pool.free_lists origin_order).nr_free + 1)
  let pool := list_add pool pg origin_order
  (merge_page BUDDY_MAX_ORDER pool pg).1

/-! ## Initialisation and diagnostics (buddy.c lines 13-48, 254-272) -/

/-- Lines 36-41 of `init_buddy`, the state before the release loop: the descriptor fields
are set, the free lists below `BUDDY_MAX_ORDER` are empty, and every record of the pool is
`allocated = 1, order = 0`. -/
def init_buddy_prepare (BUDDY_MAX_ORDER : Nat) (pool : phys_mem_pool) (start_addr page_num : Nat) :
    phys_mem_pool :=
  let pool : phys_mem_pool :=
    { pool with
      pool_start_addr := start_addr
      pool_mem_size := (page_num * BUDDY_PAGE_SIZE) % U64
      pool_phys_page_num := page_num }
  let pool := (List.range BUDDY_MAX_ORDER).foldl
    (fun (pool : phys_mem_pool) order =>
      { pool with
        free_lists := fun o =>
          if o = order then { free_list := [], nr_free := 0 } else pool.free_lists o })
    pool
  let pool := (List.range page_num).foldl
    (fun (pool : phys_mem_pool) page_idx =>
      { pool with
        page_metadata := fun i =>
          if i = page_idx then { allocated := 0, order := 0 } else pool.page_metadata i })
    pool
  (List.range page_num).foldl
    (fun pool page_idx => set_order (set_allocated pool page_idx 1) page_idx 0) pool

/-- Function `init_buddy(pool, start_page, start_addr, page_num)`. The argument `pool` is
the descriptor memory being initialised; `start_page` is the base of the index
representation of page pointers. -/
def init_buddy (BUDDY_MAX_ORDER : Nat) (pool : phys_mem_pool) (start_addr page_num : Nat) :
    phys_mem_pool :=
  (List.range page_num).foldl
    (fun pool page_idx => buddy_free_pages BUDDY_MAX_ORDER pool page_idx)
    (init_buddy_prepare BUDDY_MAX_ORDER pool start_addr page_num)

/-- Bit pattern of a value of the C type `int`: expressions of type `int` are computed in
32-bit two's complement, a result that does not fit wraps. -/
def int_bits (x : Nat) : Nat := x % 2 ^ 32

/-- Conversion to `u64` of the `int` with the given bit pattern: sign extension. -/
def int_to_u64 (bits : Nat) : Nat :=
  if bits < 2 ^ 31 then bits else bits + (U64 - 2 ^ 32)

/-- Function `get_free_mem_size_from_buddy(pool)`. The size of line 263,
`BUDDY_PAGE_SIZE * (1 << order)`, is a product of two `int` values, computed in `int` and
then converted to the `u64` variable `current_order_size`; the product with `nr_free` and
the sum are accumulated in `u64`. From order 19 on the product does not fit in `int`; the
value taken is the wrapped one, which is what the compiled code yields at order 19. -/
def get_free_mem_size_from_buddy (BUDDY_MAX_ORDER : Nat) (pool : phys_mem_pool) : Nat :=
  (List.range BUDDY_MAX_ORDER).foldl
    (fun total_size order =>
      let current_order_size :=
        int_to_u64 (int_bits (BUDDY_PAGE_SIZE * int_bits (1 <<< order)))
      (total_size + (pool.free_lists order).nr_free * current_order_size) % U64)
    0

/-- A descriptor with no records linked anywhere, used as the memory handed to `init_buddy`
in concrete scenarios. -/
def blank_pool : phys_mem_pool :=
  { pool_start_addr := 0
    page_metadata := fun _ => { allocated := 0, order := 0 }
    pool_mem_size := 0
    pool_phys_page_num := 0
    free_lists := fun _ => { free_list := [], nr_free := 0 } }

/-! ## Steps of the recursions -/

/-- Number of coalescing steps (executions of lines 193-209) made along the recursion of
`merge_page_aux`. -/
def merge_page_steps (BUDDY_MAX_ORDER : Nat) : Nat → phys_mem_pool → Nat → Nat
  | 0, _, _ => 0
  | fuel + 1, pool, pg =>
    if (pool.page_metadata pg).order ≥ BUDDY_MAX_ORDER - 1 ∨
        (pool.page_metadata pg).allocated = 1 then
      0
    else
      match get_buddy_chunk pool pg with
      | none => 0
      | some buddy =>
        if (pool.page_metadata buddy).allocated = 1 ∨
            (pool.page_metadata buddy).order ≠ (pool.page_metadata pg).order then
          0
        else
          merge_page_steps BUDDY_MAX_ORDER fuel (merge_page_step pool pg buddy).1
            (merge_page_step pool pg buddy).2 + 1

/-- Number of halvings (executions of lines 107-122) started along the recursion of
`split_page_aux`: those of the recursive call of line 104, and one more when that call
returns. -/
def split_page_halvings : Nat → phys_mem_pool → Nat → Nat → Nat
  | 0, _, _, _ => 0
  | fuel + 1, pool, order, pg =>
    if (pool.page_metadata pg).allocated = 1 ∨ (pool.page_metadata pg).order = 0 ∨
        (pool.page_metadata pg).order ≤ order then
      0
    else if (pool.page_metadata pg).order - order > 1 then
      match split_page_aux fuel pool (order + 1) pg with
      | none => split_page_halvings fuel pool (order + 1) pg
      | some _ => split_page_halvings fuel pool (order + 1) pg + 1
    else 1

/-! ## The page-fault handler (pgfault.c) -/

/-- Constant `PAGE_SIZE` of `common/mm.h`. -/
def PAGE_SIZE : Nat := 0x1000

/-- Modelled from the spec: the macro `ROUND_DOWN`, whose header `common/macro.h` is not
among the sources; it rounds the faulting address down to the frame boundary. -/
def ROUND_DOWN (x n : Nat) : Nat := x - x % n

/-- Modelled from the spec: `struct pmobject` of the missing header `mm/vmspace.h`, a backing
object tagged by its type. -/
structure pmobject where
  type : Nat

/-- Modelled from the spec: `struct vmregion` of the missing header `mm/vmspace.h`, an
address range with permission bits and a reference to its backing object. -/
structure vmregion where
  start : Nat
  size : Nat
  perm : Nat
  pmo : pmobject

/-- Modelled from the spec: `struct vmspace` of the missing header `mm/vmspace.h`, an
address space owning a page-table root and a set of regions. -/
structure vmspace where
  pgtbl : Nat
  vmr_list : List vmregion

/-- The pointer `NULL`. -/
def NULL : Nat := 0

/-- Modelled from the spec: `get_page(order)` of the missing `common/kmalloc.h`, the request
of one block of the given order from the buddy allocator of the kernel; the result is the
address of the block, or `NULL` when the allocator has none. The result `none` is a fault
inside the allocator. -/
def get_page (BUDDY_MAX_ORDER : Nat) (global_mem : phys_mem_pool) (order : Nat) :
    Option (phys_mem_pool × Nat) :=
  match buddy_get_pages BUDDY_MAX_ORDER global_mem order with
  | none => none
  | some (pool, none) => some (pool, NULL)
  | some (pool, some pg) => some (pool, page_to_virt pool pg)

/-- Modelled from the spec: `free_page(addr)` of the missing `common/kmalloc.h`, the release
of the block at `addr` to the buddy allocator of the kernel. -/
def free_page (BUDDY_MAX_ORDER : Nat) (global_mem : phys_mem_pool) (addr : Nat) :
    phys_mem_pool :=
  buddy_free_pages BUDDY_MAX_ORDER global_mem (virt_to_page global_mem addr)

/-- The collaborators of `pgfault.c` whose code is not among the sources, taken as
parameters: the constants `BUDDY_MAX_ORDER`, `PMO_ANONYM`, `ENOMAPPING` and
`DFSC_TRANS_FAULT_L0 .. L3`, the macros `GET_ESR_EL1_FSC` and `virt_to_phys`, the region
lookup `find_vmr_for_va`, and the mapper `map_range_in_pgtbl`, which acts on the page
tables `PT` and returns an `int`. -/
structure fault_env (PT : Type) where
  BUDDY_MAX_ORDER : Nat
  PMO_ANONYM : Nat
  ENOMAPPING : Int
  DFSC_TRANS_FAULT_L0 : Nat
  DFSC_TRANS_FAULT_L1 : Nat
  DFSC_TRANS_FAULT_L2 : Nat
  DFSC_TRANS_FAULT_L3 : Nat
  GET_ESR_EL1_FSC : Nat → Nat
  virt_to_phys : Nat → Nat
  find_vmr_for_va : vmspace → Nat → Option vmregion
  map_range_in_pgtbl : PT → Nat → Nat → Nat → Nat → Nat → PT × Int

/-- The state the handler acts on: the buddy allocator of the kernel and the page tables. -/
structure kernel_state (PT : Type) where
  global_mem : phys_mem_pool
  page_tables : PT

/-- A call made by `handle_trans_fault` to the allocator or to the mapper, with its
arguments. -/
inductive fault_call where
  | get_page (order : Nat)
  | free_page (addr : Nat)
  | map_range_in_pgtbl (pgtbl va pa len perm : Nat)

/-- Outcome of `handle_trans_fault`: the value returned, the state left, and the calls made
in their order. -/
structure fault_result (PT : Type) where
  ret : Int
  state : kernel_state PT
  calls : List fault_call

/-- Function `handle_trans_fault(vmspace, fault_addr)` (pgfault.c lines 66-116). The address
returned by `get_page` is tested against `NULL` (line 100). The result `none` is a fault
inside the allocator. -/
def handle_trans_fault {PT : Type} (env : fault_env PT) (st : kernel_state PT)
    (vmspace : vmspace) (fault_addr : Nat) : Option (fault_result PT) :=
  match env.find_vmr_for_va vmspace fault_addr with
  | none => some { ret := -env.ENOMAPPING, state := st, calls := [] }
  | some vmr =>
    if vmr.pmo.type ≠ env.PMO_ANONYM then
      some { ret := -env.ENOMAPPING, state := st, calls := [] }
    else
      match get_page env.BUDDY_MAX_ORDER st.global_mem 0 with
      | none => none
      | some (pool, page) =>
        if page = NULL then
          some { ret := -env.ENOMAPPING
                 state := { global_mem := pool, page_tables := st.page_tables }
                 calls := [fault_call.get_page 0] }
        else
          let pa := env.virt_to_phys page
          let offset := ROUND_DOWN fault_addr PAGE_SIZE
          let mapped := env.map_range_in_pgtbl st.page_tables vmspace.pgtbl offset pa
            PAGE_SIZE vmr.perm
          if mapped.2 < 0 then
            some { ret := -env.ENOMAPPING
                   state := { global_mem := free_page env.BUDDY_MAX_ORDER pool page
                              page_tables := mapped.1 }
                   calls := [fault_call.get_page 0,
                     fault_call.map_range_in_pgtbl vmspace.pgtbl offset pa PAGE_SIZE vmr.perm,
                     fault_call.free_page page] }
          else
            some { ret := 0
                   state := { global_mem := pool, page_tables := mapped.1 }
                   calls := [fault_call.get_page 0,
                     fault_call.map_range_in_pgtbl vmspace.pgtbl offset pa PAGE_SIZE
                       vmr.perm] }

/-- Outcome of `do_page_fault`: the value returned by `handle_trans_fault` if it was called,
the argument of `sys_exit` if it was called, whether `BUG_ON(1)` was reached, the state
left and the calls made by the handler. -/
structure page_fault_result (PT : Type) where
  handler_ret : Option Int
  exit_code : Option Int
  bug_on : Bool
  state : kernel_state PT
  calls : List fault_call

/-- Function `do_page_fault(esr, fault_ins_addr)` (pgfault.c lines 36-64). The register
`far_el1` read by `get_fault_addr` and the address space of the current thread are
arguments. The result `none` is a fault inside the allocator. -/
def do_page_fault {PT : Type} (env : fault_env PT) (st : kernel_state PT)
    (current_vmspace : vmspace) (far_el1 : Nat) (esr : Nat) (_fault_ins_addr : Nat) :
    Option (page_fault_result PT) :=
  let fault_addr := far_el1
  let fsc := env.GET_ESR_EL1_FSC esr
  if fsc = env.DFSC_TRANS_FAULT_L0 ∨ fsc = env.DFSC_TRANS_FAULT_L1 ∨
      fsc = env.DFSC_TRANS_FAULT_L2 ∨ fsc = env.DFSC_TRANS_FAULT_L3 then
    match handle_trans_fault env st current_vmspace fault_addr with
    | none => none
    | some r =>
      if r.ret ≠ 0 then
        some { handler_ret := some r.ret, exit_code := some r.ret, bug_on := false
               state := r.state, calls := r.calls }
      else
        some { handler_ret := some r.ret, exit_code := none, bug_on := false
               state := r.state, calls := r.calls }
  else
    some { handler_ret := none, exit_code := none, bug_on := true, state := st, calls := [] }

/-! ## Reachable states and the block structure of a pool -/

/-- States of a pool together with the list of outstanding blocks (returned by
`buddy_get_pages` and not yet given back, each with the order it was requested with), as
produced by `init_buddy` followed by any sequence of acquisitions and releases of
outstanding blocks. The pool given to `init_buddy` is a region of the `u64` address space,
and the orders are small enough for the shift of line 66. -/
inductive Reachable (BUDDY_MAX_ORDER : Nat) : phys_mem_pool → List (Nat × Nat) → Prop
  | init (pool : phys_mem_pool) (start_addr page_num : Nat)
      (hpos : 0 < BUDDY_MAX_ORDER)
      (hmax : BUDDY_MAX_ORDER + BUDDY_PAGE_SIZE_ORDER ≤ 64)
      (hfit : start_addr + page_num * BUDDY_PAGE_SIZE < U64) :
      Reachable BUDDY_MAX_ORDER (init_buddy BUDDY_MAX_ORDER pool start_addr page_num) []
  | get_pages (pool : phys_mem_pool) (out : List (Nat × Nat)) (order : Nat)
      (pool1 : phys_mem_pool) (pg : Nat) :
      Reachable BUDDY_MAX_ORDER pool out →
      buddy_get_pages BUDDY_MAX_ORDER pool order = some (pool1, some pg) →
      Reachable BUDDY_MAX_ORDER pool1 ((pg, order) :: out)
  | free_pages (pool : phys_mem_pool) (out : List (Nat × Nat)) (pg order : Nat) :
      Reachable BUDDY_MAX_ORDER pool out →
      (pg, order) ∈ out →
      Reachable BUDDY_MAX_ORDER (buddy_free_pages BUDDY_MAX_ORDER pool pg)
        (out.erase (pg, order))

/-- Frame number of the first frame of the pool. -/
def frame_base (pool : phys_mem_pool) : Nat := pool.pool_start_addr / BUDDY_PAGE_SIZE

/-- The record `pg` is linked in one of the free lists of the pool. -/
def is_free (BUDDY_MAX_ORDER : Nat) (pool : phys_mem_pool) (pg : Nat) : Prop :=
  ∃ o, o < BUDDY_MAX_ORDER ∧ pg ∈ (pool.free_lists o).free_list

/-- The record `pg` heads a block: an outstanding one or a free one. -/
def is_head (BUDDY_MAX_ORDER : Nat) (pool : phys_mem_pool) (out : List Nat) (pg : Nat) : Prop :=
  pg ∈ out ∨ is_free BUDDY_MAX_ORDER pool pg

/-- A family of blocks tiles the frames `0 .. n - 1`: the block headed by `p` spans
`2 ^ ord p` frames, lies in the pool, starts at a frame number that is a multiple of its
size, and every frame lies in exactly one block. -/
structure block_tiling (n base : Nat) (head : Nat → Prop) (ord : Nat → Nat) : Prop where
  within : ∀ p, head p → p + 2 ^ ord p ≤ n
  aligned : ∀ p, head p → 2 ^ ord p ∣ base + p
  disjoint : ∀ p q, head p → head q → p ≤ q → q < p + 2 ^ ord p → q = p
  cover : ∀ i, i < n → ∃ p, head p ∧ p ≤ i ∧ i < p + 2 ^ ord p

/-- Structural invariant of the allocator: the free lists hold free records of their own
order, once each, and are counted by `nr_free`; outstanding blocks are marked allocated;
the blocks (free and outstanding) tile the pool; and the frames counted free plus the
frames of the outstanding blocks are the frames of the pool. -/
structure pool_inv (BUDDY_MAX_ORDER : Nat) (pool : phys_mem_pool) (out : List Nat) : Prop where
  max_order_pos : 0 < BUDDY_MAX_ORDER
  max_order_le : BUDDY_MAX_ORDER + BUDDY_PAGE_SIZE_ORDER ≤ 64
  mem_size : pool.pool_mem_size = pool.pool_phys_page_num * BUDDY_PAGE_SIZE
  no_wrap : pool.pool_start_addr + pool.pool_phys_page_num * BUDDY_PAGE_SIZE < U64
  free_rec : ∀ o pg, o < BUDDY_MAX_ORDER → pg ∈ (pool.free_lists o).free_list →
    (pool.page_metadata pg).allocated = 0 ∧ (pool.page_metadata pg).order = o
  free_nodup : ∀ o, o < BUDDY_MAX_ORDER → (pool.free_lists o).free_list.Nodup
  free_count : ∀ o, o < BUDDY_MAX_ORDER →
    (pool.free_lists o).nr_free = (pool.free_lists o).free_list.length
  out_rec : ∀ pg, pg ∈ out →
    (pool.page_metadata pg).allocated = 1 ∧ (pool.page_metadata pg).order < BUDDY_MAX_ORDER
  out_nodup : out.Nodup
  tiles : block_tiling pool.pool_phys_page_num (frame_base pool)
    (is_head BUDDY_MAX_ORDER pool out) (fun pg => (pool.page_metadata pg).order)
  account : (∑ o ∈ Finset.range BUDDY_MAX_ORDER, (pool.free_lists o).nr_free * 2 ^ o) +
    (out.map (fun pg => 2 ^ (pool.page_metadata pg).order)).sum = pool.pool_phys_page_num

/-- Every pair of free buddies of one order below the top order involves the record `ex`:
`x` is the lower block of an aligned pair and `x + 2 ^ o` the upper one. -/
def coalesced_except (BUDDY_MAX_ORDER : Nat) (pool : phys_mem_pool) (ex : Nat) : Prop :=
  ∀ o x, o + 1 < BUDDY_MAX_ORDER → x ∈ (pool.free_lists o).free_list →
    x + 2 ^ o ∈ (pool.free_lists o).free_list → 2 ^ (o + 1) ∣ frame_base pool + x →
    x = ex ∨ x + 2 ^ o = ex

/-- No two free blocks of one order below the top order are buddies. -/
def coalesced (BUDDY_MAX_ORDER : Nat) (pool : phys_mem_pool) : Prop :=
  ∀ o x, o + 1 < BUDDY_MAX_ORDER → x ∈ (pool.free_lists o).free_list →
    x + 2 ^ o ∈ (pool.free_lists o).free_list → ¬ 2 ^ (o + 1) ∣ frame_base pool + x

/-- A block of the pool: the outstanding block `(i, o)`, or the member `i` of the free
list of order `o`. -/
def is_block (BUDDY_MAX_ORDER : Nat) (pool : phys_mem_pool) (out : List (Nat × Nat))
    (i o : Nat) : Prop :=
  (i, o) ∈ out ∨ (o < BUDDY_MAX_ORDER ∧ i ∈ (pool.free_lists o).free_list)

/-! ## Concrete pools used as scenarios -/

/-- The pool of the concrete scenario: four frames from address 0, three orders. -/
def four_frame_pool : phys_mem_pool := init_buddy 3 blank_pool 0 4

/-- The four-frame pool after a successful `buddy_get_pages` of order 0. -/
def four_frame_acquired : phys_mem_pool :=
  match buddy_get_pages 3 four_frame_pool 0 with
  | some (pool1, _) => pool1
  | none => four_frame_pool

/-- A pool of two frames from address 0, three orders. -/
def two_frame_pool : phys_mem_pool := init_buddy 3 blank_pool 0 2

/-- A pool of four frames from address `0x4000`, three orders. -/
def fault_pool : phys_mem_pool := init_buddy 3 blank_pool 0x4000 4

/-- The pool `fault_pool` after a successful `buddy_get_pages` of order 0. -/
def fault_pool_acquired : phys_mem_pool :=
  match buddy_get_pages 3 fault_pool 0 with
  | some (pool1, _) => pool1
  | none => fault_pool

/-- An address space with an anonymous region of four frames at `0x10000` and a region of
another type at `0x20000`. -/
def scenario_vmspace : vmspace :=
  { pgtbl := 0
    vmr_list := [{ start := 0x10000, size := 0x4000, perm := 3, pmo := { type := 0 } },
      { start := 0x20000, size := 0x1000, perm := 1, pmo := { type := 1 } }] }

/-- Collaborators of a concrete scenario: the lookup searches the region list, the page
tables are the list of installed translations, and the mapper refuses addresses from
`0x12000` on. -/
def scenario_env : fault_env (List (Nat × Nat)) :=
  { BUDDY_MAX_ORDER := 3
    PMO_ANONYM := 0
    ENOMAPPING := 1
    DFSC_TRANS_FAULT_L0 := 4
    DFSC_TRANS_FAULT_L1 := 5
    DFSC_TRANS_FAULT_L2 := 6
    DFSC_TRANS_FAULT_L3 := 7
    GET_ESR_EL1_FSC := fun esr => esr % 64
    virt_to_phys := fun va => va
    find_vmr_for_va := fun vs va =>
      vs.vmr_list.find? (fun r => decide (r.start ≤ va ∧ va < r.start + r.size))
    map_range_in_pgtbl := fun pt _ va pa _ _ =>
      if va < 0x12000 then ((va, pa) :: pt, 0) else (pt, -1) }

/-- The state of the concrete scenario: `fault_pool` and empty page tables. -/
def scenario_state : kernel_state (List (Nat × Nat)) :=
  { global_mem := fault_pool, page_tables := [] }

/-! ## Arithmetic of aligned blocks -/

theorem dvd_lt_add_le {A u v : Nat} (hu : A ∣ u) (hv : A ∣ v) (h : u < v) : u + A ≤ v := by
  obtain ⟨a, rfl⟩ := hu
  obtain ⟨b, rfl⟩ := hv
  have hab : a < b := lt_of_mul_lt_mul_left h (Nat.zero_le A)
  calc A * a + A = A * (a + 1) := by ring
    _ ≤ A * b := Nat.mul_le_mul_left A hab

theorem two_pow_pos (o : Nat) : 0 < 2 ^ o := Nat.pos_pow_of_pos o (by decide)

theorem block_tiling_congr {n base : Nat} {head head1 : Nat → Prop} {ord ord1 : Nat → Nat}
    (t : block_tiling n base head ord) (hh : ∀ x, head1 x ↔ head x)
    (ho : ∀ x, head x → ord1 x = ord x) : block_tiling n base head1 ord1 := by
  constructor
  · intro p hp
    rw [ho p ((hh p).1 hp)]; exact t.within p ((hh p).1 hp)
  · intro p hp
    rw [ho p ((hh p).1 hp)]; exact t.aligned p ((hh p).1 hp)
  · intro p q hp hq hle hlt
    rw [ho p ((hh p).1 hp)] at hlt
    exact t.disjoint p q ((hh p).1 hp) ((hh q).1 hq) hle hlt
  · intro i hi
    obtain ⟨p, hp, h1, h2⟩ := t.cover i hi
    exact ⟨p, (hh p).2 hp, h1, by rw [ho p hp]; exact h2⟩

/-- The sibling of a block in its aligned pair is itself a block, of at most the same order,
as soon as it starts inside the pool. -/
theorem block_tiling_sibling {n base : Nat} {head : Nat → Prop} {ord : Nat → Nat}
    (t : block_tiling n base head ord) {lo hi o : Nat}
    (hal : 2 ^ (o + 1) ∣ base + lo) (hhi : hi = lo + 2 ^ o) (hn : hi < n)
    (hp : (head lo ∧ ord lo = o) ∨ (head hi ∧ ord hi = o)) :
    (head lo ∧ ord lo ≤ o) ∧ (head hi ∧ ord hi ≤ o) := by
  have hs := two_pow_pos o
  have h2 : 2 ^ (o + 1) = 2 ^ o + 2 ^ o := by rw [pow_succ]; ring
  -- any block meeting the pair and larger than `2 ^ o` contains the whole pair
  have key : ∀ c x, head c → c ≤ x → x < c + 2 ^ ord c → (x = lo ∨ x = hi) → ord c ≤ o := by
    intro c x hc hcx hxc hx
    by_contra hcon
    have hoc : o + 1 ≤ ord c := by omega
    have hd : 2 ^ (o + 1) ∣ 2 ^ ord c := pow_dvd_pow 2 hoc
    have hca : 2 ^ (o + 1) ∣ base + c := dvd_trans hd (t.aligned c hc)
    have hce : 2 ^ (o + 1) ∣ base + c + 2 ^ ord c := Dvd.dvd.add hca hd
    have h1 : c ≤ lo := by
      by_contra hlt
      have := dvd_lt_add_le hal hca (by omega : base + lo < base + c)
      omega
    have h3 : lo + 2 ^ (o + 1) ≤ c + 2 ^ ord c := by
      have := dvd_lt_add_le hal hce (by omega : base + lo < base + c + 2 ^ ord c)
      omega
    rcases hp with ⟨hl, hlo⟩ | ⟨hh, hho⟩
    · have := t.disjoint c lo hc hl h1 (by omega)
      subst this; omega
    · have := t.disjoint c hi hc hh (by omega) (by omega)
      subst this; omega
  have hlo_n : lo < n := by omega
  obtain ⟨c, hc, hc1, hc2⟩ := t.cover lo hlo_n
  obtain ⟨d, hd, hd1, hd2⟩ := t.cover hi hn
  have hoc := key c lo hc hc1 hc2 (Or.inl rfl)
  have hod := key d hi hd hd1 hd2 (Or.inr rfl)
  have hlo_al : 2 ^ ord c ∣ base + lo :=
    dvd_trans (pow_dvd_pow 2 (by omega : ord c ≤ o + 1)) hal
  have hhi_al : 2 ^ ord d ∣ base + hi := by
    have : 2 ^ ord d ∣ 2 ^ o := pow_dvd_pow 2 hod
    have h4 : 2 ^ ord d ∣ base + lo := dvd_trans (pow_dvd_pow 2 (by omega : ord d ≤ o + 1)) hal
    have : base + hi = base + lo + 2 ^ o := by omega
    rw [this]; exact Dvd.dvd.add h4 ‹_›
  have hcl : c = lo := by
    by_contra hne
    have := dvd_lt_add_le (t.aligned c hc) hlo_al (by omega : base + c < base + lo)
    omega
  have hdh : d = hi := by
    by_contra hne
    have := dvd_lt_add_le (t.aligned d hd) hhi_al (by omega : base + d < base + hi)
    omega
  subst hcl; subst hdh
  exact ⟨⟨hc, hoc⟩, ⟨hd, hod⟩⟩

theorem block_tiling_merge {n base : Nat} {head head1 : Nat → Prop} {ord ord1 : Nat → Nat}
    (t : block_tiling n base head ord) {lo hi o : Nat}
    (hlo : head lo) (hhi : head hi) (holo : ord lo = o) (hohi : ord hi = o)
    (hal : 2 ^ (o + 1) ∣ base + lo) (hhi_eq : hi = lo + 2 ^ o)
    (hh : ∀ x, head1 x ↔ (head x ∧ x ≠ hi))
    (ho1 : ord1 lo = o + 1) (ho : ∀ x, x ≠ lo → ord1 x = ord x) :
    block_tiling n base head1 ord1 := by
  have hs := two_pow_pos o
  have h2 : 2 ^ (o + 1) = 2 ^ o + 2 ^ o := by rw [pow_succ]; ring
  constructor
  · intro p hp
    by_cases hpl : p = lo
    · subst hpl; rw [ho1]
      have := t.within hi hhi
      rw [hohi] at this; omega
    · rw [ho p hpl]; exact t.within p ((hh p).1 hp).1
  · intro p hp
    by_cases hpl : p = lo
    · subst hpl; rw [ho1]; exact hal
    · rw [ho p hpl]; exact t.aligned p ((hh p).1 hp).1
  · intro p q hp hq hle hlt
    have hq1 := (hh q).1 hq
    by_cases hpl : p = lo
    · subst hpl; rw [ho1] at hlt
      by_cases hqh : q < hi
      · exact t.disjoint p q hlo hq1.1 hle (by rw [holo]; omega)
      · have := t.disjoint hi q hhi hq1.1 (by omega) (by rw [hohi]; omega)
        exact absurd this hq1.2
    · rw [ho p hpl] at hlt
      exact t.disjoint p q ((hh p).1 hp).1 hq1.1 hle hlt
  · intro i hi_lt
    obtain ⟨p, hp, h1, h3⟩ := t.cover i hi_lt
    by_cases hph : p = hi
    · subst hph
      refine ⟨lo, (hh lo).2 ⟨hlo, by omega⟩, by omega, ?_⟩
      rw [ho1]; rw [hohi] at h3; omega
    · by_cases hpl : p = lo
      · subst hpl
        refine ⟨p, (hh p).2 ⟨hp, hph⟩, h1, ?_⟩
        rw [ho1]; rw [holo] at h3; omega
      · exact ⟨p, (hh p).2 ⟨hp, hph⟩, h1, by rw [ho p hpl]; exact h3⟩

theorem block_tiling_halve {n base : Nat} {head head1 : Nat → Prop} {ord ord1 : Nat → Nat}
    (t : block_tiling n base head ord) {p b o : Nat}
    (hp : head p) (hop : ord p = o + 1) (hb : b = p + 2 ^ o)
    (hh : ∀ x, head1 x ↔ (head x ∨ x = b))
    (ho1 : ord1 p = o) (ho2 : ord1 b = o) (ho : ∀ x, x ≠ p → x ≠ b → ord1 x = ord x) :
    block_tiling n base head1 ord1 := by
  have hs := two_pow_pos o
  have h2 : 2 ^ (o + 1) = 2 ^ o + 2 ^ o := by rw [pow_succ]; ring
  have hw := t.within p hp
  have ha := t.aligned p hp
  rw [hop] at hw ha
  have hpo : 2 ^ o ∣ 2 ^ (o + 1) := pow_dvd_pow 2 (by omega)
  -- the upper half was not a block before
  have hnb : ¬ head b := by
    intro hc
    have := t.disjoint p b hp hc (by omega) (by rw [hop]; omega)
    omega
  constructor
  · intro x hx
    by_cases hxp : x = p
    · subst hxp; rw [ho1]; omega
    · by_cases hxb : x = b
      · subst hxb; rw [ho2]; omega
      · rw [ho x hxp hxb]
        rcases (hh x).1 hx with h | h
        · exact t.within x h
        · exact absurd h hxb
  · intro x hx
    by_cases hxp : x = p
    · subst hxp; rw [ho1]; exact dvd_trans hpo ha
    · by_cases hxb : x = b
      · subst hxb; rw [ho2]
        have : base + x = base + p + 2 ^ o := by omega
        rw [this]; exact Dvd.dvd.add (dvd_trans hpo ha) (dvd_refl _)
      · rw [ho x hxp hxb]
        rcases (hh x).1 hx with h | h
        · exact t.aligned x h
        · exact absurd h hxb
  · intro x q hx hq hle hlt
    -- a block of the old tiling that starts in the old block of `p` is `p`
    have old : ∀ y, head y → p ≤ y → y < p + 2 ^ (o + 1) → y = p := by
      intro y hy h1 h3
      exact t.disjoint p y hp hy h1 (by rw [hop]; exact h3)
    by_cases hxp : x = p
    · subst hxp; rw [ho1] at hlt
      rcases (hh q).1 hq with h | h
      · exact old q h hle (by omega)
      · omega
    · by_cases hxb : x = b
      · subst hxb; rw [ho2] at hlt
        rcases (hh q).1 hq with h | h
        · have := old q h (by omega) (by omega)
          omega
        · exact h
      · rw [ho x hxp hxb] at hlt
        have hx1 : head x := by
          rcases (hh x).1 hx with h | h
          · exact h
          · exact absurd h hxb
        rcases (hh q).1 hq with h | h
        · exact t.disjoint x q hx1 h hle hlt
        · -- `q = b` lies in the old block of `p`, so `x` meets that block
          subst h
          by_cases hxlt : x < p
          · have := t.disjoint x p hx1 hp (by omega) (by omega)
            exact absurd this.symm hxp
          · have := old x hx1 (by omega) (by omega)
            exact absurd this hxp
  · intro i hi_lt
    obtain ⟨c, hc, h1, h3⟩ := t.cover i hi_lt
    by_cases hcp : c = p
    · subst hcp; rw [hop] at h3
      by_cases hib : i < b
      · exact ⟨c, (hh c).2 (Or.inl hc), h1, by rw [ho1]; omega⟩
      · exact ⟨b, (hh b).2 (Or.inr rfl), by omega, by rw [ho2]; omega⟩
    · have hcb : c ≠ b := fun h => hnb (h ▸ hc)
      exact ⟨c, (hh c).2 (Or.inl hc), h1, by rw [ho c hcp hcb]; exact h3⟩

/-! ## Address arithmetic -/

theorem xor_scaled (i a b c : Nat) (hb : b < 2 ^ i) :
    (2 ^ i * a + b) ^^^ (2 ^ i * c) = 2 ^ i * (a ^^^ c) + b := by
  apply Nat.eq_of_testBit_eq
  intro j
  have hc : (2 ^ i * c).testBit j = if j < i then false else c.testBit (j - i) := by
    have := Nat.testBit_mul_pow_two_add c (Nat.pos_pow_of_pos i (by decide) : 0 < 2 ^ i) j
    simpa using this
  rw [Nat.testBit_xor, Nat.testBit_mul_pow_two_add a hb, Nat.testBit_mul_pow_two_add _ hb, hc]
  by_cases h : j < i <;> simp [h]

theorem xor_one_eq (a : Nat) : a ^^^ 1 = if a % 2 = 0 then a + 1 else a - 1 := by
  have h1 : (a ^^^ 1) / 2 = a / 2 := by rw [Nat.xor_div_two]; simp
  have h2 : (a ^^^ 1) % 2 = (a + 1) % 2 := Nat.xor_mod_two_eq
  split <;> omega

/-- Flipping bit `o` of a multiple of `2 ^ o`. -/
theorem xor_two_pow_of_dvd {f o : Nat} (h : 2 ^ o ∣ f) :
    f ^^^ 2 ^ o = if 2 ^ (o + 1) ∣ f then f + 2 ^ o else f - 2 ^ o := by
  obtain ⟨a, rfl⟩ := h
  have hpos : 0 < 2 ^ o := Nat.pos_pow_of_pos o (by decide)
  have := xor_scaled o a 0 1 hpos
  simp only [Nat.add_zero, Nat.mul_one] at this
  rw [this, xor_one_eq]
  have hd : 2 ^ (o + 1) ∣ 2 ^ o * a ↔ a % 2 = 0 := by
    rw [pow_succ, Nat.mul_dvd_mul_iff_left hpos]
    omega
  by_cases ha : a % 2 = 0
  · simp [ha, hd, Nat.mul_add]
  · simp only [ha, hd, if_false]
    have : 1 ≤ a := by omega
    rw [Nat.mul_sub, Nat.mul_one]

theorem get_buddy_chunk_frame (pool : phys_mem_pool) (n pg : Nat)
    (hsize : pool.pool_mem_size = n * BUDDY_PAGE_SIZE)
    (hwrap : pool.pool_start_addr + n * BUDDY_PAGE_SIZE < U64) (hpg : pg < n)
    (ho : (pool.page_metadata pg).order + BUDDY_PAGE_SIZE_ORDER < 64) :
    get_buddy_chunk pool pg =
      if frame_base pool ≤ (frame_base pool + pg) ^^^ 2 ^ (pool.page_metadata pg).order ∧
          (frame_base pool + pg) ^^^ 2 ^ (pool.page_metadata pg).order < frame_base pool + n then
        some (((frame_base pool + pg) ^^^ 2 ^ (pool.page_metadata pg).order) - frame_base pool)
      else none := by
  generalize hoo : (pool.page_metadata pg).order = o at *
  generalize hb : frame_base pool = base
  obtain ⟨off, hoff, hstart⟩ : ∃ off, off < 2 ^ 12 ∧ pool.pool_start_addr = 2 ^ 12 * base + off := by
    refine ⟨pool.pool_start_addr % 4096, Nat.mod_lt _ (by norm_num), ?_⟩
    rw [← hb]; unfold frame_base BUDDY_PAGE_SIZE; norm_num; omega
  unfold BUDDY_PAGE_SIZE_ORDER at ho
  unfold BUDDY_PAGE_SIZE U64 at hwrap
  have hshift : (1 <<< (o + BUDDY_PAGE_SIZE_ORDER)) % U64 = 2 ^ 12 * 2 ^ o := by
    unfold BUDDY_PAGE_SIZE_ORDER U64
    rw [Nat.shiftLeft_eq, Nat.one_mul, Nat.mod_eq_of_lt (Nat.pow_lt_pow_right (by norm_num) (by omega)),
      pow_add, Nat.mul_comm]
  have haddr : page_to_virt pool pg = 2 ^ 12 * (base + pg) + off := by
    unfold page_to_virt BUDDY_PAGE_SIZE U64
    rw [Nat.mod_eq_of_lt (by omega), hstart]; ring
  have hx : (2 ^ 12 * (base + pg) + off) ^^^ (2 ^ 12 * 2 ^ o)
      = 2 ^ 12 * ((base + pg) ^^^ 2 ^ o) + off := xor_scaled 12 _ _ _ hoff
  unfold get_buddy_chunk
  simp only [hoo, hshift, haddr, hx, hsize]
  generalize hfb : (base + pg) ^^^ 2 ^ o = fb
  try simp only [hfb]
  have hend : (pool.pool_start_addr + n * BUDDY_PAGE_SIZE) % U64 = 2 ^ 12 * (base + n) + off := by
    unfold BUDDY_PAGE_SIZE U64
    rw [Nat.mod_eq_of_lt (by omega), hstart]; ring
  rw [hend, hstart]
  by_cases h1 : base ≤ fb
  · by_cases h2 : fb < base + n
    · have hc : ¬ (2 ^ 12 * fb + off < 2 ^ 12 * base + off ∨
          2 ^ 12 * fb + off ≥ 2 ^ 12 * (base + n) + off) := by omega
      rw [if_neg hc, if_pos ⟨h1, h2⟩]
      congr 1
      unfold virt_to_page U64 BUDDY_PAGE_SIZE
      rw [hstart]
      have : 2 ^ 12 * fb + off + 2 ^ 64 - (2 ^ 12 * base + off) = 2 ^ 12 * (fb - base) + 2 ^ 64 := by
        omega
      rw [this, Nat.add_mod_right, Nat.mod_eq_of_lt (by omega)]
      norm_num
    · have hc : (2 ^ 12 * fb + off < 2 ^ 12 * base + off ∨
          2 ^ 12 * fb + off ≥ 2 ^ 12 * (base + n) + off) := by omega
      rw [if_pos hc, if_neg (by omega)]
  · have hc : (2 ^ 12 * fb + off < 2 ^ 12 * base + off ∨
          2 ^ 12 * fb + off ≥ 2 ^ 12 * (base + n) + off) := by omega
    rw [if_pos hc, if_neg (by omega)]

/-- The buddy of an aligned block, in terms of page indices. -/
theorem get_buddy_chunk_aligned (pool : phys_mem_pool) (pg : Nat)
    (hsize : pool.pool_mem_size = pool.pool_phys_page_num * BUDDY_PAGE_SIZE)
    (hwrap : pool.pool_start_addr + pool.pool_phys_page_num * BUDDY_PAGE_SIZE < U64)
    (hpg : pg < pool.pool_phys_page_num)
    (ho : (pool.page_metadata pg).order + BUDDY_PAGE_SIZE_ORDER < 64)
    (hal : 2 ^ (pool.page_metadata pg).order ∣ frame_base pool + pg) :
    get_buddy_chunk pool pg =
      if 2 ^ ((pool.page_metadata pg).order + 1) ∣ frame_base pool + pg then
        (if pg + 2 ^ (pool.page_metadata pg).order < pool.pool_phys_page_num then
          some (pg + 2 ^ (pool.page_metadata pg).order) else none)
      else
        (if 2 ^ (pool.page_metadata pg).order ≤ pg then
          some (pg - 2 ^ (pool.page_metadata pg).order) else none) := by
  rw [get_buddy_chunk_frame pool _ pg hsize hwrap hpg ho, xor_two_pow_of_dvd hal]
  have hs := two_pow_pos (pool.page_metadata pg).order
  by_cases hd : 2 ^ ((pool.page_metadata pg).order + 1) ∣ frame_base pool + pg
  · simp only [hd, if_true]
    by_cases h1 : pg + 2 ^ (pool.page_metadata pg).order < pool.pool_phys_page_num
    · rw [if_pos h1, if_pos (by omega)]
      congr 1; omega
    · rw [if_neg h1, if_neg (by omega)]
  · simp only [hd, if_false]
    have hge : 2 ^ (pool.page_metadata pg).order ≤ frame_base pool + pg := by
      apply Nat.le_of_dvd _ hal
      rcases Nat.eq_zero_or_pos (frame_base pool + pg) with h0 | h0
      · rw [h0] at hd; exact absurd (dvd_zero _) hd
      · exact h0
    by_cases h1 : 2 ^ (pool.page_metadata pg).order ≤ pg
    · rw [if_pos h1, if_pos (by omega)]
      congr 1; omega
    · rw [if_neg h1, if_neg (by omega)]

/-- In an aligned pair the upper block is not aligned at the size of the pair. -/
theorem not_dvd_upper {base lo o : Nat} (hal : 2 ^ (o + 1) ∣ base + lo) :
    ¬ 2 ^ (o + 1) ∣ base + (lo + 2 ^ o) := by
  intro h
  have hs := two_pow_pos o
  have h2 : 2 ^ (o + 1) = 2 ^ o + 2 ^ o := by rw [pow_succ]; ring
  have := dvd_lt_add_le hal h (by omega)
  omega

/-- A block that is aligned at its own size but not at twice its size is the upper block
of its pair. -/
theorem dvd_lower {base p o : Nat} (hal : 2 ^ o ∣ base + p)
    (hn : ¬ 2 ^ (o + 1) ∣ base + p) (hle : 2 ^ o ≤ p) :
    2 ^ (o + 1) ∣ base + (p - 2 ^ o) := by
  obtain ⟨a, ha⟩ := hal
  have hs := two_pow_pos o
  have hodd : a % 2 = 1 := by
    by_contra hc
    apply hn
    have : a = 2 * (a / 2) := by omega
    rw [ha, this, pow_succ]
    exact ⟨a / 2, by ring⟩
  refine ⟨a / 2, ?_⟩
  obtain ⟨c, hc⟩ : ∃ c, a = 2 * c + 1 := ⟨a / 2, by omega⟩
  have h2 : 2 ^ (o + 1) * (a / 2) + 2 ^ o = 2 ^ o * a := by
    have : a / 2 = c := by omega
    rw [this, hc, pow_succ]; ring
  omega

/-! ## Sums over the orders -/

/-- Changing one term of a sum over the orders. -/
theorem sum_update_one {M a : Nat} {w w1 : Nat → Nat} (ha : a < M)
    (hother : ∀ k, k < M → k ≠ a → w1 k = w k) :
    (∑ k ∈ Finset.range M, w1 k) + w a = (∑ k ∈ Finset.range M, w k) + w1 a := by
  have hmem : a ∈ Finset.range M := Finset.mem_range.2 ha
  have e1 := Finset.add_sum_erase (Finset.range M) w1 hmem
  have e2 := Finset.add_sum_erase (Finset.range M) w hmem
  have e3 : ∑ k ∈ (Finset.range M).erase a, w1 k = ∑ k ∈ (Finset.range M).erase a, w k := by
    apply Finset.sum_congr rfl
    intro k hk
    rw [Finset.mem_erase, Finset.mem_range] at hk
    exact hother k hk.2 hk.1
  omega

/-- Changing two terms of a sum over the orders. -/
theorem sum_update_two {M a b : Nat} {w w1 : Nat → Nat} (ha : a < M) (hb : b < M) (hab : a ≠ b)
    (hother : ∀ k, k < M → k ≠ a → k ≠ b → w1 k = w k) :
    (∑ k ∈ Finset.range M, w1 k) + w a + w b = (∑ k ∈ Finset.range M, w k) + w1 a + w1 b := by
  have h1 := @sum_update_one M a w (fun k => if k = b then w k else w1 k) ha
    (by intro k hk hka
        by_cases hkb : k = b
        · simp [hkb]
        · simp [hkb, hother k hk hka hkb])
  have h2 := @sum_update_one M b (fun k => if k = b then w k else w1 k) w1 hb
    (by intro k _ hkb; simp [hkb])
  simp only [if_neg hab, if_true] at h1 h2
  omega

/-! ## Consequences of the structural invariant -/

theorem pool_inv.free_is_head {M : Nat} {pool : phys_mem_pool} {out : List Nat} {o p : Nat}
    (_h : pool_inv M pool out) (ho : o < M) (hp : p ∈ (pool.free_lists o).free_list) :
    is_head M pool out p := Or.inr ⟨o, ho, hp⟩

theorem pool_inv.head_lt {M : Nat} {pool : phys_mem_pool} {out : List Nat} {p : Nat}
    (h : pool_inv M pool out) (hp : is_head M pool out p) : p < pool.pool_phys_page_num := by
  have := h.tiles.within p hp
  have := two_pow_pos (pool.page_metadata p).order
  omega

theorem pool_inv.free_unique {M : Nat} {pool : phys_mem_pool} {out : List Nat} {o k p : Nat}
    (h : pool_inv M pool out) (ho : o < M) (hk : k < M)
    (hp : p ∈ (pool.free_lists o).free_list) (hq : p ∈ (pool.free_lists k).free_list) :
    o = k := by
  rw [← (h.free_rec o p ho hp).2, ← (h.free_rec k p hk hq).2]

theorem pool_inv.free_not_out {M : Nat} {pool : phys_mem_pool} {out : List Nat} {o p : Nat}
    (h : pool_inv M pool out) (ho : o < M) (hp : p ∈ (pool.free_lists o).free_list) :
    p ∉ out := by
  intro hc
  have h1 := (h.free_rec o p ho hp).1
  have h2 := (h.out_rec p hc).1
  omega

theorem pool_inv.head_order_lt {M : Nat} {pool : phys_mem_pool} {out : List Nat} {p : Nat}
    (h : pool_inv M pool out) (hp : is_head M pool out p) :
    (pool.page_metadata p).order < M := by
  rcases hp with hp | ⟨o, ho, hp⟩
  · exact (h.out_rec p hp).2
  · rw [(h.free_rec o p ho hp).2]; exact ho

/-- A head that is not marked allocated is linked in the free list of its order. -/
theorem pool_inv.head_free {M : Nat} {pool : phys_mem_pool} {out : List Nat} {p : Nat}
    (h : pool_inv M pool out) (hp : is_head M pool out p)
    (ha : (pool.page_metadata p).allocated ≠ 1) :
    p ∈ (pool.free_lists (pool.page_metadata p).order).free_list := by
  rcases hp with hp | ⟨o, ho, hp⟩
  · exact absurd (h.out_rec p hp).1 ha
  · rw [(h.free_rec o p ho hp).2]; exact hp

/-! ## Transitions of the block structure -/

/-- Coalescing the aligned pair `lo`, `hi` of free blocks of order `o` keeps the invariant. -/
theorem pool_inv_merge {M : Nat} {pool pool1 : phys_mem_pool} {out : List Nat} {lo hi o : Nat}
    (h : pool_inv M pool out) (ho : o + 1 < M)
    (hlo : lo ∈ (pool.free_lists o).free_list) (hhi : hi ∈ (pool.free_lists o).free_list)
    (hhi_eq : hi = lo + 2 ^ o) (hal : 2 ^ (o + 1) ∣ frame_base pool + lo)
    (hs : pool1.pool_start_addr = pool.pool_start_addr)
    (hz : pool1.pool_mem_size = pool.pool_mem_size)
    (hn : pool1.pool_phys_page_num = pool.pool_phys_page_num)
    (hm : ∀ i, pool1.page_metadata i =
      if i = lo then { allocated := (pool.page_metadata lo).allocated, order := o + 1 }
      else pool.page_metadata i)
    (hl : ∀ k, k < M → (pool1.free_lists k).free_list =
      if k = o + 1 then lo :: (pool.free_lists k).free_list
      else if k = o then ((pool.free_lists k).free_list.erase lo).erase hi
      else (pool.free_lists k).free_list)
    (hc : ∀ k, k < M → (pool1.free_lists k).nr_free =
      if k = o + 1 then (pool.free_lists k).nr_free + 1
      else if k = o then (pool.free_lists k).nr_free - 2
      else (pool.free_lists k).nr_free) :
    pool_inv M pool1 out := by
  have ho' : o < M := by omega
  have hs2 := two_pow_pos o
  have hne : lo ≠ hi := by omega
  have hlo_rec := h.free_rec o lo ho' hlo
  have hhi_rec := h.free_rec o hi ho' hhi
  have hnd := h.free_nodup o ho'
  have hbase : frame_base pool1 = frame_base pool := by unfold frame_base; rw [hs]
  -- membership in the new free lists
  have hmem : ∀ k x, k < M → (x ∈ (pool1.free_lists k).free_list ↔
      (x = lo ∧ k = o + 1) ∨ (x ∈ (pool.free_lists k).free_list ∧ x ≠ lo ∧ x ≠ hi)) := by
    intro k x hk
    rw [hl k hk]
    by_cases hk1 : k = o + 1
    · subst hk1
      simp only [if_true, List.mem_cons]
      constructor
      · rintro (hx | hx)
        · exact Or.inl ⟨hx, trivial⟩
        · right
          refine ⟨hx, ?_, ?_⟩
          · rintro rfl; have := h.free_unique hk ho' hx hlo; omega
          · rintro rfl; have := h.free_unique hk ho' hx hhi; omega
      · rintro (⟨hx, _⟩ | ⟨hx, _, _⟩)
        · exact Or.inl hx
        · exact Or.inr hx
    · rw [if_neg hk1]
      by_cases hk2 : k = o
      · subst hk2
        rw [if_pos rfl, (hnd.erase lo).mem_erase_iff, hnd.mem_erase_iff]
        constructor
        · rintro ⟨h1, h2, h3⟩; exact Or.inr ⟨h3, h2, h1⟩
        · rintro (⟨_, h1⟩ | ⟨h1, h2, h3⟩)
          · omega
          · exact ⟨h3, h2, h1⟩
      · rw [if_neg hk2]
        constructor
        · intro hx
          right
          refine ⟨hx, ?_, ?_⟩
          · rintro rfl; exact hk2 (h.free_unique hk ho' hx hlo)
          · rintro rfl; exact hk2 (h.free_unique hk ho' hx hhi)
        · rintro (⟨_, h1⟩ | ⟨h1, _, _⟩)
          · exact absurd h1 hk1
          · exact h1
  have hfree : ∀ x, is_free M pool1 x ↔ (is_free M pool x ∧ x ≠ hi) := by
    intro x
    constructor
    · rintro ⟨k, hk, hx⟩
      rcases (hmem k x hk).1 hx with ⟨rfl, _⟩ | ⟨h1, _, h3⟩
      · exact ⟨⟨o, ho', hlo⟩, hne⟩
      · exact ⟨⟨k, hk, h1⟩, h3⟩
    · rintro ⟨⟨k, hk, hx⟩, hxh⟩
      by_cases hxl : x = lo
      · exact ⟨o + 1, ho, (hmem _ _ ho).2 (Or.inl ⟨hxl, rfl⟩)⟩
      · exact ⟨k, hk, (hmem _ _ hk).2 (Or.inr ⟨hx, hxl, hxh⟩)⟩
  have hhead : ∀ x, is_head M pool1 out x ↔ (is_head M pool out x ∧ x ≠ hi) := by
    intro x
    unfold is_head
    rw [hfree]
    constructor
    · rintro (hx | hx)
      · refine ⟨Or.inl hx, ?_⟩
        rintro rfl; exact h.free_not_out ho' hhi hx
      · exact ⟨Or.inr hx.1, hx.2⟩
    · rintro ⟨hx | hx, hxh⟩
      · exact Or.inl hx
      · exact Or.inr ⟨hx, hxh⟩
  constructor
  · exact h.max_order_pos
  · exact h.max_order_le
  · rw [hz, hn]; exact h.mem_size
  · rw [hs, hn]; exact h.no_wrap
  · intro k x hk hx
    rcases (hmem k x hk).1 hx with ⟨rfl, rfl⟩ | ⟨h1, h2, _⟩
    · rw [hm]; simp [hlo_rec.1]
    · rw [hm, if_neg h2]; exact h.free_rec k x hk h1
  · intro k hk
    rw [hl k hk]
    by_cases hk1 : k = o + 1
    · subst hk1
      rw [if_pos rfl, List.nodup_cons]
      refine ⟨?_, h.free_nodup _ hk⟩
      intro hx; have := h.free_unique hk ho' hx hlo; omega
    · rw [if_neg hk1]
      by_cases hk2 : k = o
      · subst hk2; rw [if_pos rfl]; exact (hnd.erase lo).erase hi
      · rw [if_neg hk2]; exact h.free_nodup k hk
  · intro k hk
    rw [hl k hk, hc k hk]
    by_cases hk1 : k = o + 1
    · subst hk1; simp [h.free_count _ hk]
    · rw [if_neg hk1, if_neg hk1]
      by_cases hk2 : k = o
      · subst hk2
        rw [if_pos rfl, if_pos rfl, List.length_erase_of_mem, List.length_erase_of_mem hlo,
          h.free_count _ hk]
        · omega
        · exact (hnd.mem_erase_iff).2 ⟨fun e => hne e.symm, hhi⟩
      · rw [if_neg hk2, if_neg hk2]; exact h.free_count k hk
  · intro x hx
    have : x ≠ lo := by rintro rfl; exact h.free_not_out ho' hlo hx
    rw [hm, if_neg this]; exact h.out_rec x hx
  · exact h.out_nodup
  · rw [hn, hbase]
    refine block_tiling_merge h.tiles (h.free_is_head ho' hlo) (h.free_is_head ho' hhi)
      hlo_rec.2 hhi_rec.2 hal hhi_eq hhead ?_ ?_
    · simp [hm]
    · intro x hx; simp [hm, hx]
  · rw [hn]
    have hout : (out.map fun pg => 2 ^ (pool1.page_metadata pg).order) =
        out.map fun pg => 2 ^ (pool.page_metadata pg).order := by
      apply List.map_congr_left
      intro x hx
      have : x ≠ lo := by rintro rfl; exact h.free_not_out ho' hlo hx
      simp only [hm, if_neg this]
    rw [hout]
    have hsum := @sum_update_two M (o + 1) o (fun k => (pool.free_lists k).nr_free * 2 ^ k)
      (fun k => (pool1.free_lists k).nr_free * 2 ^ k) ho ho' (by omega)
      (by intro k hk h1 h3; simp only [hc k hk, if_neg h1, if_neg h3])
    have hlen : 2 ≤ (pool.free_lists o).nr_free := by
      rw [h.free_count o ho']
      have h1 := List.length_erase_of_mem hlo
      have h3 : hi ∈ (pool.free_lists o).free_list.erase lo :=
        (hnd.mem_erase_iff).2 ⟨fun e => hne e.symm, hhi⟩
      have := List.length_pos_of_mem h3
      omega
    have e1 := hc (o + 1) ho
    have e2 := hc o ho'
    rw [if_pos rfl] at e1
    rw [if_neg (by omega), if_pos rfl] at e2
    have hacc := h.account
    obtain ⟨c, hc2⟩ : ∃ c, (pool.free_lists o).nr_free = c + 2 :=
      ⟨(pool.free_lists o).nr_free - 2, by omega⟩
    simp only [e1, e2, hc2, Nat.add_sub_cancel, pow_succ] at hsum
    linarith

/-- Halving the free block `p` of order `o + 1` into `p` and `b = p + 2 ^ o` keeps the
invariant. -/
theorem pool_inv_halve {M : Nat} {pool pool1 : phys_mem_pool} {out : List Nat} {p b o : Nat}
    (h : pool_inv M pool out) (ho : o + 1 < M)
    (hp : p ∈ (pool.free_lists (o + 1)).free_list) (hb : b = p + 2 ^ o)
    (hs : pool1.pool_start_addr = pool.pool_start_addr)
    (hz : pool1.pool_mem_size = pool.pool_mem_size)
    (hn : pool1.pool_phys_page_num = pool.pool_phys_page_num)
    (hm : ∀ i, pool1.page_metadata i =
      if i = b then { allocated := 0, order := o }
      else if i = p then { allocated := (pool.page_metadata p).allocated, order := o }
      else pool.page_metadata i)
    (hl : ∀ k, k < M → (pool1.free_lists k).free_list =
      if k = o then b :: p :: (pool.free_lists k).free_list
      else if k = o + 1 then (pool.free_lists k).free_list.erase p
      else (pool.free_lists k).free_list)
    (hc : ∀ k, k < M → (pool1.free_lists k).nr_free =
      if k = o then (pool.free_lists k).nr_free + 2
      else if k = o + 1 then (pool.free_lists k).nr_free - 1
      else (pool.free_lists k).nr_free) :
    pool_inv M pool1 out := by
  have ho' : o < M := by omega
  have hs2 := two_pow_pos o
  have hne : b ≠ p := by omega
  have hp_rec := h.free_rec (o + 1) p ho hp
  have hp_head := h.free_is_head ho hp
  have hnd := h.free_nodup (o + 1) ho
  have hbase : frame_base pool1 = frame_base pool := by unfold frame_base; rw [hs]
  have h2 : 2 ^ (o + 1) = 2 ^ o + 2 ^ o := by rw [pow_succ]; ring
  -- the upper half was not a block before
  have hnb : ¬ is_head M pool out b := by
    intro hcon
    have := h.tiles.disjoint p b hp_head hcon (by omega) (by simp only [hp_rec.2]; omega)
    omega
  have hnb_free : ∀ k, k < M → b ∉ (pool.free_lists k).free_list :=
    fun k hk hx => hnb (h.free_is_head hk hx)
  have hmem : ∀ k x, k < M → (x ∈ (pool1.free_lists k).free_list ↔
      ((x = b ∨ x = p) ∧ k = o) ∨ (x ∈ (pool.free_lists k).free_list ∧ x ≠ p)) := by
    intro k x hk
    rw [hl k hk]
    by_cases hk1 : k = o
    · subst hk1
      simp only [if_true, List.mem_cons]
      constructor
      · rintro (hx | hx | hx)
        · exact Or.inl ⟨Or.inl hx, trivial⟩
        · exact Or.inl ⟨Or.inr hx, trivial⟩
        · right
          refine ⟨hx, ?_⟩
          rintro rfl; have := h.free_unique hk ho hx hp; omega
      · rintro (⟨hx | hx, _⟩ | ⟨hx, _⟩)
        · exact Or.inl hx
        · exact Or.inr (Or.inl hx)
        · exact Or.inr (Or.inr hx)
    · rw [if_neg hk1]
      by_cases hk2 : k = o + 1
      · subst hk2
        rw [if_pos rfl, hnd.mem_erase_iff]
        constructor
        · rintro ⟨h1, h3⟩; exact Or.inr ⟨h3, h1⟩
        · rintro (⟨_, h1⟩ | ⟨h1, h3⟩)
          · omega
          · exact ⟨h3, h1⟩
      · rw [if_neg hk2]
        constructor
        · intro hx
          right
          refine ⟨hx, ?_⟩
          rintro rfl; exact hk2 (h.free_unique hk ho hx hp)
        · rintro (⟨_, h1⟩ | ⟨h1, _⟩)
          · exact absurd h1 hk1
          · exact h1
  have hfree : ∀ x, is_free M pool1 x ↔ (is_free M pool x ∨ x = b) := by
    intro x
    constructor
    · rintro ⟨k, hk, hx⟩
      rcases (hmem k x hk).1 hx with ⟨rfl | rfl, _⟩ | ⟨h1, _⟩
      · exact Or.inr rfl
      · exact Or.inl ⟨o + 1, ho, hp⟩
      · exact Or.inl ⟨k, hk, h1⟩
    · rintro (⟨k, hk, hx⟩ | hx)
      · by_cases hxp : x = p
        · exact ⟨o, ho', (hmem _ _ ho').2 (Or.inl ⟨Or.inr hxp, rfl⟩)⟩
        · exact ⟨k, hk, (hmem _ _ hk).2 (Or.inr ⟨hx, hxp⟩)⟩
      · exact ⟨o, ho', (hmem _ _ ho').2 (Or.inl ⟨Or.inl hx, rfl⟩)⟩
  have hhead : ∀ x, is_head M pool1 out x ↔ (is_head M pool out x ∨ x = b) := by
    intro x
    unfold is_head
    rw [hfree]
    tauto
  constructor
  · exact h.max_order_pos
  · exact h.max_order_le
  · rw [hz, hn]; exact h.mem_size
  · rw [hs, hn]; exact h.no_wrap
  · intro k x hk hx
    rcases (hmem k x hk).1 hx with ⟨rfl | rfl, rfl⟩ | ⟨h1, h3⟩
    · rw [hm]; simp
    · rw [hm, if_neg (Ne.symm hne)]; simp [hp_rec.1]
    · have : x ≠ b := by rintro rfl; exact hnb_free k hk h1
      rw [hm, if_neg this, if_neg h3]; exact h.free_rec k x hk h1
  · intro k hk
    rw [hl k hk]
    by_cases hk1 : k = o
    · subst hk1
      rw [if_pos rfl, List.nodup_cons, List.nodup_cons]
      refine ⟨?_, ?_, h.free_nodup _ hk⟩
      · rw [List.mem_cons]
        rintro (hx | hx)
        · exact hne hx
        · exact hnb_free _ hk hx
      · intro hx; have := h.free_unique hk ho hx hp; omega
    · rw [if_neg hk1]
      by_cases hk2 : k = o + 1
      · subst hk2; rw [if_pos rfl]; exact hnd.erase p
      · rw [if_neg hk2]; exact h.free_nodup k hk
  · intro k hk
    rw [hl k hk, hc k hk]
    by_cases hk1 : k = o
    · subst hk1; simp [h.free_count _ hk]
    · rw [if_neg hk1, if_neg hk1]
      by_cases hk2 : k = o + 1
      · subst hk2
        rw [if_pos rfl, if_pos rfl, List.length_erase_of_mem hp, h.free_count _ hk]
      · rw [if_neg hk2, if_neg hk2]; exact h.free_count k hk
  · intro x hx
    have h1 : x ≠ p := by rintro rfl; exact h.free_not_out ho hp hx
    have h3 : x ≠ b := by rintro rfl; exact hnb (Or.inl hx)
    rw [hm, if_neg h3, if_neg h1]; exact h.out_rec x hx
  · exact h.out_nodup
  · rw [hn, hbase]
    refine block_tiling_halve h.tiles hp_head hp_rec.2 hb hhead ?_ ?_ ?_
    · simp [hm, Ne.symm hne]
    · simp [hm]
    · intro x hx1 hx2; simp [hm, hx1, hx2]
  · rw [hn]
    have hout : (out.map fun pg => 2 ^ (pool1.page_metadata pg).order) =
        out.map fun pg => 2 ^ (pool.page_metadata pg).order := by
      apply List.map_congr_left
      intro x hx
      have h1 : x ≠ p := by rintro rfl; exact h.free_not_out ho hp hx
      have h3 : x ≠ b := by rintro rfl; exact hnb (Or.inl hx)
      simp only [hm, if_neg h1, if_neg h3]
    rw [hout]
    have hsum := @sum_update_two M (o + 1) o (fun k => (pool.free_lists k).nr_free * 2 ^ k)
      (fun k => (pool1.free_lists k).nr_free * 2 ^ k) ho ho' (by omega)
      (by intro k hk h1 h3; simp only [hc k hk, if_neg h1, if_neg h3])
    have hlen : 1 ≤ (pool.free_lists (o + 1)).nr_free := by
      rw [h.free_count _ ho]
      exact List.length_pos_of_mem hp
    have e1 := hc (o + 1) ho
    have e2 := hc o ho'
    rw [if_neg (by omega), if_pos rfl] at e1
    rw [if_pos rfl] at e2
    have hacc := h.account
    obtain ⟨c, hc2⟩ : ∃ c, (pool.free_lists (o + 1)).nr_free = c + 1 :=
      ⟨(pool.free_lists (o + 1)).nr_free - 1, by omega⟩
    simp only [e1, e2, hc2, Nat.add_sub_cancel, pow_succ] at hsum
    linarith

/-- Linking the outstanding block `p` into the free list of its order keeps the invariant. -/
theorem pool_inv_insert {M : Nat} {pool pool1 : phys_mem_pool} {out : List Nat} {p : Nat}
    (h : pool_inv M pool out) (hp : p ∈ out)
    (hs : pool1.pool_start_addr = pool.pool_start_addr)
    (hz : pool1.pool_mem_size = pool.pool_mem_size)
    (hn : pool1.pool_phys_page_num = pool.pool_phys_page_num)
    (hm : ∀ i, pool1.page_metadata i =
      if i = p then { allocated := 0, order := (pool.page_metadata p).order }
      else pool.page_metadata i)
    (hl : ∀ k, k < M → (pool1.free_lists k).free_list =
      if k = (pool.page_metadata p).order then p :: (pool.free_lists k).free_list
      else (pool.free_lists k).free_list)
    (hc : ∀ k, k < M → (pool1.free_lists k).nr_free =
      if k = (pool.page_metadata p).order then (pool.free_lists k).nr_free + 1
      else (pool.free_lists k).nr_free) :
    pool_inv M pool1 (out.erase p) := by
  have hp_rec := h.out_rec p hp
  have hbase : frame_base pool1 = frame_base pool := by unfold frame_base; rw [hs]
  have hnf : ∀ k, k < M → p ∉ (pool.free_lists k).free_list :=
    fun k hk hx => h.free_not_out hk hx hp
  have hord : ∀ x, (pool1.page_metadata x).order = (pool.page_metadata x).order := by
    intro x; rw [hm]; split
    · subst_vars; rfl
    · rfl
  have hmem : ∀ k x, k < M → (x ∈ (pool1.free_lists k).free_list ↔
      (x = p ∧ k = (pool.page_metadata p).order) ∨ x ∈ (pool.free_lists k).free_list) := by
    intro k x hk
    rw [hl k hk]
    by_cases hk1 : k = (pool.page_metadata p).order
    · rw [if_pos hk1, List.mem_cons]; tauto
    · rw [if_neg hk1]; tauto
  have hfree : ∀ x, is_free M pool1 x ↔ (is_free M pool x ∨ x = p) := by
    intro x
    constructor
    · rintro ⟨k, hk, hx⟩
      rcases (hmem k x hk).1 hx with ⟨rfl, _⟩ | h1
      · exact Or.inr rfl
      · exact Or.inl ⟨k, hk, h1⟩
    · rintro (⟨k, hk, hx⟩ | hx)
      · exact ⟨k, hk, (hmem _ _ hk).2 (Or.inr hx)⟩
      · exact ⟨_, hp_rec.2, (hmem _ _ hp_rec.2).2 (Or.inl ⟨hx, rfl⟩)⟩
  have hhead : ∀ x, is_head M pool1 (out.erase p) x ↔ is_head M pool out x := by
    intro x
    unfold is_head
    rw [hfree, h.out_nodup.mem_erase_iff]
    constructor
    · rintro (⟨_, hx⟩ | hx | rfl)
      · exact Or.inl hx
      · exact Or.inr hx
      · exact Or.inl hp
    · rintro (hx | hx)
      · by_cases hxp : x = p
        · exact Or.inr (Or.inr hxp)
        · exact Or.inl ⟨hxp, hx⟩
      · exact Or.inr (Or.inl hx)
  constructor
  · exact h.max_order_pos
  · exact h.max_order_le
  · rw [hz, hn]; exact h.mem_size
  · rw [hs, hn]; exact h.no_wrap
  · intro k x hk hx
    rcases (hmem k x hk).1 hx with ⟨rfl, rfl⟩ | h1
    · rw [hm]; simp
    · have : x ≠ p := by rintro rfl; exact hnf k hk h1
      rw [hm, if_neg this]; exact h.free_rec k x hk h1
  · intro k hk
    rw [hl k hk]
    by_cases hk1 : k = (pool.page_metadata p).order
    · rw [if_pos hk1, List.nodup_cons]
      exact ⟨hnf k hk, h.free_nodup k hk⟩
    · rw [if_neg hk1]; exact h.free_nodup k hk
  · intro k hk
    rw [hl k hk, hc k hk]
    by_cases hk1 : k = (pool.page_metadata p).order
    · rw [if_pos hk1, if_pos hk1, List.length_cons, h.free_count k hk]
    · rw [if_neg hk1, if_neg hk1]; exact h.free_count k hk
  · intro x hx
    have hx2 := (h.out_nodup.mem_erase_iff).1 hx
    rw [hm, if_neg hx2.1]; exact h.out_rec x hx2.2
  · exact h.out_nodup.erase p
  · rw [hn, hbase]
    exact block_tiling_congr h.tiles hhead (fun x _ => hord x)
  · rw [hn]
    have hout : (out.erase p).map (fun pg => 2 ^ (pool1.page_metadata pg).order) =
        (out.erase p).map fun pg => 2 ^ (pool.page_metadata pg).order := by
      apply List.map_congr_left
      intro x _
      simp only [hord]
    rw [hout]
    have hsum := @sum_update_one M (pool.page_metadata p).order
      (fun k => (pool.free_lists k).nr_free * 2 ^ k)
      (fun k => (pool1.free_lists k).nr_free * 2 ^ k) hp_rec.2
      (by intro k hk h1; simp only [hc k hk, if_neg h1])
    have e1 := hc _ hp_rec.2
    rw [if_pos rfl] at e1
    have hacc := h.account
    have herase := List.sum_map_erase (fun pg => 2 ^ (pool.page_metadata pg).order) hp
    simp only [e1] at hsum
    simp only at herase
    linarith

/-- Unlinking the free block `p` of order `o` and marking it allocated keeps the invariant,
with `p` among the outstanding blocks. -/
theorem pool_inv_alloc {M : Nat} {pool pool1 : phys_mem_pool} {out : List Nat} {p o : Nat}
    (h : pool_inv M pool out) (ho : o < M) (hp : p ∈ (pool.free_lists o).free_list)
    (hs : pool1.pool_start_addr = pool.pool_start_addr)
    (hz : pool1.pool_mem_size = pool.pool_mem_size)
    (hn : pool1.pool_phys_page_num = pool.pool_phys_page_num)
    (hm : ∀ i, pool1.page_metadata i =
      if i = p then { allocated := 1, order := o }
      else pool.page_metadata i)
    (hl : ∀ k, k < M → (pool1.free_lists k).free_list =
      if k = o then (pool.free_lists k).free_list.erase p
      else (pool.free_lists k).free_list)
    (hc : ∀ k, k < M → (pool1.free_lists k).nr_free =
      if k = o then (pool.free_lists k).nr_free - 1
      else (pool.free_lists k).nr_free) :
    pool_inv M pool1 (p :: out) := by
  have hp_rec := h.free_rec o p ho hp
  have hnd := h.free_nodup o ho
  have hbase : frame_base pool1 = frame_base pool := by unfold frame_base; rw [hs]
  have hord : ∀ x, (pool1.page_metadata x).order = (pool.page_metadata x).order := by
    intro x; rw [hm]; split
    · subst_vars; exact hp_rec.2.symm
    · rfl
  have hmem : ∀ k x, k < M → (x ∈ (pool1.free_lists k).free_list ↔
      (x ∈ (pool.free_lists k).free_list ∧ x ≠ p)) := by
    intro k x hk
    rw [hl k hk]
    by_cases hk1 : k = o
    · subst hk1; rw [if_pos rfl, hnd.mem_erase_iff]; tauto
    · rw [if_neg hk1]
      constructor
      · intro hx
        refine ⟨hx, ?_⟩
        rintro rfl; exact hk1 (h.free_unique hk ho hx hp)
      · exact fun hx => hx.1
  have hfree : ∀ x, is_free M pool1 x ↔ (is_free M pool x ∧ x ≠ p) := by
    intro x
    constructor
    · rintro ⟨k, hk, hx⟩
      exact ⟨⟨k, hk, ((hmem k x hk).1 hx).1⟩, ((hmem k x hk).1 hx).2⟩
    · rintro ⟨⟨k, hk, hx⟩, hxp⟩
      exact ⟨k, hk, (hmem k x hk).2 ⟨hx, hxp⟩⟩
  have hhead : ∀ x, is_head M pool1 (p :: out) x ↔ is_head M pool out x := by
    intro x
    unfold is_head
    rw [hfree, List.mem_cons]
    constructor
    · rintro ((rfl | hx) | hx)
      · exact Or.inr ⟨o, ho, hp⟩
      · exact Or.inl hx
      · exact Or.inr hx.1
    · rintro (hx | hx)
      · exact Or.inl (Or.inr hx)
      · by_cases hxp : x = p
        · exact Or.inl (Or.inl hxp)
        · exact Or.inr ⟨hx, hxp⟩
  constructor
  · exact h.max_order_pos
  · exact h.max_order_le
  · rw [hz, hn]; exact h.mem_size
  · rw [hs, hn]; exact h.no_wrap
  · intro k x hk hx
    obtain ⟨h1, h3⟩ := (hmem k x hk).1 hx
    rw [hm, if_neg h3]; exact h.free_rec k x hk h1
  · intro k hk
    rw [hl k hk]
    by_cases hk1 : k = o
    · subst hk1; rw [if_pos rfl]; exact hnd.erase p
    · rw [if_neg hk1]; exact h.free_nodup k hk
  · intro k hk
    rw [hl k hk, hc k hk]
    by_cases hk1 : k = o
    · subst hk1
      rw [if_pos rfl, if_pos rfl, List.length_erase_of_mem hp, h.free_count _ hk]
    · rw [if_neg hk1, if_neg hk1]; exact h.free_count k hk
  · intro x hx
    rcases List.mem_cons.1 hx with rfl | hxo
    · rw [hm]; simp [ho]
    · have : x ≠ p := by rintro rfl; exact h.free_not_out ho hp hxo
      rw [hm, if_neg this]; exact h.out_rec x hxo
  · rw [List.nodup_cons]
    exact ⟨h.free_not_out ho hp, h.out_nodup⟩
  · rw [hn, hbase]
    exact block_tiling_congr h.tiles hhead (fun x _ => hord x)
  · rw [hn]
    have hout : (p :: out).map (fun pg => 2 ^ (pool1.page_metadata pg).order) =
        (p :: out).map fun pg => 2 ^ (pool.page_metadata pg).order := by
      apply List.map_congr_left
      intro x _
      simp only [hord]
    rw [hout]
    have hsum := @sum_update_one M o
      (fun k => (pool.free_lists k).nr_free * 2 ^ k)
      (fun k => (pool1.free_lists k).nr_free * 2 ^ k) ho
      (by intro k hk h1; simp only [hc k hk, if_neg h1])
    have hlen : 1 ≤ (pool.free_lists o).nr_free := by
      rw [h.free_count _ ho]
      exact List.length_pos_of_mem hp
    have e1 := hc _ ho
    rw [if_pos rfl] at e1
    have hacc := h.account
    obtain ⟨c, hc2⟩ : ∃ c, (pool.free_lists o).nr_free = c + 1 :=
      ⟨(pool.free_lists o).nr_free - 1, by omega⟩
    simp only [e1, hc2, Nat.add_sub_cancel] at hsum
    simp only [List.map_cons, List.sum_cons, hp_rec.2]
    linarith

/-! ## Transitions of the coalescing property -/

theorem coalesced_imp_except {M : Nat} {pool : phys_mem_pool} (h : coalesced M pool) (ex : Nat) :
    coalesced_except M pool ex :=
  fun o x ho hx hy hal => absurd hal (h o x ho hx hy)

theorem coalesced_insert {M : Nat} {pool pool1 : phys_mem_pool} {p : Nat}
    (hco : coalesced M pool)
    (hs : pool1.pool_start_addr = pool.pool_start_addr)
    (hl : ∀ k, k < M → (pool1.free_lists k).free_list =
      if k = (pool.page_metadata p).order then p :: (pool.free_lists k).free_list
      else (pool.free_lists k).free_list) :
    coalesced_except M pool1 p := by
  have hbase : frame_base pool1 = frame_base pool := by unfold frame_base; rw [hs]
  intro k x hk hx hy hal
  have hk' : k < M := by omega
  rw [hbase] at hal
  rw [hl k hk'] at hx hy
  by_cases hk1 : k = (pool.page_metadata p).order
  · rw [if_pos hk1, List.mem_cons] at hx hy
    rcases hx with hx | hx
    · exact Or.inl hx
    · rcases hy with hy | hy
      · exact Or.inr hy
      · exact absurd hal (hco k x hk hx hy)
  · rw [if_neg hk1] at hx hy
    exact absurd hal (hco k x hk hx hy)

theorem coalesced_alloc {M : Nat} {pool pool1 : phys_mem_pool} {out : List Nat} {p o : Nat}
    (h : pool_inv M pool out) (hce : coalesced_except M pool p) (ho : o < M)
    (hp : p ∈ (pool.free_lists o).free_list)
    (hs : pool1.pool_start_addr = pool.pool_start_addr)
    (hl : ∀ k, k < M → (pool1.free_lists k).free_list =
      if k = o then (pool.free_lists k).free_list.erase p
      else (pool.free_lists k).free_list) :
    coalesced M pool1 := by
  have hbase : frame_base pool1 = frame_base pool := by unfold frame_base; rw [hs]
  intro k x hk hx hy hal
  have hk' : k < M := by omega
  rw [hbase] at hal
  rw [hl k hk'] at hx hy
  by_cases hk1 : k = o
  · subst hk1
    rw [if_pos rfl, (h.free_nodup k hk').mem_erase_iff] at hx hy
    rcases hce k x hk hx.2 hy.2 hal with e | e
    · exact hx.1 e
    · exact hy.1 e
  · rw [if_neg hk1] at hx hy
    rcases hce k x hk hx hy hal with e | e
    · subst e; exact hk1 (h.free_unique hk' ho hx hp)
    · rw [e] at hy; exact hk1 (h.free_unique hk' ho hy hp)

theorem coalesced_merge {M : Nat} {pool pool1 : phys_mem_pool} {out : List Nat}
    {lo hi o q : Nat}
    (h : pool_inv M pool out) (hce : coalesced_except M pool q) (ho : o + 1 < M)
    (hlo : lo ∈ (pool.free_lists o).free_list) (hhi : hi ∈ (pool.free_lists o).free_list)
    (hq : q = lo ∨ q = hi)
    (hs : pool1.pool_start_addr = pool.pool_start_addr)
    (hl : ∀ k, k < M → (pool1.free_lists k).free_list =
      if k = o + 1 then lo :: (pool.free_lists k).free_list
      else if k = o then ((pool.free_lists k).free_list.erase lo).erase hi
      else (pool.free_lists k).free_list) :
    coalesced_except M pool1 lo := by
  have hbase : frame_base pool1 = frame_base pool := by unfold frame_base; rw [hs]
  have ho' : o < M := by omega
  have hnd := h.free_nodup o ho'
  have hq_mem : q ∈ (pool.free_lists o).free_list := by
    rcases hq with rfl | rfl
    · exact hlo
    · exact hhi
  intro k x hk hx hy hal
  have hk' : k < M := by omega
  rw [hbase] at hal
  rw [hl k hk'] at hx hy
  -- a pair of the old lists involves `q`, so it sits at order `o`
  have old : x ∈ (pool.free_lists k).free_list → x + 2 ^ k ∈ (pool.free_lists k).free_list →
      k = o ∧ (x = q ∨ x + 2 ^ k = q) := by
    intro h1 h3
    rcases hce k x hk h1 h3 hal with e | e
    · exact ⟨h.free_unique hk' ho' (e ▸ h1) hq_mem, Or.inl e⟩
    · exact ⟨h.free_unique hk' ho' (e ▸ h3) hq_mem, Or.inr e⟩
  by_cases hk1 : k = o + 1
  · rw [if_pos hk1, List.mem_cons] at hx hy
    rcases hx with hx | hx
    · exact Or.inl hx
    · rcases hy with hy | hy
      · exact Or.inr hy
      · have := (old hx hy).1; omega
  · rw [if_neg hk1] at hx hy
    by_cases hk2 : k = o
    · subst hk2
      rw [if_pos rfl, (hnd.erase lo).mem_erase_iff, hnd.mem_erase_iff] at hx hy
      rcases (old hx.2.2 hy.2.2).2 with e | e
      · rcases hq with rfl | rfl
        · exact absurd e hx.2.1
        · exact absurd e hx.1
      · rcases hq with rfl | rfl
        · exact absurd e hy.2.1
        · exact absurd e hy.1
    · rw [if_neg hk2] at hx hy
      exact absurd (old hx hy).1 hk2

theorem coalesced_halve {M : Nat} {pool pool1 : phys_mem_pool} {out : List Nat} {p b o : Nat}
    (h : pool_inv M pool out) (hce : coalesced_except M pool p) (ho : o + 1 < M)
    (hp : p ∈ (pool.free_lists (o + 1)).free_list) (hb : b = p + 2 ^ o)
    (hs : pool1.pool_start_addr = pool.pool_start_addr)
    (hl : ∀ k, k < M → (pool1.free_lists k).free_list =
      if k = o then b :: p :: (pool.free_lists k).free_list
      else if k = o + 1 then (pool.free_lists k).free_list.erase p
      else (pool.free_lists k).free_list) :
    coalesced_except M pool1 p := by
  have hbase : frame_base pool1 = frame_base pool := by unfold frame_base; rw [hs]
  have hnd := h.free_nodup (o + 1) ho
  have hal_p : 2 ^ (o + 1) ∣ frame_base pool + p := by
    have := h.tiles.aligned p (h.free_is_head ho hp)
    simp only [(h.free_rec _ _ ho hp).2] at this
    exact this
  intro k x hk hx hy hal
  have hk' : k < M := by omega
  rw [hbase] at hal
  rw [hl k hk'] at hx hy
  have old : x ∈ (pool.free_lists k).free_list → x + 2 ^ k ∈ (pool.free_lists k).free_list →
      k = o + 1 ∧ (x = p ∨ x + 2 ^ k = p) := by
    intro h1 h3
    rcases hce k x hk h1 h3 hal with e | e
    · exact ⟨h.free_unique hk' ho (e ▸ h1) hp, Or.inl e⟩
    · exact ⟨h.free_unique hk' ho (e ▸ h3) hp, Or.inr e⟩
  by_cases hk1 : k = o
  · subst hk1
    rw [if_pos rfl, List.mem_cons, List.mem_cons] at hx hy
    rcases hx with hx | hx | hx
    · -- the upper half is not the lower block of an aligned pair
      rw [hx, hb] at hal
      exact absurd hal (not_dvd_upper hal_p)
    · exact Or.inl hx
    · rcases hy with hy | hy | hy
      · left; omega
      · exact Or.inr hy
      · have := (old hx hy).1; omega
  · rw [if_neg hk1] at hx hy
    by_cases hk2 : k = o + 1
    · subst hk2
      rw [if_pos rfl, hnd.mem_erase_iff] at hx hy
      rcases (old hx.2 hy.2).2 with e | e
      · exact absurd e hx.1
      · exact absurd e hy.1
    · rw [if_neg hk2] at hx hy
      exact absurd (old hx hy).1 hk2

/-! ## The field updates -/

@[simp] theorem set_allocated_meta (pool : phys_mem_pool) (p v i : Nat) :
    (set_allocated pool p v).page_metadata i =
      if i = p then { allocated := v, order := (pool.page_metadata i).order }
      else pool.page_metadata i := rfl
@[simp] theorem set_allocated_lists (pool : phys_mem_pool) (p v : Nat) :
    (set_allocated pool p v).free_lists = pool.free_lists := rfl
@[simp] theorem set_allocated_start (pool : phys_mem_pool) (p v : Nat) :
    (set_allocated pool p v).pool_start_addr = pool.pool_start_addr := rfl
@[simp] theorem set_allocated_size (pool : phys_mem_pool) (p v : Nat) :
    (set_allocated pool p v).pool_mem_size = pool.pool_mem_size := rfl
@[simp] theorem set_allocated_num (pool : phys_mem_pool) (p v : Nat) :
    (set_allocated pool p v).pool_phys_page_num = pool.pool_phys_page_num := rfl

@[simp] theorem set_order_meta (pool : phys_mem_pool) (p v i : Nat) :
    (set_order pool p v).page_metadata i =
      if i = p then { allocated := (pool.page_metadata i).allocated, order := v }
      else pool.page_metadata i := rfl
@[simp] theorem set_order_lists (pool : phys_mem_pool) (p v : Nat) :
    (set_order pool p v).free_lists = pool.free_lists := rfl
@[simp] theorem set_order_start (pool : phys_mem_pool) (p v : Nat) :
    (set_order pool p v).pool_start_addr = pool.pool_start_addr := rfl
@[simp] theorem set_order_size (pool : phys_mem_pool) (p v : Nat) :
    (set_order pool p v).pool_mem_size = pool.pool_mem_size := rfl
@[simp] theorem set_order_num (pool : phys_mem_pool) (p v : Nat) :
    (set_order pool p v).pool_phys_page_num = pool.pool_phys_page_num := rfl

@[simp] theorem set_nr_free_meta (pool : phys_mem_pool) (o v : Nat) :
    (set_nr_free pool o v).page_metadata = pool.page_metadata := rfl
@[simp] theorem set_nr_free_list (pool : phys_mem_pool) (o v k : Nat) :
    ((set_nr_free pool o v).free_lists k).free_list = (pool.free_lists k).free_list := by
  unfold set_nr_free; dsimp only; split <;> rfl
@[simp] theorem set_nr_free_count (pool : phys_mem_pool) (o v k : Nat) :
    ((set_nr_free pool o v).free_lists k).nr_free =
      if k = o then v else (pool.free_lists k).nr_free := by
  unfold set_nr_free; dsimp only; split <;> rfl
@[simp] theorem set_nr_free_start (pool : phys_mem_pool) (o v : Nat) :
    (set_nr_free pool o v).pool_start_addr = pool.pool_start_addr := rfl
@[simp] theorem set_nr_free_size (pool : phys_mem_pool) (o v : Nat) :
    (set_nr_free pool o v).pool_mem_size = pool.pool_mem_size := rfl
@[simp] theorem set_nr_free_num (pool : phys_mem_pool) (o v : Nat) :
    (set_nr_free pool o v).pool_phys_page_num = pool.pool_phys_page_num := rfl

@[simp] theorem list_add_meta (pool : phys_mem_pool) (x o : Nat) :
    (list_add pool x o).page_metadata = pool.page_metadata := rfl
@[simp] theorem list_add_list (pool : phys_mem_pool) (x o k : Nat) :
    ((list_add pool x o).free_lists k).free_list =
      if k = o then x :: (pool.free_lists k).free_list else (pool.free_lists k).free_list := by
  unfold list_add; dsimp only; split <;> rfl
@[simp] theorem list_add_count (pool : phys_mem_pool) (x o k : Nat) :
    ((list_add pool x o).free_lists k).nr_free = (pool.free_lists k).nr_free := by
  unfold list_add; dsimp only; split <;> rfl
@[simp] theorem list_add_start (pool : phys_mem_pool) (x o : Nat) :
    (list_add pool x o).pool_start_addr = pool.pool_start_addr := rfl
@[simp] theorem list_add_size (pool : phys_mem_pool) (x o : Nat) :
    (list_add pool x o).pool_mem_size = pool.pool_mem_size := rfl
@[simp] theorem list_add_num (pool : phys_mem_pool) (x o : Nat) :
    (list_add pool x o).pool_phys_page_num = pool.pool_phys_page_num := rfl

@[simp] theorem list_del_meta (pool : phys_mem_pool) (x : Nat) :
    (list_del pool x).page_metadata = pool.page_metadata := rfl
@[simp] theorem list_del_list (pool : phys_mem_pool) (x k : Nat) :
    ((list_del pool x).free_lists k).free_list = (pool.free_lists k).free_list.erase x := rfl
@[simp] theorem list_del_count (pool : phys_mem_pool) (x k : Nat) :
    ((list_del pool x).free_lists k).nr_free = (pool.free_lists k).nr_free := rfl
@[simp] theorem list_del_start (pool : phys_mem_pool) (x : Nat) :
    (list_del pool x).pool_start_addr = pool.pool_start_addr := rfl
@[simp] theorem list_del_size (pool : phys_mem_pool) (x : Nat) :
    (list_del pool x).pool_mem_size = pool.pool_mem_size := rfl
@[simp] theorem list_del_num (pool : phys_mem_pool) (x : Nat) :
    (list_del pool x).pool_phys_page_num = pool.pool_phys_page_num := rfl

theorem pool_inv.erase_other {M : Nat} {pool : phys_mem_pool} {out : List Nat} {o k p : Nat}
    (h : pool_inv M pool out) (ho : o < M) (hk : k < M) (hne : k ≠ o)
    (hp : p ∈ (pool.free_lists o).free_list) :
    (pool.free_lists k).free_list.erase p = (pool.free_lists k).free_list :=
  List.erase_of_not_mem (fun hx => hne (h.free_unique hk ho hx hp))

/-! ## The steps of the code as transitions -/

/-- The body of `merge_page_step`, for a pair given in either order. -/
theorem merge_page_step_spec {M : Nat} {pool : phys_mem_pool} {out : List Nat}
    {p b lo hi o : Nat} (h : pool_inv M pool out) (ho : o + 1 < M)
    (hlo : lo ∈ (pool.free_lists o).free_list) (hhi : hi ∈ (pool.free_lists o).free_list)
    (hlt : lo < hi) (hpb : (p = lo ∧ b = hi) ∨ (p = hi ∧ b = lo)) :
    (merge_page_step pool p b).2 = lo ∧
    (merge_page_step pool p b).1.pool_start_addr = pool.pool_start_addr ∧
    (merge_page_step pool p b).1.pool_mem_size = pool.pool_mem_size ∧
    (merge_page_step pool p b).1.pool_phys_page_num = pool.pool_phys_page_num ∧
    (∀ i, (merge_page_step pool p b).1.page_metadata i =
      if i = lo then { allocated := (pool.page_metadata lo).allocated, order := o + 1 }
      else pool.page_metadata i) ∧
    (∀ k, k < M → ((merge_page_step pool p b).1.free_lists k).free_list =
      if k = o + 1 then lo :: (pool.free_lists k).free_list
      else if k = o then ((pool.free_lists k).free_list.erase lo).erase hi
      else (pool.free_lists k).free_list) ∧
    (∀ k, k < M → ((merge_page_step pool p b).1.free_lists k).nr_free =
      if k = o + 1 then (pool.free_lists k).nr_free + 1
      else if k = o then (pool.free_lists k).nr_free - 2
      else (pool.free_lists k).nr_free) := by
  have ho' : o < M := by omega
  have hord : (pool.page_metadata lo).order = o := (h.free_rec o lo ho' hlo).2
  have e1 : (if p > b then b else p) = lo := by
    rcases hpb with ⟨rfl, rfl⟩ | ⟨rfl, rfl⟩
    · rw [if_neg (by omega)]
    · rw [if_pos (by omega)]
  have e2 : (if p > b then p else b) = hi := by
    rcases hpb with ⟨rfl, rfl⟩ | ⟨rfl, rfl⟩
    · rw [if_neg (by omega)]
    · rw [if_pos (by omega)]
  unfold merge_page_step
  simp only [e1, e2, hord]
  refine ⟨trivial, rfl, rfl, rfl, ?_, ?_, ?_⟩
  · intro i
    simp only [list_add_meta, set_nr_free_meta, set_order_meta, list_del_meta]
    split
    · subst_vars; rfl
    · rfl
  · intro k hk
    simp only [list_add_list, set_nr_free_list, set_order_lists, list_del_list]
    by_cases hk1 : k = o + 1
    · subst hk1
      rw [if_pos rfl, if_pos rfl, h.erase_other ho' hk (by omega) hlo,
        h.erase_other ho' hk (by omega) hhi]
    · rw [if_neg hk1, if_neg hk1]
      by_cases hk2 : k = o
      · rw [if_pos hk2]
      · rw [if_neg hk2, h.erase_other ho' hk hk2 hlo, h.erase_other ho' hk hk2 hhi]
  · intro k hk
    simp only [list_add_count, set_nr_free_count, set_order_lists, list_del_count]
    by_cases hk1 : k = o + 1
    · subst hk1
      simp
    · rw [if_neg hk1, if_neg hk1]
      by_cases hk2 : k = o
      · subst hk2; simp
      · rw [if_neg hk2, if_neg hk2]

/-! ## Buddies of block heads -/

/-- The buddy computed by `get_buddy_chunk` for the head of a block. -/
theorem pool_inv.buddy_eq {M : Nat} {pool : phys_mem_pool} {out : List Nat} {p : Nat}
    (h : pool_inv M pool out) (hp : is_head M pool out p) :
    get_buddy_chunk pool p =
      if 2 ^ ((pool.page_metadata p).order + 1) ∣ frame_base pool + p then
        (if p + 2 ^ (pool.page_metadata p).order < pool.pool_phys_page_num then
          some (p + 2 ^ (pool.page_metadata p).order) else none)
      else
        (if 2 ^ (pool.page_metadata p).order ≤ p then
          some (p - 2 ^ (pool.page_metadata p).order) else none) := by
  have h1 := h.head_order_lt hp
  have h2 := h.max_order_le
  exact get_buddy_chunk_aligned pool p h.mem_size h.no_wrap (h.head_lt hp) (by omega)
    (h.tiles.aligned p hp)

/-- A buddy returned for a block head forms an aligned pair with it, and heads a block of at
most the same order. -/
theorem pool_inv.buddy_pair {M : Nat} {pool : phys_mem_pool} {out : List Nat} {p b : Nat}
    (h : pool_inv M pool out) (hp : is_head M pool out p)
    (hb : get_buddy_chunk pool p = some b) :
    ∃ lo hi, ((p = lo ∧ b = hi) ∨ (p = hi ∧ b = lo)) ∧
      hi = lo + 2 ^ (pool.page_metadata p).order ∧
      2 ^ ((pool.page_metadata p).order + 1) ∣ frame_base pool + lo ∧
      is_head M pool out b ∧ (pool.page_metadata b).order ≤ (pool.page_metadata p).order := by
  rw [h.buddy_eq hp] at hb
  have hs := two_pow_pos (pool.page_metadata p).order
  by_cases hd : 2 ^ ((pool.page_metadata p).order + 1) ∣ frame_base pool + p
  · rw [if_pos hd] at hb
    by_cases hlt : p + 2 ^ (pool.page_metadata p).order < pool.pool_phys_page_num
    · rw [if_pos hlt] at hb
      have hbe : b = p + 2 ^ (pool.page_metadata p).order := (Option.some.inj hb).symm
      have := block_tiling_sibling h.tiles hd hbe (by omega) (Or.inl ⟨hp, rfl⟩)
      exact ⟨p, b, Or.inl ⟨rfl, rfl⟩, hbe, hd, this.2.1, this.2.2⟩
    · rw [if_neg hlt] at hb; exact absurd hb (by simp)
  · rw [if_neg hd] at hb
    by_cases hle : 2 ^ (pool.page_metadata p).order ≤ p
    · rw [if_pos hle] at hb
      have hbe : b = p - 2 ^ (pool.page_metadata p).order := (Option.some.inj hb).symm
      have hal := dvd_lower (h.tiles.aligned p hp) hd hle
      rw [← hbe] at hal
      have hpe : p = b + 2 ^ (pool.page_metadata p).order := by omega
      have := block_tiling_sibling h.tiles hal hpe (h.head_lt hp) (Or.inr ⟨hp, rfl⟩)
      exact ⟨b, p, Or.inr ⟨rfl, rfl⟩, hpe, hal, this.1.1, this.1.2⟩
    · rw [if_neg hle] at hb; exact absurd hb (by simp)

/-- The two blocks of an aligned pair of free blocks of one order are buddies. -/
theorem pool_inv.buddy_of_pair {M : Nat} {pool : phys_mem_pool} {out : List Nat} {x o : Nat}
    (h : pool_inv M pool out) (ho : o < M)
    (hx : x ∈ (pool.free_lists o).free_list) (hy : x + 2 ^ o ∈ (pool.free_lists o).free_list)
    (hal : 2 ^ (o + 1) ∣ frame_base pool + x) :
    get_buddy_chunk pool x = some (x + 2 ^ o) ∧ get_buddy_chunk pool (x + 2 ^ o) = some x := by
  have hs := two_pow_pos o
  have hxh := h.free_is_head ho hx
  have hyh := h.free_is_head ho hy
  have hxo := (h.free_rec o x ho hx).2
  have hyo := (h.free_rec o _ ho hy).2
  constructor
  · rw [h.buddy_eq hxh, hxo, if_pos hal, if_pos (h.head_lt hyh)]
  · rw [h.buddy_eq hyh, hyo, if_neg (not_dvd_upper hal), if_pos (by omega)]
    congr 1; omega

/-! ## Merge -/

/-- The recursion of `merge_page`, started on a free block that is the only one that may
have a free buddy of its order, keeps the invariant and ends with no such pair left. -/
theorem merge_page_aux_inv {M : Nat} {out : List Nat} :
    ∀ (fuel : Nat) (pool : phys_mem_pool) (p : Nat),
      pool_inv M pool out → coalesced_except M pool p →
      p ∈ (pool.free_lists (pool.page_metadata p).order).free_list →
      (pool.page_metadata p).order < M →
      M - 1 - (pool.page_metadata p).order ≤ fuel →
      pool_inv M (merge_page_aux M fuel pool p).1 out ∧
        coalesced M (merge_page_aux M fuel pool p).1 := by
  intro fuel
  induction fuel with
  | zero =>
    intro pool p h hce hp ho hf
    refine ⟨h, ?_⟩
    intro k x hk hx hy hal
    have hk' : k < M := by omega
    rcases hce k x hk hx hy hal with e | e
    · subst e; have := (h.free_rec k x hk' hx).2; omega
    · rw [e] at hy; have := (h.free_rec k p hk' hy).2; omega
  | succ fuel ih =>
    intro pool p h hce hp ho hf
    have hph : is_head M pool out p := h.free_is_head ho hp
    have hp_rec := h.free_rec _ p ho hp
    -- a pair left over involves `p`, whose buddy is then the other block of the pair
    have stop : (∀ b, get_buddy_chunk pool p = some b →
        b ∈ (pool.free_lists (pool.page_metadata p).order).free_list → False) →
        coalesced M pool := by
      intro hno k x hk hx hy hal
      have hk' : k < M := by omega
      have hbp := h.buddy_of_pair hk' hx hy hal
      rcases hce k x hk hx hy hal with e | e
      · subst e
        have := (h.free_rec k x hk' hx).2
        exact hno _ hbp.1 (by rw [this]; exact hy)
      · rw [e] at hy hbp
        have := (h.free_rec k p hk' hy).2
        exact hno _ hbp.2 (by rw [this]; exact hx)
    unfold merge_page_aux
    by_cases hc1 : (pool.page_metadata p).order ≥ M - 1 ∨ (pool.page_metadata p).allocated = 1
    · rw [if_pos hc1]
      refine ⟨h, ?_⟩
      intro k x hk hx hy hal
      have hk' : k < M := by omega
      have hord : (pool.page_metadata p).order ≥ M - 1 := by
        rcases hc1 with h1 | h1
        · exact h1
        · omega
      rcases hce k x hk hx hy hal with e | e
      · subst e; have := (h.free_rec k x hk' hx).2; omega
      · rw [e] at hy; have := (h.free_rec k p hk' hy).2; omega
    · rw [if_neg hc1]
      cases hb : get_buddy_chunk pool p with
      | none =>
        refine ⟨h, stop ?_⟩
        intro b hb2; rw [hb] at hb2; exact absurd hb2 (by simp)
      | some b =>
        dsimp only
        by_cases hc2 : (pool.page_metadata b).allocated = 1 ∨
            (pool.page_metadata b).order ≠ (pool.page_metadata p).order
        · rw [if_pos hc2]
          refine ⟨h, stop ?_⟩
          intro b2 hb2 hmem
          rw [hb] at hb2
          have hbe : b = b2 := Option.some.inj hb2
          subst hbe
          have := h.free_rec _ b ho hmem
          rcases hc2 with h1 | h1
          · omega
          · exact h1 this.2
        · rw [if_neg hc2]
          have hba : (pool.page_metadata b).allocated ≠ 1 := fun e => hc2 (Or.inl e)
          have hbo : (pool.page_metadata b).order = (pool.page_metadata p).order := by
            by_contra e; exact hc2 (Or.inr e)
          obtain ⟨lo, hi, hpb, hhi, hal, hbh, _⟩ := h.buddy_pair hph hb
          have hbm := h.head_free hbh hba
          rw [hbo] at hbm
          have ho1 : (pool.page_metadata p).order + 1 < M := by omega
          have hs := two_pow_pos (pool.page_metadata p).order
          have hlo : lo ∈ (pool.free_lists (pool.page_metadata p).order).free_list := by
            rcases hpb with ⟨rfl, rfl⟩ | ⟨rfl, rfl⟩
            · exact hp
            · exact hbm
          have hhim : hi ∈ (pool.free_lists (pool.page_metadata p).order).free_list := by
            rcases hpb with ⟨rfl, rfl⟩ | ⟨rfl, rfl⟩
            · exact hbm
            · exact hp
          obtain ⟨e2, e3, e4, e5, e6, e7, e8⟩ :=
            merge_page_step_spec h ho1 hlo hhim (by omega) hpb
          have hinv := pool_inv_merge h ho1 hlo hhim hhi hal e3 e4 e5 e6 e7 e8
          have hq : p = lo ∨ p = hi := by
            rcases hpb with ⟨e, _⟩ | ⟨e, _⟩
            · exact Or.inl e
            · exact Or.inr e
          have hce2 := coalesced_merge h hce ho1 hlo hhim hq e3 e7
          rw [e2]
          have hlo_ord : ((merge_page_step pool p b).1.page_metadata lo).order
              = (pool.page_metadata p).order + 1 := by rw [e6]; simp
          apply ih _ lo hinv hce2
          · rw [hlo_ord, e7 _ ho1, if_pos rfl]; exact List.mem_cons_self _ _
          · rw [hlo_ord]; exact ho1
          · rw [hlo_ord]; omega

/-! ## Release -/

/-- Lines 226-229 of `buddy_free_pages`: the released block is linked at the front of the
free list of its order. -/
theorem free_insert_spec (pool : phys_mem_pool) (p : Nat) :
    let pool1 := list_add (set_nr_free (set_allocated pool p 0) (pool.page_metadata p).order
      ((pool.free_lists (pool.page_metadata p).order).nr_free + 1)) p (pool.page_metadata p).order
    pool1.pool_start_addr = pool.pool_start_addr ∧
    pool1.pool_mem_size = pool.pool_mem_size ∧
    pool1.pool_phys_page_num = pool.pool_phys_page_num ∧
    (∀ i, pool1.page_metadata i =
      if i = p then { allocated := 0, order := (pool.page_metadata p).order }
      else pool.page_metadata i) ∧
    (∀ k, (pool1.free_lists k).free_list =
      if k = (pool.page_metadata p).order then p :: (pool.free_lists k).free_list
      else (pool.free_lists k).free_list) ∧
    (∀ k, (pool1.free_lists k).nr_free =
      if k = (pool.page_metadata p).order then (pool.free_lists k).nr_free + 1
      else (pool.free_lists k).nr_free) := by
  refine ⟨rfl, rfl, rfl, ?_, ?_, ?_⟩
  · intro i
    simp only [list_add_meta, set_nr_free_meta, set_allocated_meta]
    split
    · subst_vars; rfl
    · rfl
  · intro k
    simp only [list_add_list, set_nr_free_list, set_allocated_lists]
  · intro k
    simp only [list_add_count, set_nr_free_count, set_allocated_lists]
    split
    · subst_vars; rfl
    · rfl

theorem buddy_free_pages_eq (M : Nat) (pool : phys_mem_pool) (p : Nat) :
    buddy_free_pages M pool p =
      (merge_page M (list_add (set_nr_free (set_allocated pool p 0) (pool.page_metadata p).order
        ((pool.free_lists (pool.page_metadata p).order).nr_free + 1)) p
        (pool.page_metadata p).order) p).1 := by
  unfold buddy_free_pages
  simp

/-- Releasing an outstanding block keeps the invariant and leaves no pair of free buddies. -/
theorem buddy_free_pages_inv {M : Nat} {pool : phys_mem_pool} {out : List Nat} {p : Nat}
    (h : pool_inv M pool out) (hco : coalesced M pool) (hp : p ∈ out) :
    pool_inv M (buddy_free_pages M pool p) (out.erase p) ∧
      coalesced M (buddy_free_pages M pool p) := by
  rw [buddy_free_pages_eq]
  obtain ⟨e1, e2, e3, e4, e5, e6⟩ := free_insert_spec pool p
  have hinv := pool_inv_insert h hp e1 e2 e3 e4 (fun k _ => e5 k) (fun k _ => e6 k)
  have hce := coalesced_insert hco e1 (fun k _ => e5 k)
  have ho := (h.out_rec p hp).2
  generalize hq : list_add (set_nr_free (set_allocated pool p 0) (pool.page_metadata p).order
        ((pool.free_lists (pool.page_metadata p).order).nr_free + 1)) p
        (pool.page_metadata p).order = pool1 at *
  have hord : (pool1.page_metadata p).order = (pool.page_metadata p).order := by
    rw [e4]; simp
  unfold merge_page
  apply merge_page_aux_inv _ _ _ hinv hce
  · rw [hord, e5, if_pos rfl]; exact List.mem_cons_self _ _
  · rw [hord]; exact ho
  · exact le_refl _

/-! ## Split -/

/-- One halving of a free block of order `o + 1`: the buddy is found, it is the upper half
`p + 2 ^ o`, and both halves are linked at the front of the free list of order `o`. -/
theorem split_page_halve_spec {M : Nat} {pool : phys_mem_pool} {out : List Nat} {p o : Nat}
    (h : pool_inv M pool out) (ho : o + 1 < M)
    (hp : p ∈ (pool.free_lists (o + 1)).free_list) :
    ∃ pool1, split_page_halve pool p = some pool1 ∧
      pool1.pool_start_addr = pool.pool_start_addr ∧
      pool1.pool_mem_size = pool.pool_mem_size ∧
      pool1.pool_phys_page_num = pool.pool_phys_page_num ∧
      (∀ i, pool1.page_metadata i =
        if i = p + 2 ^ o then { allocated := 0, order := o }
        else if i = p then { allocated := (pool.page_metadata p).allocated, order := o }
        else pool.page_metadata i) ∧
      (∀ k, k < M → (pool1.free_lists k).free_list =
        if k = o then (p + 2 ^ o) :: p :: (pool.free_lists k).free_list
        else if k = o + 1 then (pool.free_lists k).free_list.erase p
        else (pool.free_lists k).free_list) ∧
      (∀ k, k < M → (pool1.free_lists k).nr_free =
        if k = o then (pool.free_lists k).nr_free + 2
        else if k = o + 1 then (pool.free_lists k).nr_free - 1
        else (pool.free_lists k).nr_free) := by
  have hs := two_pow_pos o
  have hord : (pool.page_metadata p).order = o + 1 := (h.free_rec _ p ho hp).2
  have hph := h.free_is_head ho hp
  have hal : 2 ^ (o + 1) ∣ frame_base pool + p := by
    have := h.tiles.aligned p hph
    simp only [hord] at this; exact this
  have hwi : p + 2 ^ (o + 1) ≤ pool.pool_phys_page_num := by
    have := h.tiles.within p hph
    simp only [hord] at this; exact this
  have h2 : 2 ^ (o + 1) = 2 ^ o + 2 ^ o := by rw [pow_succ]; ring
  have hmax := h.max_order_le
  -- the buddy of `p` at its new order
  have hbud : get_buddy_chunk (list_del (set_nr_free (set_order pool p (o + 1 - 1)) (o + 1)
      (((set_order pool p (o + 1 - 1)).free_lists (o + 1)).nr_free - 1)) p) p
      = some (p + 2 ^ o) := by
    have hmo : ((list_del (set_nr_free (set_order pool p (o + 1 - 1)) (o + 1)
      (((set_order pool p (o + 1 - 1)).free_lists (o + 1)).nr_free - 1)) p).page_metadata p).order
        = o := by simp
    rw [get_buddy_chunk_aligned _ p (by simpa using h.mem_size) (by simpa using h.no_wrap)
      (by simp; omega) (by rw [hmo]; omega)
      (by rw [hmo]; exact dvd_trans (pow_dvd_pow 2 (by omega)) hal)]
    rw [hmo]
    have hb : frame_base (list_del (set_nr_free (set_order pool p (o + 1 - 1)) (o + 1)
      (((set_order pool p (o + 1 - 1)).free_lists (o + 1)).nr_free - 1)) p) = frame_base pool := rfl
    rw [hb, if_pos hal, if_pos (by simp; omega)]
  unfold split_page_halve
  simp only [hord]
  rw [hbud]
  refine ⟨_, rfl, rfl, rfl, rfl, ?_, ?_, ?_⟩
  · intro i
    simp only [list_add_meta, set_nr_free_meta, set_order_meta, set_allocated_meta, list_del_meta]
    have hne : p ≠ p + 2 ^ o := by omega
    by_cases h1 : i = p + 2 ^ o
    · subst h1; simp
    · by_cases h3 : i = p
      · subst h3; simp [h1]
      · simp [h1, h3]
  · intro k hk
    simp only [list_add_list, set_nr_free_list, set_order_lists, set_allocated_lists,
      list_del_list, Nat.add_sub_cancel]
    by_cases hk1 : k = o
    · subst hk1
      simp only [if_true]
      rw [h.erase_other ho hk (by omega) hp]
    · simp only [if_neg hk1]
      by_cases hk2 : k = o + 1
      · rw [if_pos hk2]
      · rw [if_neg hk2, h.erase_other ho hk hk2 hp]
  · intro k hk
    simp only [list_add_count, set_nr_free_count, set_order_lists, set_allocated_lists,
      list_del_count, Nat.add_sub_cancel]
    by_cases hk1 : k = o
    · subst hk1; simp
    · simp only [if_neg hk1]
      by_cases hk2 : k = o + 1
      · subst hk2; simp
      · simp [hk2]

/-- The recursion of `split_page` on a free block `p` of order `t + d`, when the free lists
of the orders `t .. t + d - 1` are empty: every halving finds its buddy, the block comes out
at order `t` linked behind its buddy, and each order in between holds one upper half. -/
theorem split_page_aux_spec {M : Nat} {out : List Nat} (pool0 : phys_mem_pool) (p : Nat) :
    ∀ (d t : Nat),
      pool_inv M pool0 out → coalesced_except M pool0 p → t + d < M →
      p ∈ (pool0.free_lists (t + d)).free_list →
      (∀ j, t ≤ j → j < t + d → (pool0.free_lists j).free_list = []) →
      ∃ pool1, split_page_aux d pool0 t p = some (pool1, p) ∧
        pool_inv M pool1 out ∧ coalesced_except M pool1 p ∧
        pool1.pool_start_addr = pool0.pool_start_addr ∧
        pool1.pool_mem_size = pool0.pool_mem_size ∧
        pool1.pool_phys_page_num = pool0.pool_phys_page_num ∧
        (∀ j, j < M → (pool1.free_lists j).free_list =
          if d = 0 then (pool0.free_lists j).free_list
          else if j = t + d then (pool0.free_lists j).free_list.erase p
          else if j = t then [p + 2 ^ t, p]
          else if t < j ∧ j < t + d then [p + 2 ^ j]
          else (pool0.free_lists j).free_list) ∧
        p ∈ (pool1.free_lists t).free_list ∧
        (∀ x, x ∈ out → pool1.page_metadata x = pool0.page_metadata x) := by
  intro d
  induction d with
  | zero =>
    intro t h hce ht hp _
    exact ⟨pool0, rfl, h, hce, rfl, rfl, rfl, fun j _ => by simp, hp, fun _ _ => rfl⟩
  | succ d ih =>
    intro t h hce ht hp hempty
    have hL : t + 1 + d = t + (d + 1) := by omega
    have hp_rec := h.free_rec _ p ht hp
    -- the recursive call, or no call at distance one
    have hdeep : (if (pool0.page_metadata p).order - t > 1 then
        split_page_aux d pool0 (t + 1) p else some (pool0, p))
        = split_page_aux d pool0 (t + 1) p := by
      rw [hp_rec.2]
      by_cases hd : d = 0
      · subst hd; rw [if_neg (by omega)]; rfl
      · rw [if_pos (by omega)]
    obtain ⟨pool1, e1, hinv1, hce1, es1, ez1, en1, el1, hp1, hout1⟩ :=
      ih (t + 1) h hce (by omega) (by rw [hL]; exact hp)
        (fun j h1 h3 => hempty j (by omega) (by omega))
    obtain ⟨pool2, e2, es2, ez2, en2, em2, el2, ec2⟩ :=
      split_page_halve_spec hinv1 (by omega : t + 1 < M) hp1
    have hinv2 := pool_inv_halve hinv1 (by omega : t + 1 < M) hp1 rfl es2 ez2 en2 em2 el2 ec2
    have hce2 := coalesced_halve hinv1 hce1 (by omega : t + 1 < M) hp1 rfl es2 el2
    refine ⟨pool2, ?_, hinv2, hce2, by rw [es2, es1], by rw [ez2, ez1], by rw [en2, en1], ?_, ?_,
      ?_⟩
    · unfold split_page_aux
      rw [if_neg (by rw [hp_rec.1, hp_rec.2]; omega)]
      dsimp only
      rw [hdeep, e1]
      dsimp only
      rw [e2]
    · intro j hj
      have hs := two_pow_pos (t + 1)
      rw [el2 j hj, if_neg (by omega : ¬ d + 1 = 0)]
      by_cases hj1 : j = t
      · subst hj1
        rw [if_pos rfl, if_neg (by omega), if_pos rfl, el1 j hj]
        have hz : (pool0.free_lists j).free_list = [] := hempty j (le_refl _) (by omega)
        by_cases hd : d = 0
        · rw [if_pos hd, hz]
        · rw [if_neg hd, if_neg (by omega), if_neg (by omega), if_neg (by omega), hz]
      · rw [if_neg hj1, if_neg hj1]
        by_cases hj2 : j = t + 1
        · subst hj2
          rw [if_pos rfl, el1 _ hj]
          by_cases hd : d = 0
          · subst hd
            rw [if_pos rfl, if_pos rfl]
          · rw [if_neg hd, if_neg (by omega), if_pos rfl, if_neg (by omega),
              if_pos (by omega)]
            simp
        · rw [if_neg hj2, el1 j hj]
          by_cases hd : d = 0
          · subst hd
            rw [if_pos rfl, if_neg (by omega), if_neg (by omega)]
          · rw [if_neg hd, hL, if_neg hj2]
            by_cases hj3 : j = t + (d + 1)
            · rw [if_pos hj3, if_pos hj3]
            · rw [if_neg hj3, if_neg hj3]
              by_cases hj4 : t + 1 < j ∧ j < t + (d + 1)
              · rw [if_pos hj4, if_pos (by omega)]
              · rw [if_neg hj4, if_neg (by omega)]
    · rw [el2 t (by omega), if_pos rfl]
      exact List.mem_cons_of_mem _ (List.mem_cons_self _ _)
    · intro x hx
      have hs := two_pow_pos t
      have h2 : 2 ^ (t + 1) = 2 ^ t + 2 ^ t := by rw [pow_succ]; ring
      have hxp : x ≠ p := by rintro rfl; exact hinv1.free_not_out (by omega : t + 1 < M) hp1 hx
      have hxb : x ≠ p + 2 ^ t := by
        intro e
        have := hinv1.tiles.disjoint p x (hinv1.free_is_head (by omega : t + 1 < M) hp1)
          (Or.inl hx) (by omega)
          (by simp only [(hinv1.free_rec _ p (by omega : t + 1 < M) hp1).2]; omega)
        omega
      rw [em2, if_neg hxb, if_neg hxp]
      exact hout1 x hx

/-! ## Acquire -/

/-- The scan of `buddy_get_pages` stops at the first order whose counter is not zero. -/
theorem scan_larger_order_eq (M : Nat) (pool : phys_mem_pool) (L : Nat) (hL : L < M)
    (hn : (pool.free_lists L).nr_free ≠ 0) :
    ∀ (fuel lo : Nat), lo ≤ L → L - lo < fuel →
      (∀ j, lo ≤ j → j < L → (pool.free_lists j).nr_free = 0) →
      scan_larger_order M pool fuel lo = some L := by
  intro fuel
  induction fuel with
  | zero => intro lo _ h _; omega
  | succ fuel ih =>
    intro lo hlo hf hz
    unfold scan_larger_order
    by_cases hl : lo = L
    · subst hl; rw [if_neg hn]
    · rw [if_pos (hz lo (le_refl _) (by omega)), if_neg (by omega)]
      exact ih (lo + 1) (by omega) (by omega) (fun j h1 h3 => hz j (by omega) h3)

/-- What the scan of `buddy_get_pages` returns. -/
theorem scan_larger_order_some (M : Nat) (pool : phys_mem_pool) :
    ∀ (fuel lo L : Nat), lo < M → scan_larger_order M pool fuel lo = some L →
      lo ≤ L ∧ L < M ∧ (pool.free_lists L).nr_free ≠ 0 ∧
        ∀ j, lo ≤ j → j < L → (pool.free_lists j).nr_free = 0 := by
  intro fuel
  induction fuel with
  | zero => intro lo L _ h; simp [scan_larger_order] at h
  | succ fuel ih =>
    intro lo L hlo h
    unfold scan_larger_order at h
    by_cases hz : (pool.free_lists lo).nr_free = 0
    · rw [if_pos hz] at h
      by_cases hm : lo + 1 ≥ M
      · rw [if_pos hm] at h; exact absurd h (by simp)
      · rw [if_neg hm] at h
        obtain ⟨h1, h2, h3, h4⟩ := ih (lo + 1) L (by omega) h
        refine ⟨by omega, h2, h3, ?_⟩
        intro j hj1 hj2
        by_cases hj : j = lo
        · subst hj; exact hz
        · exact h4 j (by omega) hj2
    · rw [if_neg hz] at h
      have : lo = L := Option.some.inj h
      subst this
      exact ⟨le_refl _, hlo, hz, fun j h1 h3 => by omega⟩

/-- The scan of `buddy_get_pages` fails only when every counter from `lo` on is zero. -/
theorem scan_larger_order_none (M : Nat) (pool : phys_mem_pool) :
    ∀ (fuel lo : Nat), M - lo ≤ fuel → scan_larger_order M pool fuel lo = none →
      ∀ j, lo ≤ j → j < M → (pool.free_lists j).nr_free = 0 := by
  intro fuel
  induction fuel with
  | zero => intro lo hf _ j h1 h3; omega
  | succ fuel ih =>
    intro lo hf h j h1 h3
    unfold scan_larger_order at h
    by_cases hz : (pool.free_lists lo).nr_free = 0
    · rw [if_pos hz] at h
      by_cases hj : j = lo
      · subst hj; exact hz
      · by_cases hm : lo + 1 ≥ M
        · omega
        · rw [if_neg hm] at h
          exact ih (lo + 1) (by omega) h j (by omega) h3
    · rw [if_neg hz] at h; exact absurd h (by simp)

/-- Lines 156-159 and 163-166 of `buddy_get_pages`: the free block `p` of order `o` is marked
allocated and unlinked. -/
theorem alloc_spec {M : Nat} {pool : phys_mem_pool} {out : List Nat} {p o : Nat}
    (h : pool_inv M pool out) (ho : o < M) (hp : p ∈ (pool.free_lists o).free_list) :
    let pool1 := list_del (set_nr_free (set_allocated pool p 1) o
      (((set_allocated pool p 1).free_lists o).nr_free - 1)) p
    pool1.pool_start_addr = pool.pool_start_addr ∧
    pool1.pool_mem_size = pool.pool_mem_size ∧
    pool1.pool_phys_page_num = pool.pool_phys_page_num ∧
    (∀ i, pool1.page_metadata i =
      if i = p then { allocated := 1, order := o } else pool.page_metadata i) ∧
    (∀ k, k < M → (pool1.free_lists k).free_list =
      if k = o then (pool.free_lists k).free_list.erase p
      else (pool.free_lists k).free_list) ∧
    (∀ k, k < M → (pool1.free_lists k).nr_free =
      if k = o then (pool.free_lists k).nr_free - 1
      else (pool.free_lists k).nr_free) := by
  have hord := (h.free_rec o p ho hp).2
  refine ⟨rfl, rfl, rfl, ?_, ?_, ?_⟩
  · intro i
    simp only [list_del_meta, set_nr_free_meta, set_allocated_meta]
    split
    · subst_vars; rfl
    · rfl
  · intro k hk
    simp only [list_del_list, set_nr_free_list, set_allocated_lists]
    by_cases hk1 : k = o
    · rw [if_pos hk1]
    · rw [if_neg hk1, h.erase_other ho hk hk1 hp]
  · intro k hk
    simp only [list_del_count, set_nr_free_count, set_allocated_lists]
    split
    · subst_vars; rfl
    · rfl

/-- A successful `buddy_get_pages`: with `L` the first order from `order` on whose counter is
not zero, the first block of the free list of order `L` is returned, marked allocated at the
requested order, and each order from `order` to `L - 1` receives one upper half. -/
theorem buddy_get_pages_spec {M : Nat} {pool : phys_mem_pool} {out : List Nat} {order L : Nat}
    (h : pool_inv M pool out) (hco : coalesced M pool)
    (hL1 : order ≤ L) (hL2 : L < M) (hLn : (pool.free_lists L).nr_free ≠ 0)
    (hLmin : ∀ j, order ≤ j → j < L → (pool.free_lists j).nr_free = 0) :
    ∃ p rest pool1, (pool.free_lists L).free_list = p :: rest ∧
      buddy_get_pages M pool order = some (pool1, some p) ∧
      pool_inv M pool1 (p :: out) ∧ coalesced M pool1 ∧
      pool1.page_metadata p = { allocated := 1, order := order } ∧
      pool1.pool_start_addr = pool.pool_start_addr ∧
      pool1.pool_mem_size = pool.pool_mem_size ∧
      pool1.pool_phys_page_num = pool.pool_phys_page_num ∧
      (∀ j, j < M → (pool1.free_lists j).free_list =
        if j = L then rest
        else if order ≤ j ∧ j < L then [p + 2 ^ j]
        else (pool.free_lists j).free_list) ∧
      (∀ x, x ∈ out → pool1.page_metadata x = pool.page_metadata x) := by
  have horder : order < M := by omega
  -- the free list of order `L` has a first member
  obtain ⟨p, rest, hlist⟩ : ∃ p rest, (pool.free_lists L).free_list = p :: rest := by
    cases hl : (pool.free_lists L).free_list with
    | nil =>
      have := h.free_count L hL2
      rw [hl] at this
      exact absurd this hLn
    | cons p rest => exact ⟨p, rest, rfl⟩
  have hpL : p ∈ (pool.free_lists L).free_list := by rw [hlist]; exact List.mem_cons_self _ _
  have herase : (pool.free_lists L).free_list.erase p = rest := by
    rw [hlist]; exact List.erase_cons_head p rest
  refine ⟨p, rest, ?_⟩
  by_cases hz : (pool.free_lists order).nr_free = 0
  · -- a larger block is split
    have hlt : order < L := by
      rcases Nat.lt_or_ge order L with h1 | h1
      · exact h1
      · have : L = order := by omega
        subst this; exact absurd hz hLn
    have hscan := scan_larger_order_eq M pool L hL2 hLn M order hL1 (by omega) hLmin
    have hd : order + (L - order) = L := by omega
    have hp_rec := h.free_rec L p hL2 hpL
    obtain ⟨pool1, e1, hinv1, hce1, es1, ez1, en1, el1, hp1, hout1⟩ :=
      split_page_aux_spec pool p (L - order) order h (coalesced_imp_except hco p)
        (by omega) (by rw [hd]; exact hpL)
        (fun j h1 h3 => by
          have h4 := hLmin j h1 (by omega)
          rw [h.free_count j (by omega)] at h4
          exact List.length_eq_zero.1 h4)
    have hsplit : split_page pool order p = some (pool1, p) := by
      unfold split_page; rw [hp_rec.2]; exact e1
    obtain ⟨as1, az1, an1, am1, al1, ac1⟩ := alloc_spec hinv1 horder hp1
    have hinv2 := pool_inv_alloc hinv1 horder hp1 as1 az1 an1 am1 al1 ac1
    have hco2 := coalesced_alloc hinv1 hce1 horder hp1 as1 al1
    have hord1 : (pool1.page_metadata p).order = order := (hinv1.free_rec _ p horder hp1).2
    have hget : buddy_get_pages M pool order = some
        (list_del (set_nr_free (set_allocated pool1 p 1) order
          (((set_allocated pool1 p 1).free_lists order).nr_free - 1)) p, some p) := by
      unfold buddy_get_pages
      rw [if_neg (by omega), if_pos hz, hscan]
      dsimp only
      rw [hlist]
      dsimp only
      rw [hsplit]
      simp [hord1]
    refine ⟨_, hlist, hget, hinv2, hco2, ?_, as1.trans es1, az1.trans ez1, an1.trans en1, ?_,
      ?_⟩
    · rw [am1, if_pos rfl]
    rotate_left
    · intro x hx
      have hxp : x ≠ p := by rintro rfl; exact hinv1.free_not_out horder hp1 hx
      rw [am1, if_neg hxp]
      exact hout1 x hx
    · intro j hj
      have hs := two_pow_pos order
      rw [al1 j hj]
      by_cases hj1 : j = order
      · subst hj1
        rw [if_pos rfl, el1 j hj, if_neg (by omega), if_neg (by omega), if_pos rfl,
          if_neg (by omega), if_pos (by omega)]
        simp
      · rw [if_neg hj1, el1 j hj, if_neg (by omega), hd, if_neg hj1]
        by_cases hj2 : j = L
        · rw [if_pos hj2, if_pos hj2, hj2, herase]
        · rw [if_neg hj2, if_neg hj2]
          by_cases hj3 : order < j ∧ j < L
          · rw [if_pos hj3, if_pos (by omega)]
          · rw [if_neg hj3, if_neg (by omega)]
  · -- the free list of the requested order is not empty
    have hLo : L = order := by
      by_contra hne
      exact hz (hLmin order (le_refl _) (by omega))
    subst hLo
    obtain ⟨as1, az1, an1, am1, al1, ac1⟩ := alloc_spec h hL2 hpL
    have hinv2 := pool_inv_alloc h hL2 hpL as1 az1 an1 am1 al1 ac1
    have hco2 := coalesced_alloc h (coalesced_imp_except hco p) hL2 hpL as1 al1
    have hget : buddy_get_pages M pool L = some
        (list_del (set_nr_free (set_allocated pool p 1) L
          (((set_allocated pool p 1).free_lists L).nr_free - 1)) p, some p) := by
      unfold buddy_get_pages
      rw [if_neg (by omega), if_neg hz, hlist]
    refine ⟨_, hlist, hget, hinv2, hco2, ?_, as1, az1, an1, ?_, ?_⟩
    · rw [am1, if_pos rfl]
    rotate_left
    · intro x hx
      have hxp : x ≠ p := by rintro rfl; exact h.free_not_out hL2 hpL hx
      rw [am1, if_neg hxp]
    · intro j hj
      rw [al1 j hj]
      by_cases hj1 : j = L
      · rw [if_pos hj1, if_pos hj1, hj1, herase]
      · rw [if_neg hj1, if_neg hj1, if_neg (by omega)]

/-- When `buddy_get_pages` returns a page, the request was for a valid order and some counter
from that order on was not zero. -/
theorem buddy_get_pages_some {M : Nat} {pool pool1 : phys_mem_pool} {order p : Nat}
    (hget : buddy_get_pages M pool order = some (pool1, some p)) :
    ∃ L, order ≤ L ∧ L < M ∧ (pool.free_lists L).nr_free ≠ 0 ∧
      ∀ j, order ≤ j → j < L → (pool.free_lists j).nr_free = 0 := by
  unfold buddy_get_pages at hget
  by_cases h1 : order ≥ M
  · rw [if_pos h1] at hget; simp at hget
  · rw [if_neg h1] at hget
    by_cases hz : (pool.free_lists order).nr_free = 0
    · rw [if_pos hz] at hget
      cases hs : scan_larger_order M pool M order with
      | none => rw [hs] at hget; simp at hget
      | some L => exact ⟨L, scan_larger_order_some M pool M order L (by omega) hs⟩
    · exact ⟨order, le_refl _, by omega, hz, fun j h3 h4 => by omega⟩

/-- A successful acquisition keeps the invariant and leaves no pair of free buddies; the
record of the returned block carries the requested order, and the records of the blocks
already outstanding are not written. -/
theorem buddy_get_pages_inv {M : Nat} {pool pool1 : phys_mem_pool} {out : List Nat}
    {order p : Nat} (h : pool_inv M pool out) (hco : coalesced M pool)
    (hget : buddy_get_pages M pool order = some (pool1, some p)) :
    pool_inv M pool1 (p :: out) ∧ coalesced M pool1 ∧
      (pool1.page_metadata p).order = order ∧
      ∀ x, x ∈ out → pool1.page_metadata x = pool.page_metadata x := by
  obtain ⟨L, hL1, hL2, hLn, hLmin⟩ := buddy_get_pages_some hget
  obtain ⟨p2, rest, pool2, _, hget2, hinv, hco2, hmeta, _, _, _, _, hout⟩ :=
    buddy_get_pages_spec h hco hL1 hL2 hLn hLmin
  rw [hget] at hget2
  have e := Option.some.inj hget2
  have e1 : pool1 = pool2 := congrArg Prod.fst e
  have e2 : p = p2 := Option.some.inj (congrArg Prod.snd e)
  subst e1; subst e2
  exact ⟨hinv, hco2, by rw [hmeta], hout⟩

/-! ## Initialisation -/

theorem init_lists_loop (M : Nat) (pool : phys_mem_pool) :
    ((List.range M).foldl
      (fun (pool : phys_mem_pool) order =>
        { pool with
          free_lists := fun o =>
            if o = order then { free_list := [], nr_free := 0 } else pool.free_lists o })
      pool) =
    { pool with
      free_lists := fun o =>
        if o < M then { free_list := [], nr_free := 0 } else pool.free_lists o } := by
  induction M with
  | zero => simp
  | succ M ih =>
    rw [List.range_succ, List.foldl_append, ih]
    simp only [List.foldl_cons, List.foldl_nil]
    congr 1
    funext o
    by_cases h1 : o = M
    · subst h1; simp
    · by_cases h2 : o < M
      · have h3 : o < M + 1 := by omega
        simp [h1, h2, h3]
      · have h3 : ¬ o < M + 1 := by omega
        simp [h1, h2, h3]

theorem init_memset_loop (n : Nat) (pool : phys_mem_pool) :
    ((List.range n).foldl
      (fun (pool : phys_mem_pool) page_idx =>
        { pool with
          page_metadata := fun i =>
            if i = page_idx then { allocated := 0, order := 0 } else pool.page_metadata i })
      pool) =
    { pool with
      page_metadata := fun i =>
        if i < n then { allocated := 0, order := 0 } else pool.page_metadata i } := by
  induction n with
  | zero => simp
  | succ n ih =>
    rw [List.range_succ, List.foldl_append, ih]
    simp only [List.foldl_cons, List.foldl_nil]
    congr 1
    funext i
    by_cases h1 : i = n
    · subst h1; simp
    · by_cases h2 : i < n
      · have h3 : i < n + 1 := by omega
        simp [h1, h2, h3]
      · have h3 : ¬ i < n + 1 := by omega
        simp [h1, h2, h3]

theorem init_mark_loop (n : Nat) (pool : phys_mem_pool) :
    ((List.range n).foldl
      (fun pool page_idx => set_order (set_allocated pool page_idx 1) page_idx 0) pool) =
    { pool with
      page_metadata := fun i =>
        if i < n then { allocated := 1, order := 0 } else pool.page_metadata i } := by
  induction n with
  | zero => simp
  | succ n ih =>
    rw [List.range_succ, List.foldl_append, ih]
    simp only [List.foldl_cons, List.foldl_nil]
    unfold set_order set_allocated
    simp only
    congr 1
    funext i
    by_cases h1 : i = n
    · subst h1; simp
    · by_cases h2 : i < n
      · have h3 : i < n + 1 := by omega
        simp [h1, h2, h3]
      · have h3 : ¬ i < n + 1 := by omega
        simp [h1, h2, h3]

/-- The state of `init_buddy` before its release loop. -/
theorem init_buddy_prepare_eq (M : Nat) (pool : phys_mem_pool) (start_addr page_num : Nat) :
    init_buddy_prepare M pool start_addr page_num =
      { pool_start_addr := start_addr
        page_metadata := fun i =>
          if i < page_num then { allocated := 1, order := 0 } else pool.page_metadata i
        pool_mem_size := (page_num * BUDDY_PAGE_SIZE) % U64
        pool_phys_page_num := page_num
        free_lists := fun o =>
          if o < M then { free_list := [], nr_free := 0 } else pool.free_lists o } := by
  unfold init_buddy_prepare
  simp only [init_lists_loop, init_memset_loop, init_mark_loop]
  congr 1
  funext i
  by_cases h : i < page_num <;> simp [h]

/-- Before the release loop of `init_buddy` every frame is an outstanding block of order 0. -/
theorem init_buddy_prepare_inv (M : Nat) (pool : phys_mem_pool) (start_addr page_num : Nat)
    (hpos : 0 < M) (hmax : M + BUDDY_PAGE_SIZE_ORDER ≤ 64)
    (hfit : start_addr + page_num * BUDDY_PAGE_SIZE < U64) :
    pool_inv M (init_buddy_prepare M pool start_addr page_num) (List.range page_num) ∧
      coalesced M (init_buddy_prepare M pool start_addr page_num) := by
  rw [init_buddy_prepare_eq]
  have hempty : ∀ o, o < M → ∀ x, x ∉ ((if o < M then ({ free_list := [], nr_free := 0 } : free_list)
      else pool.free_lists o)).free_list := by
    intro o ho x; rw [if_pos ho]; simp
  have hhead : ∀ x, is_head M
      { pool_start_addr := start_addr
        page_metadata := fun i =>
          if i < page_num then { allocated := 1, order := 0 } else pool.page_metadata i
        pool_mem_size := (page_num * BUDDY_PAGE_SIZE) % U64
        pool_phys_page_num := page_num
        free_lists := fun o =>
          if o < M then { free_list := [], nr_free := 0 } else pool.free_lists o }
      (List.range page_num) x ↔ x < page_num := by
    intro x
    unfold is_head is_free
    rw [List.mem_range]
    constructor
    · rintro (hx | ⟨o, ho, hx⟩)
      · exact hx
      · exact absurd hx (hempty o ho x)
    · exact fun hx => Or.inl hx
  constructor
  · constructor
    · exact hpos
    · exact hmax
    · show (page_num * BUDDY_PAGE_SIZE) % U64 = page_num * BUDDY_PAGE_SIZE
      exact Nat.mod_eq_of_lt (by omega)
    · exact hfit
    · intro o x ho hx; exact absurd hx (hempty o ho x)
    · intro o ho; simp [ho]
    · intro o ho; simp [ho]
    · intro x hx
      rw [List.mem_range] at hx
      simp [hx, hpos]
    · exact List.nodup_range _
    · constructor
      · intro x hx
        have := (hhead x).1 hx
        simp only [this, if_true, pow_zero]; omega
      · intro x hx
        have := (hhead x).1 hx
        simp only [this, if_true, pow_zero]; exact one_dvd _
      · intro x q hx _ hle hlt
        have := (hhead x).1 hx
        simp only [this, if_true, pow_zero] at hlt; omega
      · intro i hi
        refine ⟨i, (hhead i).2 hi, le_refl _, ?_⟩
        simp only [hi, if_true, pow_zero]; omega
    · have h1 : (∑ o ∈ Finset.range M, ((if o < M then ({ free_list := [], nr_free := 0 } : free_list)
          else pool.free_lists o)).nr_free * 2 ^ o) = 0 := by
        apply Finset.sum_eq_zero
        intro o ho
        rw [Finset.mem_range] at ho
        simp [ho]
      have h2 : ((List.range page_num).map (fun pg => 2 ^ ((if pg < page_num then
          ({ allocated := 1, order := 0 } : page) else pool.page_metadata pg)).order)).sum
          = page_num := by
        have : (List.range page_num).map (fun pg => 2 ^ ((if pg < page_num then
          ({ allocated := 1, order := 0 } : page) else pool.page_metadata pg)).order)
            = (List.range page_num).map (fun _ => 1) := by
          apply List.map_congr_left
          intro x hx
          rw [List.mem_range] at hx
          simp [hx]
        rw [this]
        simp
      show _ + _ = page_num
      rw [h1, h2, Nat.zero_add]
  · intro o x ho hx
    exact absurd hx (hempty o (by omega) x)

/-- Releasing every block of a list of outstanding blocks in turn. -/
theorem free_loop_inv {M : Nat} :
    ∀ (l : List Nat) (pool : phys_mem_pool), pool_inv M pool l → coalesced M pool →
      pool_inv M (l.foldl (fun pool page_idx => buddy_free_pages M pool page_idx) pool) [] ∧
        coalesced M (l.foldl (fun pool page_idx => buddy_free_pages M pool page_idx) pool) := by
  intro l
  induction l with
  | nil => intro pool h hco; exact ⟨h, hco⟩
  | cons x l ih =>
    intro pool h hco
    have := buddy_free_pages_inv h hco (List.mem_cons_self x l)
    rw [List.erase_cons_head] at this
    rw [List.foldl_cons]
    exact ih _ this.1 this.2

/-- After `init_buddy` no block is outstanding, the invariant holds and no two free blocks
are buddies. -/
theorem init_buddy_inv (M : Nat) (pool : phys_mem_pool) (start_addr page_num : Nat)
    (hpos : 0 < M) (hmax : M + BUDDY_PAGE_SIZE_ORDER ≤ 64)
    (hfit : start_addr + page_num * BUDDY_PAGE_SIZE < U64) :
    pool_inv M (init_buddy M pool start_addr page_num) [] ∧
      coalesced M (init_buddy M pool start_addr page_num) := by
  have := init_buddy_prepare_inv M pool start_addr page_num hpos hmax hfit
  exact free_loop_inv _ _ this.1 this.2

/-- The recursion of `merge_page` does not write the record of a block marked allocated. -/
theorem merge_page_aux_allocated (M : Nat) :
    ∀ (fuel : Nat) (pool : phys_mem_pool) (p x : Nat),
      (pool.page_metadata x).allocated = 1 →
      (merge_page_aux M fuel pool p).1.page_metadata x = pool.page_metadata x := by
  intro fuel
  induction fuel with
  | zero => intro pool p x _; rfl
  | succ fuel ih =>
    intro pool p x hx
    unfold merge_page_aux
    by_cases hc1 : (pool.page_metadata p).order ≥ M - 1 ∨ (pool.page_metadata p).allocated = 1
    · rw [if_pos hc1]
    · rw [if_neg hc1]
      cases hb : get_buddy_chunk pool p with
      | none => rfl
      | some b =>
        dsimp only
        by_cases hc2 : (pool.page_metadata b).allocated = 1 ∨
            (pool.page_metadata b).order ≠ (pool.page_metadata p).order
        · rw [if_pos hc2]
        · rw [if_neg hc2]
          have hstep : (merge_page_step pool p b).1.page_metadata x = pool.page_metadata x := by
            unfold merge_page_step
            simp only [list_add_meta, set_nr_free_meta, set_order_meta, list_del_meta]
            have hxp : x ≠ p := by rintro rfl; exact hc1 (Or.inr hx)
            have hxb : x ≠ b := by rintro rfl; exact hc2 (Or.inl hx)
            by_cases hpb : p > b
            · simp only [if_pos hpb, if_neg hxb]
            · simp only [if_neg hpb, if_neg hxp]
          rw [ih _ _ x (by rw [hstep]; exact hx), hstep]

/-- A release does not write the record of another block marked allocated. -/
theorem buddy_free_pages_allocated (M : Nat) (pool : phys_mem_pool) (p x : Nat)
    (hne : x ≠ p) (hx : (pool.page_metadata x).allocated = 1) :
    (buddy_free_pages M pool p).page_metadata x = pool.page_metadata x := by
  rw [buddy_free_pages_eq]
  obtain ⟨_, _, _, e4, _, _⟩ := free_insert_spec pool p
  have e := e4 x
  rw [if_neg hne] at e
  unfold merge_page
  rw [merge_page_aux_allocated M _ _ _ x (by rw [e]; exact hx), e]

/-- Projection of the outstanding blocks to their records after one of them is removed. -/
theorem map_fst_erase :
    ∀ (l : List (Nat × Nat)) (e : Nat × Nat), (l.map Prod.fst).Nodup → e ∈ l →
      (l.erase e).map Prod.fst = (l.map Prod.fst).erase e.1 := by
  intro l
  induction l with
  | nil => intro e _ he; exact absurd he (List.not_mem_nil _)
  | cons a l ih =>
    intro e hnd he
    rw [List.map_cons, List.nodup_cons] at hnd
    by_cases hae : a = e
    · subst hae
      rw [List.erase_cons_head, List.map_cons, List.erase_cons_head]
    · have hel : e ∈ l := by
        rcases List.mem_cons.1 he with h1 | h1
        · exact absurd h1.symm hae
        · exact h1
      have hfst : a.1 ≠ e.1 := by
        intro h1
        exact hnd.1 (h1 ▸ List.mem_map_of_mem Prod.fst hel)
      rw [List.erase_cons_tail (by simpa using hae), List.map_cons, List.map_cons,
        List.erase_cons_tail (by simpa using hfst), ih e hnd.2 hel]

/-- Every reachable state satisfies the structural invariant and has no pair of free
buddies, and the record of each outstanding block carries the order it was requested
with. -/
theorem reachable_inv {M : Nat} {pool : phys_mem_pool} {out : List (Nat × Nat)}
    (hr : Reachable M pool out) :
    pool_inv M pool (out.map Prod.fst) ∧ coalesced M pool ∧
      ∀ e, e ∈ out → (pool.page_metadata e.1).order = e.2 := by
  induction hr with
  | init pool start_addr page_num hpos hmax hfit =>
    obtain ⟨h1, h2⟩ := init_buddy_inv M pool start_addr page_num hpos hmax hfit
    exact ⟨h1, h2, fun e he => absurd he (List.not_mem_nil _)⟩
  | get_pages pool out order pool1 pg _ hget ih =>
    obtain ⟨h1, h2, h3, h4⟩ := buddy_get_pages_inv ih.1 ih.2.1 hget
    refine ⟨h1, h2, ?_⟩
    intro e he
    rcases List.mem_cons.1 he with rfl | he
    · exact h3
    · rw [h4 e.1 (List.mem_map_of_mem Prod.fst he)]
      exact ih.2.2 e he
  | free_pages pool out pg order _ hmem ih =>
    have hpg : pg ∈ out.map Prod.fst := List.mem_map_of_mem Prod.fst hmem
    obtain ⟨h1, h2⟩ := buddy_free_pages_inv ih.1 ih.2.1 hpg
    have hmap := map_fst_erase out (pg, order) ih.1.out_nodup hmem
    rw [hmap]
    refine ⟨h1, h2, ?_⟩
    intro e he
    have he1 : e.1 ∈ (out.map Prod.fst).erase pg := by
      rw [← hmap]; exact List.mem_map_of_mem Prod.fst he
    have he2 := (ih.1.out_nodup.mem_erase_iff).1 he1
    rw [buddy_free_pages_allocated M pool pg e.1 he2.1 (ih.1.out_rec e.1 he2.2).1]
    exact ih.2.2 e (List.mem_of_mem_erase he)

/-! ## Exact effect of a release -/

/-- The recursion of `merge_page` stops at once on a free block whose buddy is not a free
block of the same order. -/
theorem merge_page_aux_stop {M : Nat} {pool : phys_mem_pool} {out : List Nat} {p : Nat}
    (h : pool_inv M pool out) (ho : (pool.page_metadata p).order < M)
    (hp : p ∈ (pool.free_lists (pool.page_metadata p).order).free_list)
    (hno : ∀ b, (pool.page_metadata p).order + 1 < M → get_buddy_chunk pool p = some b →
      b ∈ (pool.free_lists (pool.page_metadata p).order).free_list → False)
    (fuel : Nat) : merge_page_aux M fuel pool p = (pool, p) := by
  cases fuel with
  | zero => rfl
  | succ fuel =>
    unfold merge_page_aux
    by_cases hc1 : (pool.page_metadata p).order ≥ M - 1 ∨ (pool.page_metadata p).allocated = 1
    · rw [if_pos hc1]
    · rw [if_neg hc1]
      cases hb : get_buddy_chunk pool p with
      | none => rfl
      | some b =>
        dsimp only
        by_cases hc2 : (pool.page_metadata b).allocated = 1 ∨
            (pool.page_metadata b).order ≠ (pool.page_metadata p).order
        · rw [if_pos hc2]
        · exfalso
          have hba : (pool.page_metadata b).allocated ≠ 1 := fun e => hc2 (Or.inl e)
          have hbo : (pool.page_metadata b).order = (pool.page_metadata p).order := by
            by_contra e; exact hc2 (Or.inr e)
          obtain ⟨lo, hi, _, _, _, hbh, _⟩ := h.buddy_pair (h.free_is_head ho hp) hb
          have hbm := h.head_free hbh hba
          rw [hbo] at hbm
          exact hno b (by omega) hb hbm

/-- A list without repetition whose members are `a` and `b` is empty once both are
erased. -/
theorem erase_pair_nil {l : List Nat} {a b : Nat} (hnd : l.Nodup)
    (hmem : ∀ x, x ∈ l ↔ x = a ∨ x = b) : (l.erase a).erase b = [] := by
  rw [List.eq_nil_iff_forall_not_mem]
  intro x hx
  rw [(hnd.erase a).mem_erase_iff, hnd.mem_erase_iff, hmem] at hx
  rcases hx.2.2 with e | e
  · exact hx.2.1 e
  · exact hx.1 e

/-- Undoing a split: starting from a state that differs from `pool0` only in that the first
block `p` of the free list of order `k + d` of `pool0` is held at order `k`, together with
the upper halves of the orders `k .. k + d - 1`, the recursion of `merge_page` on `p` (or
on its buddy) rebuilds the free lists of `pool0`. -/
theorem merge_page_aux_restore {M : Nat} {out : List Nat} (pool0 : phys_mem_pool) (p : Nat)
    (rest : List Nat) (hco : coalesced M pool0) :
    ∀ (d k fuel q : Nat) (cur : phys_mem_pool),
      k + d < M → pool_inv M cur out →
      cur.pool_start_addr = pool0.pool_start_addr →
      (pool0.free_lists (k + d)).free_list = p :: rest →
      (∀ j, k ≤ j → j < k + d → (pool0.free_lists j).free_list = []) →
      (∀ j, j < M → j < k ∨ k + d < j →
        (cur.free_lists j).free_list = (pool0.free_lists j).free_list) →
      (d = 0 → (cur.free_lists k).free_list = p :: rest) →
      (0 < d → (∀ x, x ∈ (cur.free_lists k).free_list ↔ x = p ∨ x = p + 2 ^ k) ∧
        (∀ j, k < j → j < k + d → (cur.free_lists j).free_list = [p + 2 ^ j]) ∧
        (cur.free_lists (k + d)).free_list = rest) →
      2 ^ (k + d) ∣ frame_base cur + p →
      (q = p ∨ (0 < d ∧ q = p + 2 ^ k)) →
      M - 1 - k ≤ fuel →
      ∀ j, j < M → ((merge_page_aux M fuel cur q).1.free_lists j).free_list =
        (pool0.free_lists j).free_list := by
  intro d
  induction d with
  | zero =>
    intro k fuel q cur hk h hs hl0 _ hsame hd0 _ hal hq _ j hj
    have hqp : q = p := by
      rcases hq with e | ⟨e, _⟩
      · exact e
      · omega
    subst hqp
    have hcurk := hd0 rfl
    have hpk : q ∈ (cur.free_lists k).free_list := by rw [hcurk]; exact List.mem_cons_self _ _
    have hord := (h.free_rec k q hk hpk).2
    have hbase : frame_base cur = frame_base pool0 := by unfold frame_base; rw [hs]
    rw [merge_page_aux_stop h (by rw [hord]; exact hk) (by rw [hord]; exact hpk)]
    · by_cases hjk : j = k
      · subst hjk; rw [hcurk]; exact hl0.symm
      · exact hsame j hj (by omega)
    · intro b hlt hb hbm
      rw [hord] at hlt hbm
      obtain ⟨lo, hi, hpb, hhi, hal2, _, _⟩ := h.buddy_pair (h.free_is_head hk hpk) hb
      rw [hord] at hhi hal2
      rw [hcurk, ← hl0] at hbm hpk
      have hlo : lo ∈ (pool0.free_lists k).free_list := by
        rcases hpb with ⟨rfl, rfl⟩ | ⟨rfl, rfl⟩
        · exact hpk
        · exact hbm
      have hhim : lo + 2 ^ k ∈ (pool0.free_lists k).free_list := by
        rw [← hhi]
        rcases hpb with ⟨rfl, rfl⟩ | ⟨rfl, rfl⟩
        · exact hbm
        · exact hpk
      rw [hbase] at hal2
      exact hco k lo hlt hlo hhim hal2
  | succ d ih =>
    intro k fuel q cur hk h hs hl0 hempty hsame _ hd1 hal hq hfuel j hj
    obtain ⟨hmemk, hmid, hrest⟩ := hd1 (by omega)
    have hs2 := two_pow_pos k
    have hk' : k < M := by omega
    have hk1 : k + 1 < M := by omega
    have hpk : p ∈ (cur.free_lists k).free_list := (hmemk p).2 (Or.inl rfl)
    have hbk : p + 2 ^ k ∈ (cur.free_lists k).free_list := (hmemk _).2 (Or.inr rfl)
    have hal1 : 2 ^ (k + 1) ∣ frame_base cur + p :=
      dvd_trans (pow_dvd_pow 2 (by omega)) hal
    obtain ⟨hb1, hb2⟩ := h.buddy_of_pair hk' hpk hbk hal1
    have hp_rec := h.free_rec k p hk' hpk
    have hb_rec := h.free_rec k _ hk' hbk
    -- the first step coalesces `p` with its upper half, whichever of the two is `q`
    obtain ⟨b, hqb, hbud, hq_rec, hb_rec2⟩ : ∃ b, ((q = p ∧ b = p + 2 ^ k) ∨
        (q = p + 2 ^ k ∧ b = p)) ∧ get_buddy_chunk cur q = some b ∧
        ((cur.page_metadata q).allocated = 0 ∧ (cur.page_metadata q).order = k) ∧
        ((cur.page_metadata b).allocated = 0 ∧ (cur.page_metadata b).order = k) := by
      rcases hq with e | ⟨_, e⟩
      · exact ⟨p + 2 ^ k, Or.inl ⟨e, rfl⟩, by rw [e]; exact hb1, by rw [e]; exact hp_rec, hb_rec⟩
      · exact ⟨p, Or.inr ⟨e, rfl⟩, by rw [e]; exact hb2, by rw [e]; exact hb_rec, hp_rec⟩
    obtain ⟨e2, e3, e4, e5, e6, e7, e8⟩ :=
      merge_page_step_spec h hk1 hpk hbk (by omega) hqb
    have hinv := pool_inv_merge h hk1 hpk hbk rfl hal1 e3 e4 e5 e6 e7 e8
    obtain ⟨fuel1, hf1⟩ : ∃ fuel1, fuel = fuel1 + 1 := ⟨fuel - 1, by omega⟩
    subst hf1
    have hstep : merge_page_aux M (fuel1 + 1) cur q =
        merge_page_aux M fuel1 (merge_page_step cur q b).1 p := by
      conv_lhs => unfold merge_page_aux
      rw [if_neg (by rw [hq_rec.1, hq_rec.2]; omega), hbud]
      dsimp only
      rw [if_neg (by rw [hb_rec2.1, hb_rec2.2, hq_rec.2]; simp), e2]
    rw [hstep]
    have hkd : k + 1 + d = k + (d + 1) := by omega
    have hnd := h.free_nodup k hk'
    apply ih (k + 1) fuel1 p (merge_page_step cur q b).1 (by omega) hinv (e3.trans hs)
      (by rw [hkd]; exact hl0) (fun i h1 h3 => hempty i (by omega) (by omega))
    · intro i hi hcase
      rw [e7 i hi, if_neg (by omega)]
      by_cases hik : i = k
      · subst hik
        rw [if_pos rfl, erase_pair_nil hnd hmemk]
        exact (hempty i (le_refl _) (by omega)).symm
      · rw [if_neg hik]
        exact hsame i hi (by omega)
    · intro hd0
      subst hd0
      rw [e7 _ hk1, if_pos rfl, hrest]
    · intro hd0
      refine ⟨?_, ?_, ?_⟩
      · intro x
        rw [e7 _ hk1, if_pos rfl, hmid (k + 1) (by omega) (by omega)]
        simp
      · intro i h1 h3
        rw [e7 i (by omega), if_neg (by omega), if_neg (by omega)]
        exact hmid i (by omega) (by omega)
      · rw [e7 _ (by omega), if_neg (by omega), if_neg (by omega), hkd]
        exact hrest
    · have hbase : frame_base (merge_page_step cur q b).1 = frame_base cur := by
        unfold frame_base; rw [e3]
      rw [hbase, hkd]; exact hal
    · exact Or.inl rfl
    · omega
    · exact hj

/-! ## Accounting -/

/-- Where the product of line 263 fits in `int`, it is the size of a block in bytes. -/
theorem order_size_int {o : Nat} (ho : o + BUDDY_PAGE_SIZE_ORDER < 31) :
    int_to_u64 (int_bits (BUDDY_PAGE_SIZE * int_bits (1 <<< o))) = BUDDY_PAGE_SIZE * 2 ^ o := by
  have ho2 : o ≤ 18 := by unfold BUDDY_PAGE_SIZE_ORDER at ho; omega
  have h1 : 2 ^ o ≤ 2 ^ 18 := Nat.pow_le_pow_right (by decide) ho2
  have h3 : BUDDY_PAGE_SIZE * 2 ^ o ≤ 4096 * 2 ^ 18 := Nat.mul_le_mul (Nat.le_refl _) h1
  norm_num at h1 h3
  rw [Nat.shiftLeft_eq, Nat.one_mul]
  have e1 : int_bits (2 ^ o) = 2 ^ o := Nat.mod_eq_of_lt (by omega)
  have e2 : int_bits (BUDDY_PAGE_SIZE * 2 ^ o) = BUDDY_PAGE_SIZE * 2 ^ o :=
    Nat.mod_eq_of_lt (by omega)
  rw [e1, e2]
  unfold int_to_u64
  rw [if_pos (by omega)]

/-- The accumulation of `get_free_mem_size_from_buddy` is the sum of the terms, reduced once. -/
theorem free_mem_size_mod (M : Nat) (pool : phys_mem_pool) :
    get_free_mem_size_from_buddy M pool =
      (∑ o ∈ Finset.range M, (pool.free_lists o).nr_free *
        int_to_u64 (int_bits (BUDDY_PAGE_SIZE * int_bits (1 <<< o)))) % U64 := by
  unfold get_free_mem_size_from_buddy
  induction M with
  | zero => simp [U64]
  | succ M ih =>
    rw [List.range_succ, List.foldl_append, ih, Finset.sum_range_succ]
    simp only [List.foldl_cons, List.foldl_nil]
    rw [Nat.mod_add_mod]

/-- Total free bytes reported for a state that satisfies the invariant, when the size of the
largest block fits in `int`. -/
theorem free_mem_size_eq {M : Nat} {pool : phys_mem_pool} {out : List Nat}
    (h : pool_inv M pool out) (hint : M + BUDDY_PAGE_SIZE_ORDER ≤ 31) :
    get_free_mem_size_from_buddy M pool =
      (∑ o ∈ Finset.range M, (pool.free_lists o).nr_free * 2 ^ o) * BUDDY_PAGE_SIZE := by
  rw [free_mem_size_mod]
  have e : (∑ o ∈ Finset.range M, (pool.free_lists o).nr_free *
        int_to_u64 (int_bits (BUDDY_PAGE_SIZE * int_bits (1 <<< o))))
      = (∑ o ∈ Finset.range M, (pool.free_lists o).nr_free * 2 ^ o) * BUDDY_PAGE_SIZE := by
    rw [Finset.sum_mul]
    apply Finset.sum_congr rfl
    intro o ho
    rw [order_size_int (by have := Finset.mem_range.1 ho; omega)]
    ring
  rw [e]
  apply Nat.mod_eq_of_lt
  have h1 := h.account
  have h2 := h.no_wrap
  have h3 : (∑ o ∈ Finset.range M, (pool.free_lists o).nr_free * 2 ^ o) ≤
      pool.pool_phys_page_num := by omega
  have := Nat.mul_le_mul_right BUDDY_PAGE_SIZE h3
  omega

/-! ## Adequacy of the recursion depths -/

/-- One coalescing step raises the order of the surviving record by exactly one. -/
theorem merge_page_step_order (pool : phys_mem_pool) (p b : Nat)
    (hbo : (pool.page_metadata b).order = (pool.page_metadata p).order) :
    ((merge_page_step pool p b).1.page_metadata (merge_page_step pool p b).2).order
      = (pool.page_metadata p).order + 1 := by
  unfold merge_page_step
  simp only [list_add_meta, set_nr_free_meta, set_order_meta, list_del_meta]
  by_cases hpb : p > b
  · simp only [if_pos hpb, if_true, hbo]
  · simp only [if_neg hpb, if_true]

/-- More depth than the distance to the top order does not change `merge_page`: the depth
runs out only where the base case of line 185 returns. -/
theorem merge_page_aux_fuel (M : Nat) :
    ∀ (fuel : Nat) (pool : phys_mem_pool) (p : Nat),
      M - 1 - (pool.page_metadata p).order ≤ fuel →
      merge_page_aux M (fuel + 1) pool p = merge_page_aux M fuel pool p := by
  intro fuel
  induction fuel with
  | zero =>
    intro pool p hf
    unfold merge_page_aux
    rw [if_pos (Or.inl (by omega))]
  | succ fuel ih =>
    intro pool p hf
    rw [merge_page_aux.eq_def M (fuel + 1 + 1), merge_page_aux.eq_def M (fuel + 1)]
    dsimp only
    by_cases hc1 : (pool.page_metadata p).order ≥ M - 1 ∨ (pool.page_metadata p).allocated = 1
    · rw [if_pos hc1, if_pos hc1]
    · rw [if_neg hc1, if_neg hc1]
      cases hb : get_buddy_chunk pool p with
      | none => rfl
      | some b =>
        dsimp only
        by_cases hc2 : (pool.page_metadata b).allocated = 1 ∨
            (pool.page_metadata b).order ≠ (pool.page_metadata p).order
        · rw [if_pos hc2, if_pos hc2]
        · rw [if_neg hc2, if_neg hc2]
          have hbo : (pool.page_metadata b).order = (pool.page_metadata p).order := by
            by_contra e; exact hc2 (Or.inr e)
          apply ih
          rw [merge_page_step_order pool p b hbo]
          omega

/-- More depth than the distance to the target order does not change `split_page`: the depth
runs out only where the base case of line 99 returns. -/
theorem split_page_aux_fuel :
    ∀ (fuel : Nat) (pool : phys_mem_pool) (order pg : Nat),
      (pool.page_metadata pg).order - order ≤ fuel →
      split_page_aux (fuel + 1) pool order pg = split_page_aux fuel pool order pg := by
  intro fuel
  induction fuel with
  | zero =>
    intro pool order pg hf
    unfold split_page_aux
    rw [if_pos (Or.inr (Or.inr (by omega)))]
  | succ fuel ih =>
    intro pool order pg hf
    rw [split_page_aux.eq_def (fuel + 1 + 1), split_page_aux.eq_def (fuel + 1)]
    dsimp only
    by_cases hc1 : (pool.page_metadata pg).allocated = 1 ∨ (pool.page_metadata pg).order = 0 ∨
        (pool.page_metadata pg).order ≤ order
    · rw [if_pos hc1, if_pos hc1]
    · rw [if_neg hc1, if_neg hc1]
      by_cases hc2 : (pool.page_metadata pg).order - order > 1
      · rw [if_pos hc2, if_pos hc2, ih pool (order + 1) pg (by omega)]
      · rw [if_neg hc2, if_neg hc2]

/-! ## Helper facts for the claims -/

/-! ## Concrete scenario: four frames, three orders -/

theorem four_frame_reachable : Reachable 3 four_frame_pool [] :=
  Reachable.init blank_pool 0 4 (by decide) (by decide) (by decide)

theorem four_frame_get :
    buddy_get_pages 3 four_frame_pool 0 = some (four_frame_acquired, some 0) := rfl

theorem four_frame_acquired_reachable : Reachable 3 four_frame_acquired [(0, 0)] :=
  Reachable.get_pages four_frame_pool [] 0 four_frame_acquired 0 four_frame_reachable
    four_frame_get

/-- Among the orders from `order` on whose counter is not zero there is a first one. -/
theorem exists_first_nonzero {M order : Nat} {pool : phys_mem_pool}
    (hex : ∃ k, order ≤ k ∧ k < M ∧ (pool.free_lists k).nr_free ≠ 0) :
    ∃ L, order ≤ L ∧ L < M ∧ (pool.free_lists L).nr_free ≠ 0 ∧
      ∀ j, order ≤ j → j < L → (pool.free_lists j).nr_free = 0 := by
  classical
  refine ⟨Nat.find hex, (Nat.find_spec hex).1, (Nat.find_spec hex).2.1,
    (Nat.find_spec hex).2.2, ?_⟩
  intro j h1 h2
  by_contra hn
  exact Nat.find_min hex h2 ⟨h1, lt_trans h2 (Nat.find_spec hex).2.1, hn⟩

theorem pool_inv.count_ne_zero_iff {M : Nat} {pool : phys_mem_pool} {out : List Nat} {o : Nat}
    (h : pool_inv M pool out) (ho : o < M) :
    (pool.free_lists o).nr_free ≠ 0 ↔ (pool.free_lists o).free_list ≠ [] := by
  rw [h.free_count o ho, Ne, List.length_eq_zero]

theorem pool_inv.count_eq_zero_iff {M : Nat} {pool : phys_mem_pool} {out : List Nat} {o : Nat}
    (h : pool_inv M pool out) (ho : o < M) :
    (pool.free_lists o).nr_free = 0 ↔ (pool.free_lists o).free_list = [] := by
  rw [h.free_count o ho, List.length_eq_zero]

/-- The scan of `buddy_get_pages` fails when every counter from `lo` on is zero. -/
theorem scan_larger_order_zero (M : Nat) (pool : phys_mem_pool) :
    ∀ (fuel lo : Nat), (∀ k, lo ≤ k → k < M → (pool.free_lists k).nr_free = 0) → lo < M →
      scan_larger_order M pool fuel lo = none := by
  intro fuel
  induction fuel with
  | zero => intro lo _ _; rfl
  | succ fuel ih =>
    intro lo hz hlo
    unfold scan_larger_order
    rw [if_pos (hz lo (le_refl _) hlo)]
    by_cases hm : lo + 1 ≥ M
    · rw [if_pos hm]
    · rw [if_neg hm]
      exact ih (lo + 1) (fun k h1 h3 => hz k (by omega) h3) (by omega)

theorem free_list_ext {a b : free_list} (h1 : a.free_list = b.free_list)
    (h2 : a.nr_free = b.nr_free) : a = b := by
  cases a; cases b; simp_all

/-- Two states that satisfy the invariant and link the same records have the same free
lists, counters included. -/
theorem free_lists_eq_of_lists {M : Nat} {pool pool1 : phys_mem_pool} {out out1 : List Nat}
    (h : pool_inv M pool out) (h1 : pool_inv M pool1 out1) {o : Nat} (ho : o < M)
    (hl : (pool1.free_lists o).free_list = (pool.free_lists o).free_list) :
    pool1.free_lists o = pool.free_lists o :=
  free_list_ext hl (by rw [h1.free_count o ho, h.free_count o ho, hl])

/-- Releasing the block that `buddy_get_pages` has just returned rebuilds every free list. -/
theorem get_then_free_lists {M : Nat} {pool pool1 : phys_mem_pool} {out : List Nat}
    {order pg : Nat} (h : pool_inv M pool out) (hco : coalesced M pool)
    (hget : buddy_get_pages M pool order = some (pool1, some pg)) :
    ∀ o, o < M → (buddy_free_pages M pool1 pg).free_lists o = pool.free_lists o := by
  obtain ⟨L, hL1, hL2, hLn, hLmin⟩ := buddy_get_pages_some hget
  obtain ⟨p, rest, pool2, hlist, hget2, hinv1, hco1, hmeta, hs1, _, hn1, hl1, _⟩ :=
    buddy_get_pages_spec h hco hL1 hL2 hLn hLmin
  rw [hget] at hget2
  have e := Option.some.inj hget2
  have e1 : pool1 = pool2 := congrArg Prod.fst e
  have e2 : pg = p := Option.some.inj (congrArg Prod.snd e)
  subst e1; subst e2
  have horder : order < M := by omega
  have hpout : pg ∈ pg :: out := List.mem_cons_self _ _
  have hfree := buddy_free_pages_inv hinv1 hco1 hpout
  rw [List.erase_cons_head] at hfree
  intro o ho
  apply free_lists_eq_of_lists h hfree.1 ho
  -- the state after linking the block again
  obtain ⟨i1, i2, i3, i4, i5, i6⟩ := free_insert_spec pool1 pg
  have hinv2 := pool_inv_insert hinv1 hpout i1 i2 i3 i4 (fun k _ => i5 k) (fun k _ => i6 k)
  rw [List.erase_cons_head] at hinv2
  rw [buddy_free_pages_eq]
  have hord1 : (pool1.page_metadata pg).order = order := by rw [hmeta]
  simp only [hord1] at i1 i4 i5 hinv2 ⊢
  generalize hq : list_add (set_nr_free (set_allocated pool1 pg 0) order
        ((pool1.free_lists order).nr_free + 1)) pg order = cur at *
  have hord2 : (cur.page_metadata pg).order = order := by rw [i4]; simp
  have hpL : pg ∈ (pool.free_lists L).free_list := by rw [hlist]; exact List.mem_cons_self _ _
  have hal : 2 ^ L ∣ frame_base pool + pg := by
    have := h.tiles.aligned pg (h.free_is_head hL2 hpL)
    simp only [(h.free_rec L pg hL2 hpL).2] at this
    exact this
  have hbase : frame_base cur = frame_base pool := by unfold frame_base; rw [i1, hs1]
  have hd : order + (L - order) = L := by omega
  unfold merge_page
  rw [hord2]
  apply merge_page_aux_restore pool pg rest hco (L - order) order _ pg cur
    (by omega) hinv2 (i1.trans hs1) (by rw [hd]; exact hlist)
    (fun j h1 h3 => (h.count_eq_zero_iff (by omega)).1 (hLmin j h1 (by omega)))
  · intro j hj hcase
    rw [i5 j, if_neg (by omega), hl1 j hj, if_neg (by omega), if_neg (by omega)]
  · intro hd0
    have : L = order := by omega
    subst this
    rw [i5, if_pos rfl, hl1 L hL2, if_pos rfl]
  · intro hd0
    refine ⟨?_, ?_, ?_⟩
    · intro x
      rw [i5, if_pos rfl, hl1 order horder, if_neg (by omega), if_pos (by omega)]
      simp
    · intro j h1 h3
      rw [i5, if_neg (by omega), hl1 j (by omega), if_neg (by omega), if_pos (by omega)]
    · rw [i5, if_neg (by omega), hd, hl1 L hL2, if_pos rfl]
  · rw [hbase, hd]; exact hal
  · exact Or.inl rfl
  · exact le_refl _
  · exact ho

/-- Flipping a bit at or above bit 12 keeps the offset in the frame. -/
theorem xor_shift_mod (a c : Nat) : (a ^^^ (2 ^ 12 * c)) % 2 ^ 12 = a % 2 ^ 12 := by
  have h := xor_scaled 12 (a / 2 ^ 12) (a % 2 ^ 12) c (Nat.mod_lt _ (by norm_num))
  rw [Nat.div_add_mod] at h
  rw [h, Nat.mul_add_mod]
  exact Nat.mod_mod _ _

/-! ## Descriptor fields through release and initialisation -/

theorem merge_page_step_fields (pool : phys_mem_pool) (p b : Nat) :
    (merge_page_step pool p b).1.pool_start_addr = pool.pool_start_addr ∧
    (merge_page_step pool p b).1.pool_mem_size = pool.pool_mem_size ∧
    (merge_page_step pool p b).1.pool_phys_page_num = pool.pool_phys_page_num :=
  ⟨rfl, rfl, rfl⟩

theorem merge_page_aux_fields (M : Nat) :
    ∀ (fuel : Nat) (pool : phys_mem_pool) (p : Nat),
      (merge_page_aux M fuel pool p).1.pool_start_addr = pool.pool_start_addr ∧
      (merge_page_aux M fuel pool p).1.pool_mem_size = pool.pool_mem_size ∧
      (merge_page_aux M fuel pool p).1.pool_phys_page_num = pool.pool_phys_page_num := by
  intro fuel
  induction fuel with
  | zero => intro pool p; exact ⟨rfl, rfl, rfl⟩
  | succ fuel ih =>
    intro pool p
    unfold merge_page_aux
    split
    · exact ⟨rfl, rfl, rfl⟩
    · split
      · exact ⟨rfl, rfl, rfl⟩
      · split
        · exact ⟨rfl, rfl, rfl⟩
        · exact ih _ _

theorem buddy_free_pages_fields (M : Nat) (pool : phys_mem_pool) (p : Nat) :
    (buddy_free_pages M pool p).pool_start_addr = pool.pool_start_addr ∧
    (buddy_free_pages M pool p).pool_mem_size = pool.pool_mem_size ∧
    (buddy_free_pages M pool p).pool_phys_page_num = pool.pool_phys_page_num := by
  rw [buddy_free_pages_eq]
  unfold merge_page
  exact merge_page_aux_fields M _ _ _

theorem free_loop_fields (M : Nat) :
    ∀ (l : List Nat) (pool : phys_mem_pool),
      (l.foldl (fun pool page_idx => buddy_free_pages M pool page_idx) pool).pool_start_addr
        = pool.pool_start_addr ∧
      (l.foldl (fun pool page_idx => buddy_free_pages M pool page_idx) pool).pool_mem_size
        = pool.pool_mem_size ∧
      (l.foldl (fun pool page_idx => buddy_free_pages M pool page_idx) pool).pool_phys_page_num
        = pool.pool_phys_page_num := by
  intro l
  induction l with
  | nil => intro pool; exact ⟨rfl, rfl, rfl⟩
  | cons x l ih =>
    intro pool
    rw [List.foldl_cons]
    obtain ⟨h1, h2, h3⟩ := ih (buddy_free_pages M pool x)
    obtain ⟨g1, g2, g3⟩ := buddy_free_pages_fields M pool x
    exact ⟨h1.trans g1, h2.trans g2, h3.trans g3⟩

/-- The descriptor fields set by `init_buddy`. -/
theorem init_buddy_fields (M : Nat) (pool : phys_mem_pool) (start_addr page_num : Nat) :
    (init_buddy M pool start_addr page_num).pool_start_addr = start_addr ∧
    (init_buddy M pool start_addr page_num).pool_mem_size = (page_num * BUDDY_PAGE_SIZE) % U64 ∧
    (init_buddy M pool start_addr page_num).pool_phys_page_num = page_num := by
  unfold init_buddy
  obtain ⟨h1, h2, h3⟩ := free_loop_fields M (List.range page_num)
    (init_buddy_prepare M pool start_addr page_num)
  rw [h1, h2, h3, init_buddy_prepare_eq]
  exact ⟨rfl, rfl, rfl⟩

/-! ## The four-frame pool -/

/-- A pool of four frames and three orders whose first frame number is a multiple of 4,
with no block outstanding and no pair of free buddies, is one free block of order 2. -/
theorem four_frame_canonical {pool : phys_mem_pool} (h : pool_inv 3 pool [])
    (hco : coalesced 3 pool) (hn : pool.pool_phys_page_num = 4)
    (hbase : frame_base pool % 4 = 0) :
    (pool.free_lists 2).nr_free = 1 ∧ (pool.free_lists 0).nr_free = 0 ∧
      (pool.free_lists 1).nr_free = 0 := by
  -- with nothing outstanding, a head of order `o` is linked in the free list of order `o`
  have hfree : ∀ x, is_head 3 pool [] x →
      x ∈ (pool.free_lists (pool.page_metadata x).order).free_list := by
    intro x hx
    rcases hx with hx | ⟨o, ho, hx⟩
    · exact absurd hx (List.not_mem_nil _)
    · rw [(h.free_rec o x ho hx).2]; exact hx
  have h0 : ∀ x, x ∉ (pool.free_lists 0).free_list := by
    intro x hx
    have hxh := h.free_is_head (by norm_num : 0 < 3) hx
    have hxo := (h.free_rec 0 x (by norm_num) hx).2
    have hxn := h.head_lt hxh
    rw [hn] at hxn
    have hal : 2 ^ (0 + 1) ∣ frame_base pool + (x - x % 2) :=
      Nat.dvd_of_mod_eq_zero (by norm_num; omega)
    have hsib := block_tiling_sibling h.tiles hal (rfl : x - x % 2 + 2 ^ 0 = x - x % 2 + 2 ^ 0)
      (by rw [hn]; norm_num; omega)
      (by
        by_cases hx2 : x % 2 = 0
        · left; rw [hx2]; exact ⟨hxh, hxo⟩
        · right
          have : x - x % 2 + 2 ^ 0 = x := by norm_num; omega
          rw [this]; exact ⟨hxh, hxo⟩)
    have m1 := hfree _ hsib.1.1
    have m2 := hfree _ hsib.2.1
    have o1 : (pool.page_metadata (x - x % 2)).order = 0 := by have := hsib.1.2; omega
    have o2 : (pool.page_metadata (x - x % 2 + 2 ^ 0)).order = 0 := by have := hsib.2.2; omega
    rw [o1] at m1
    rw [o2] at m2
    exact hco 0 _ (by norm_num) m1 m2 hal
  have h1 : ∀ x, x ∉ (pool.free_lists 1).free_list := by
    intro x hx
    have hxh := h.free_is_head (by norm_num : 1 < 3) hx
    have hxo := (h.free_rec 1 x (by norm_num) hx).2
    have hxw := h.tiles.within x hxh
    have hxa := h.tiles.aligned x hxh
    simp only [hxo, hn] at hxw hxa
    have hx2 : (frame_base pool + x) % 2 = 0 := Nat.mod_eq_zero_of_dvd (by simpa using hxa)
    have hal : 2 ^ (1 + 1) ∣ frame_base pool + 0 :=
      Nat.dvd_of_mod_eq_zero (by norm_num; omega)
    have hsib := block_tiling_sibling h.tiles hal (rfl : 0 + 2 ^ 1 = 0 + 2 ^ 1)
      (by rw [hn]; norm_num)
      (by
        by_cases hx0 : x = 0
        · left; rw [← hx0]; exact ⟨hxh, hxo⟩
        · right
          have : 0 + 2 ^ 1 = x := by norm_num at hxw ⊢; omega
          rw [this]; exact ⟨hxh, hxo⟩)
    have m1 := hfree _ hsib.1.1
    have m2 := hfree _ hsib.2.1
    have o1 : (pool.page_metadata 0).order = 1 := by
      have := hsib.1.2
      rcases Nat.lt_or_ge 0 (pool.page_metadata 0).order with g | g
      · omega
      · have e : (pool.page_metadata 0).order = 0 := by omega
        rw [e] at m1; exact absurd m1 (h0 _)
    have o2 : (pool.page_metadata (0 + 2 ^ 1)).order = 1 := by
      have := hsib.2.2
      rcases Nat.lt_or_ge 0 (pool.page_metadata (0 + 2 ^ 1)).order with g | g
      · omega
      · have e : (pool.page_metadata (0 + 2 ^ 1)).order = 0 := by omega
        rw [e] at m2; exact absurd m2 (h0 _)
    rw [o1] at m1
    rw [o2] at m2
    exact hco 1 _ (by norm_num) m1 m2 hal
  have h2 : ∀ x, x ∈ (pool.free_lists 2).free_list → x = 0 := by
    intro x hx
    have hxh := h.free_is_head (by norm_num : 2 < 3) hx
    have hxo := (h.free_rec 2 x (by norm_num) hx).2
    have hxw := h.tiles.within x hxh
    simp only [hxo, hn] at hxw
    norm_num at hxw
    exact hxw
  have h2m : 0 ∈ (pool.free_lists 2).free_list := by
    obtain ⟨p, hp, hp1, _⟩ := h.tiles.cover 0 (by rw [hn]; norm_num)
    have hp0 : p = 0 := by omega
    subst hp0
    have m := hfree _ hp
    have hlt := h.head_order_lt hp
    have : (pool.page_metadata 0).order = 2 := by
      rcases Nat.lt_or_ge (pool.page_metadata 0).order 1 with g | g
      · have e : (pool.page_metadata 0).order = 0 := by omega
        rw [e] at m; exact absurd m (h0 _)
      · rcases Nat.lt_or_ge (pool.page_metadata 0).order 2 with g2 | g2
        · have e : (pool.page_metadata 0).order = 1 := by omega
          rw [e] at m; exact absurd m (h1 _)
        · omega
    rw [this] at m; exact m
  have hlen : (pool.free_lists 2).free_list.length = 1 := by
    have hnd := h.free_nodup 2 (by norm_num)
    cases hl : (pool.free_lists 2).free_list with
    | nil => rw [hl] at h2m; exact absurd h2m (List.not_mem_nil _)
    | cons a l =>
      cases l with
      | nil => rfl
      | cons b l =>
        rw [hl] at hnd h2
        have ha := h2 a (List.mem_cons_self _ _)
        have hb := h2 b (List.mem_cons_of_mem _ (List.mem_cons_self _ _))
        rw [ha, hb] at hnd
        simp at hnd
  refine ⟨by rw [h.free_count 2 (by norm_num), hlen], ?_, ?_⟩
  · rw [h.free_count 0 (by norm_num), List.length_eq_zero, List.eq_nil_iff_forall_not_mem]
    exact h0
  · rw [h.free_count 1 (by norm_num), List.length_eq_zero, List.eq_nil_iff_forall_not_mem]
    exact h1

/-- Releasing an outstanding block into an empty free list of its order only links it:
its buddy is not free at that order, so nothing is coalesced. -/
theorem free_into_empty {M : Nat} {pool : phys_mem_pool} {out : List Nat} {p : Nat}
    (h : pool_inv M pool out) (hp : p ∈ out)
    (hempty : (pool.free_lists (pool.page_metadata p).order).free_list = []) :
    buddy_free_pages M pool p =
      list_add (set_nr_free (set_allocated pool p 0) (pool.page_metadata p).order
        ((pool.free_lists (pool.page_metadata p).order).nr_free + 1)) p
        (pool.page_metadata p).order := by
  rw [buddy_free_pages_eq]
  obtain ⟨e1, e2, e3, e4, e5, e6⟩ := free_insert_spec pool p
  have hinv := pool_inv_insert h hp e1 e2 e3 e4 (fun k _ => e5 k) (fun k _ => e6 k)
  have ho := (h.out_rec p hp).2
  generalize hq : list_add (set_nr_free (set_allocated pool p 0) (pool.page_metadata p).order
        ((pool.free_lists (pool.page_metadata p).order).nr_free + 1)) p
        (pool.page_metadata p).order = cur at *
  have hord : (cur.page_metadata p).order = (pool.page_metadata p).order := by
    rw [e4]; simp
  have hlist : (cur.free_lists (pool.page_metadata p).order).free_list = [p] := by
    rw [e5, if_pos rfl, hempty]
  have hmem : p ∈ (cur.free_lists (cur.page_metadata p).order).free_list := by
    rw [hord, hlist]; exact List.mem_singleton_self p
  unfold merge_page
  rw [merge_page_aux_stop hinv (by rw [hord]; exact ho) hmem]
  intro b _ hb hbm
  rw [hord, hlist, List.mem_singleton] at hbm
  obtain ⟨lo, hi, hpb, hhi, _⟩ := hinv.buddy_pair (hinv.free_is_head (by rw [hord]; exact ho) hmem) hb
  have := two_pow_pos (cur.page_metadata p).order
  rcases hpb with ⟨rfl, rfl⟩ | ⟨rfl, rfl⟩ <;> omega

/-- Releasing the two halves of a block that was split once, in either order, rebuilds the
free lists the pool had before the split. -/
theorem release_pair_restore {M : Nat} {pool pool2 : phys_mem_pool} {out out2 : List Nat}
    {a t x y : Nat} {rest : List Nat}
    (h : pool_inv M pool out) (hco : coalesced M pool)
    (h2 : pool_inv M pool2 out2) (hco2 : coalesced M pool2)
    (ht : t + 1 < M) (hlist : (pool.free_lists (t + 1)).free_list = a :: rest)
    (hempty : (pool.free_lists t).free_list = [])
    (hs : pool2.pool_start_addr = pool.pool_start_addr)
    (hl2 : ∀ j, j < M → (pool2.free_lists j).free_list =
      if j = t + 1 then rest else (pool.free_lists j).free_list)
    (hx : x ∈ out2) (hy : y ∈ out2)
    (hxy : (x = a ∧ y = a + 2 ^ t) ∨ (x = a + 2 ^ t ∧ y = a))
    (hmx : (pool2.page_metadata x).order = t) (hmy : (pool2.page_metadata y).order = t) :
    ∀ j, j < M →
      (buddy_free_pages M (buddy_free_pages M pool2 x) y).free_lists j = pool.free_lists j := by
  have hs2 := two_pow_pos t
  have hne : y ≠ x := by rcases hxy with ⟨rfl, rfl⟩ | ⟨rfl, rfl⟩ <;> omega
  have ht' : t < M := by omega
  have hl2t : (pool2.free_lists t).free_list = [] := by
    rw [hl2 t ht', if_neg (by omega), hempty]
  -- the first release only links its block
  have hf1 := @free_into_empty M pool2 out2 x h2 hx (by rw [hmx]; exact hl2t)
  obtain ⟨hinv1, hco1⟩ := buddy_free_pages_inv h2 hco2 hx
  obtain ⟨a1, _, _, a4, a5, _⟩ := free_insert_spec pool2 x
  rw [hmx] at hf1 a1 a4 a5
  rw [hf1] at hinv1 hco1 ⊢
  generalize hq1 : list_add (set_nr_free (set_allocated pool2 x 0) t
        ((pool2.free_lists t).nr_free + 1)) x t = pool3 at *
  have hy3 : y ∈ out2.erase x := (h2.out_nodup.mem_erase_iff).2 ⟨hne, hy⟩
  have hmy3 : (pool3.page_metadata y).order = t := by
    rw [a4, if_neg hne]; exact hmy
  -- the second release links its block and coalesces the pair
  obtain ⟨hinv4, _⟩ := buddy_free_pages_inv hinv1 hco1 hy3
  intro j hj
  apply free_lists_eq_of_lists h hinv4 hj
  rw [buddy_free_pages_eq]
  obtain ⟨b1, b2, b3, b4, b5, b6⟩ := free_insert_spec pool3 y
  have hinv5 := pool_inv_insert hinv1 hy3 b1 b2 b3 b4 (fun k _ => b5 k) (fun k _ => b6 k)
  rw [hmy3] at b1 b4 b5 hinv5 ⊢
  generalize hq2 : list_add (set_nr_free (set_allocated pool3 y 0) t
        ((pool3.free_lists t).nr_free + 1)) y t = cur at *
  have hord : (cur.page_metadata y).order = t := by rw [b4]; simp
  have haL : a ∈ (pool.free_lists (t + 1)).free_list := by
    rw [hlist]; exact List.mem_cons_self _ _
  have hal : 2 ^ (t + 1) ∣ frame_base pool + a := by
    have := h.tiles.aligned a (h.free_is_head ht haL)
    simp only [(h.free_rec _ a ht haL).2] at this
    exact this
  have hbase : frame_base cur = frame_base pool := by
    unfold frame_base; rw [b1, a1, hs]
  unfold merge_page
  rw [hord]
  apply merge_page_aux_restore pool a rest hco 1 t _ y cur ht hinv5
    (b1.trans (a1.trans hs)) hlist
    (fun i h1 h3 => by
      have : i = t := by omega
      rw [this]; exact hempty)
  · intro i hi hcase
    rw [b5, if_neg (by omega), a5, if_neg (by omega), hl2 i hi, if_neg (by omega)]
  · intro hd0; omega
  · intro _
    refine ⟨?_, ?_, ?_⟩
    · intro z
      rw [b5, if_pos rfl, a5, if_pos rfl, hl2t]
      simp only [List.mem_cons, List.mem_singleton, List.not_mem_nil, or_false]
      rcases hxy with ⟨rfl, rfl⟩ | ⟨rfl, rfl⟩
      · tauto
      · tauto
    · intro i h1 h3; omega
    · rw [b5, if_neg (by omega), a5, if_neg (by omega), hl2 _ ht, if_pos rfl]
  · rw [hbase]; exact hal
  · rcases hxy with ⟨_, e⟩ | ⟨_, e⟩
    · exact Or.inr ⟨by norm_num, e⟩
    · exact Or.inl e
  · exact le_refl _
  · exact hj

/-! ## Blocks of a reachable state -/

/-- A block is headed by a block head whose record carries the order of the block. -/
theorem is_block_head {M : Nat} {pool : phys_mem_pool} {out : List (Nat × Nat)} {i o : Nat}
    (hord : ∀ e, e ∈ out → (pool.page_metadata e.1).order = e.2)
    (h : pool_inv M pool (out.map Prod.fst)) (hb : is_block M pool out i o) :
    is_head M pool (out.map Prod.fst) i ∧ (pool.page_metadata i).order = o := by
  rcases hb with hb | ⟨ho, hb⟩
  · exact ⟨Or.inl (List.mem_map.2 ⟨(i, o), hb, rfl⟩), hord _ hb⟩
  · exact ⟨Or.inr ⟨o, ho, hb⟩, (h.free_rec o i ho hb).2⟩

/-- Two different blocks of a reachable state share no frame. -/
theorem blocks_disjoint {M : Nat} {pool : phys_mem_pool} {out : List (Nat × Nat)}
    (hr : Reachable M pool out) {i o j p : Nat}
    (hi : is_block M pool out i o) (hj : is_block M pool out j p) (hne : (i, o) ≠ (j, p)) :
    i + 2 ^ o ≤ j ∨ j + 2 ^ p ≤ i := by
  obtain ⟨h, _, hord⟩ := reachable_inv hr
  obtain ⟨hhi, hoi⟩ := is_block_head hord h hi
  obtain ⟨hhj, hoj⟩ := is_block_head hord h hj
  have hij : i ≠ j := by
    intro e
    subst e
    exact hne (by rw [← hoi, ← hoj])
  rcases Nat.lt_or_ge i j with hlt | hge
  · left
    by_contra hc
    have := h.tiles.disjoint i j hhi hhj (Nat.le_of_lt hlt) (by rw [hoi]; omega)
    omega
  · right
    by_contra hc
    have := h.tiles.disjoint j i hhj hhi hge (by rw [hoj]; omega)
    omega

/-! ## Split of any free block -/

/-- The recursion of `split_page` on a free block `p` of order `t + d`, whatever the free
lists of the orders below hold: every halving finds its buddy, the block comes out at order
`t`, and each order from `t` to `t + d - 1` holds the upper half cut off at that order. -/
theorem split_page_aux_total {M : Nat} {out : List Nat} (pool0 : phys_mem_pool) (p : Nat) :
    ∀ (d t : Nat),
      pool_inv M pool0 out → t + d < M →
      p ∈ (pool0.free_lists (t + d)).free_list →
      ∃ pool1, split_page_aux d pool0 t p = some (pool1, p) ∧
        pool_inv M pool1 out ∧
        pool1.pool_phys_page_num = pool0.pool_phys_page_num ∧
        p ∈ (pool1.free_lists t).free_list ∧
        ∀ k, t ≤ k → k < t + d → p + 2 ^ k ∈ (pool1.free_lists k).free_list := by
  intro d
  induction d with
  | zero =>
    intro t h _ hp
    exact ⟨pool0, rfl, h, rfl, hp, fun k h1 h2 => by omega⟩
  | succ d ih =>
    intro t h ht hp
    have hL : t + 1 + d = t + (d + 1) := by omega
    have hp_rec := h.free_rec _ p ht hp
    have hdeep : (if (pool0.page_metadata p).order - t > 1 then
        split_page_aux d pool0 (t + 1) p else some (pool0, p))
        = split_page_aux d pool0 (t + 1) p := by
      rw [hp_rec.2]
      by_cases hd : d = 0
      · subst hd; rw [if_neg (by omega)]; rfl
      · rw [if_pos (by omega)]
    obtain ⟨pool1, e1, hinv1, en1, hp1, hup1⟩ :=
      ih (t + 1) h (by omega) (by rw [hL]; exact hp)
    obtain ⟨pool2, e2, es2, ez2, en2, em2, el2, ec2⟩ :=
      split_page_halve_spec hinv1 (by omega : t + 1 < M) hp1
    have hinv2 := pool_inv_halve hinv1 (by omega : t + 1 < M) hp1 rfl es2 ez2 en2 em2 el2 ec2
    refine ⟨pool2, ?_, hinv2, by rw [en2, en1], ?_, ?_⟩
    · unfold split_page_aux
      rw [if_neg (by rw [hp_rec.1, hp_rec.2]; omega)]
      dsimp only
      rw [hdeep, e1]
      dsimp only
      rw [e2]
    · rw [el2 t (by omega), if_pos rfl]
      exact List.mem_cons_of_mem _ (List.mem_cons_self _ _)
    · intro k hk1 hk2
      rw [el2 k (by omega)]
      by_cases hkt : k = t
      · subst hkt
        rw [if_pos rfl]
        exact List.mem_cons_self _ _
      · have hm := hup1 k (by omega) (by omega)
        rw [if_neg hkt]
        by_cases hk3 : k = t + 1
        · rw [if_pos hk3]
          have hs := two_pow_pos k
          exact (List.mem_erase_of_ne (by omega)).2 hm
        · rw [if_neg hk3]
          exact hm

/-! ## Number of steps of the recursions -/

/-- Any depth from the distance to the top order on gives the result of `merge_page`. -/
theorem merge_page_aux_fuel_le (M : Nat) (pool : phys_mem_pool) (p : Nat) :
    ∀ (extra : Nat),
      merge_page_aux M (M - 1 - (pool.page_metadata p).order + extra) pool p
        = merge_page M pool p := by
  intro extra
  induction extra with
  | zero => rfl
  | succ e ih =>
    rw [← Nat.add_assoc, merge_page_aux_fuel M _ pool p (by omega), ih]

/-- Any depth from the distance to the target order on gives the result of `split_page`. -/
theorem split_page_aux_fuel_le (pool : phys_mem_pool) (order p : Nat) :
    ∀ (extra : Nat),
      split_page_aux ((pool.page_metadata p).order - order + extra) pool order p
        = split_page pool order p := by
  intro extra
  induction extra with
  | zero => rfl
  | succ e ih =>
    rw [← Nat.add_assoc, split_page_aux_fuel _ pool order p (by omega), ih]

/-- The coalescing steps of a merge are at most the distance to the top order, and the
block returned has the order of the block given plus the number of steps. -/
theorem merge_page_steps_spec (M : Nat) :
    ∀ (fuel : Nat) (pool : phys_mem_pool) (p : Nat),
      merge_page_steps M fuel pool p ≤ M - 1 - (pool.page_metadata p).order ∧
      ((merge_page_aux M fuel pool p).1.page_metadata (merge_page_aux M fuel pool p).2).order
        = (pool.page_metadata p).order + merge_page_steps M fuel pool p := by
  intro fuel
  induction fuel with
  | zero =>
    intro pool p
    exact ⟨Nat.zero_le _, rfl⟩
  | succ fuel ih =>
    intro pool p
    rw [merge_page_aux.eq_def M (fuel + 1), merge_page_steps.eq_def M (fuel + 1)]
    dsimp only
    by_cases hc1 : (pool.page_metadata p).order ≥ M - 1 ∨ (pool.page_metadata p).allocated = 1
    · rw [if_pos hc1, if_pos hc1]
      exact ⟨Nat.zero_le _, rfl⟩
    · rw [if_neg hc1, if_neg hc1]
      cases hb : get_buddy_chunk pool p with
      | none => exact ⟨Nat.zero_le _, rfl⟩
      | some b =>
        dsimp only
        by_cases hc2 : (pool.page_metadata b).allocated = 1 ∨
            (pool.page_metadata b).order ≠ (pool.page_metadata p).order
        · rw [if_pos hc2, if_pos hc2]
          exact ⟨Nat.zero_le _, rfl⟩
        · rw [if_neg hc2, if_neg hc2]
          have hbo : (pool.page_metadata b).order = (pool.page_metadata p).order := by
            by_contra e; exact hc2 (Or.inr e)
          obtain ⟨h1, h2⟩ := ih (merge_page_step pool p b).1 (merge_page_step pool p b).2
          rw [merge_page_step_order pool p b hbo] at h1 h2
          push_neg at hc1
          refine ⟨by omega, ?_⟩
          rw [h2]
          omega

/-- The halvings of a split are at most the distance to the target order. -/
theorem split_page_halvings_le :
    ∀ (fuel : Nat) (pool : phys_mem_pool) (order p : Nat),
      split_page_halvings fuel pool order p ≤ (pool.page_metadata p).order - order := by
  intro fuel
  induction fuel with
  | zero => intro pool order p; exact Nat.zero_le _
  | succ fuel ih =>
    intro pool order p
    rw [split_page_halvings.eq_def (fuel + 1)]
    dsimp only
    by_cases hc1 : (pool.page_metadata p).allocated = 1 ∨ (pool.page_metadata p).order = 0 ∨
        (pool.page_metadata p).order ≤ order
    · rw [if_pos hc1]; exact Nat.zero_le _
    · rw [if_neg hc1]
      push_neg at hc1
      by_cases hc2 : (pool.page_metadata p).order - order > 1
      · rw [if_pos hc2]
        have := ih pool (order + 1) p
        cases split_page_aux fuel pool (order + 1) p with
        | none => dsimp only; omega
        | some r => dsimp only; omega
      · rw [if_neg hc2]; omega

/-- A split of a block not marked allocated that returns has made exactly as many halvings
as the distance to the target order. -/
theorem split_page_halvings_eq :
    ∀ (fuel : Nat) (pool : phys_mem_pool) (order p : Nat),
      (pool.page_metadata p).allocated ≠ 1 →
      (pool.page_metadata p).order - order = fuel →
      (split_page_aux fuel pool order p).isSome = true →
      split_page_halvings fuel pool order p = fuel := by
  intro fuel
  induction fuel with
  | zero => intro pool order p _ _ _; rfl
  | succ fuel ih =>
    intro pool order p ha hf hs
    rw [split_page_halvings.eq_def (fuel + 1)]
    rw [split_page_aux.eq_def (fuel + 1)] at hs
    dsimp only at hs ⊢
    have hc1 : ¬ ((pool.page_metadata p).allocated = 1 ∨ (pool.page_metadata p).order = 0 ∨
        (pool.page_metadata p).order ≤ order) := by
      push_neg
      exact ⟨ha, by omega, by omega⟩
    rw [if_neg hc1] at hs ⊢
    by_cases hc2 : (pool.page_metadata p).order - order > 1
    · rw [if_pos hc2] at hs ⊢
      cases hd : split_page_aux fuel pool (order + 1) p with
      | none => rw [hd] at hs; simp at hs
      | some r =>
        dsimp only
        rw [ih pool (order + 1) p ha (by omega) (by rw [hd]; rfl)]
    · rw [if_neg hc2]; omega

/-! ## Free lists left by initialisation -/

/-- The binary digits of `n` below position `K` add up to `n % 2 ^ K`. -/
theorem sum_bits (n : Nat) : ∀ K, ∑ o ∈ Finset.range K, (n / 2 ^ o % 2) * 2 ^ o = n % 2 ^ K := by
  intro K
  induction K with
  | zero => simp [Nat.mod_one]
  | succ K ih =>
    rw [Finset.sum_range_succ, ih, Nat.mod_pow_succ, Nat.mul_comm]

/-- A list without repetition whose members are all equal has at most one member. -/
theorem length_le_one_of_all_eq (l : List Nat) (hnd : l.Nodup)
    (heq : ∀ x y, x ∈ l → y ∈ l → x = y) : l.length ≤ 1 := by
  match l, hnd, heq with
  | [], _, _ => simp
  | [_], _, _ => simp
  | a :: b :: t, hnd, heq =>
    exfalso
    have e : a = b := heq a b (List.mem_cons_self _ _)
      (List.mem_cons_of_mem _ (List.mem_cons_self _ _))
    subst e
    exact (List.nodup_cons.1 hnd).1 (List.mem_cons_self _ _)

/-- With nothing outstanding, all merges done and the pool starting at a multiple of the
largest block size, a free block of an order `o` below the top order is the last aligned
block of order `o + 1` cut off by the end of the pool. -/
theorem canonical_position {M : Nat} {pool : phys_mem_pool}
    (h : pool_inv M pool []) (hco : coalesced M pool)
    (hbase : 2 ^ (M - 1) ∣ frame_base pool) :
    ∀ o, o + 1 < M → ∀ x, x ∈ (pool.free_lists o).free_list →
      2 ^ (o + 1) ∣ x ∧ x + 2 ^ o ≤ pool.pool_phys_page_num ∧
        pool.pool_phys_page_num < x + 2 ^ (o + 1) := by
  intro o
  induction o using Nat.strong_induction_on with
  | _ o ih =>
    intro ho x hx
    have hs := two_pow_pos o
    have h2 : 2 ^ (o + 1) = 2 ^ o + 2 ^ o := by rw [pow_succ]; ring
    have hhead := h.free_is_head (by omega : o < M) hx
    have hox := (h.free_rec o x (by omega) hx).2
    have hwithin := h.tiles.within x hhead
    have haligned := h.tiles.aligned x hhead
    simp only [hox] at hwithin haligned
    have hb1 : 2 ^ (o + 1) ∣ frame_base pool :=
      Dvd.dvd.trans (pow_dvd_pow 2 (by omega : o + 1 ≤ M - 1)) hbase
    -- a head of the pool is a free block of its own order
    have hfree : ∀ y, is_head M pool [] y →
        (pool.page_metadata y).order < M ∧
        y ∈ (pool.free_lists (pool.page_metadata y).order).free_list := by
      intro y hy
      rcases hy with hy | ⟨k, hk, hy⟩
      · simp at hy
      · have := (h.free_rec k y hk hy).2
        rw [this]
        exact ⟨hk, hy⟩
    by_cases hal : 2 ^ (o + 1) ∣ frame_base pool + x
    · have hdx : 2 ^ (o + 1) ∣ x := (Nat.dvd_add_right hb1).1 hal
      refine ⟨hdx, hwithin, ?_⟩
      by_contra hc
      have hn : x + 2 ^ o < pool.pool_phys_page_num := by omega
      obtain ⟨-, hhi, hohi⟩ := block_tiling_sibling h.tiles hal rfl hn (Or.inl ⟨hhead, hox⟩)
      obtain ⟨hk, hmem⟩ := hfree _ hhi
      rcases Nat.lt_or_ge (pool.page_metadata (x + 2 ^ o)).order o with hlt | hge
      · obtain ⟨-, -, h3⟩ := ih _ hlt (by omega) _ hmem
        have := Nat.pow_le_pow_right (by decide : 0 < 2)
          (by omega : (pool.page_metadata (x + 2 ^ o)).order + 1 ≤ o)
        omega
      · have e : (pool.page_metadata (x + 2 ^ o)).order = o := Nat.le_antisymm hohi hge
        rw [e] at hmem
        exact hco o x ho hx hmem hal
    · exfalso
      have hle : 2 ^ o ≤ x := by
        by_contra hc
        have hd : 2 ^ o ∣ x :=
          (Nat.dvd_add_right (Dvd.dvd.trans (pow_dvd_pow 2 (by omega : o ≤ M - 1)) hbase)).1
            haligned
        have hx0 : x = 0 := by
          rcases Nat.eq_zero_or_pos x with e | e
          · exact e
          · have := Nat.le_of_dvd e hd
            omega
        rw [hx0, Nat.add_zero] at hal
        exact hal hb1
      have hlo := dvd_lower haligned hal hle
      have hhi : x = (x - 2 ^ o) + 2 ^ o := by omega
      obtain ⟨⟨hhlo, holo⟩, -⟩ := block_tiling_sibling h.tiles hlo hhi (by omega)
        (Or.inr ⟨hhead, hox⟩)
      obtain ⟨hk, hmem⟩ := hfree _ hhlo
      rcases Nat.lt_or_ge (pool.page_metadata (x - 2 ^ o)).order o with hlt | hge
      · obtain ⟨-, -, h3⟩ := ih _ hlt (by omega) _ hmem
        have := Nat.pow_le_pow_right (by decide : 0 < 2)
          (by omega : (pool.page_metadata (x - 2 ^ o)).order + 1 ≤ o)
        omega
      · have e : (pool.page_metadata (x - 2 ^ o)).order = o := Nat.le_antisymm holo hge
        rw [e] at hmem
        have hx2 : x - 2 ^ o + 2 ^ o ∈ (pool.free_lists o).free_list := by rw [← hhi]; exact hx
        exact hco o (x - 2 ^ o) ho hmem hx2 hlo

/-- The counter of an order below the top order is at most the binary digit of the number
of frames at that position. -/
theorem canonical_count_le {M : Nat} {pool : phys_mem_pool}
    (h : pool_inv M pool []) (hco : coalesced M pool)
    (hbase : 2 ^ (M - 1) ∣ frame_base pool) (o : Nat) (ho : o + 1 < M) :
    (pool.free_lists o).nr_free ≤ pool.pool_phys_page_num / 2 ^ o % 2 := by
  have hs := two_pow_pos o
  have h2 : 2 ^ (o + 1) = 2 ^ o + 2 ^ o := by rw [pow_succ]; ring
  have hpos := canonical_position h hco hbase o ho
  have hlen : (pool.free_lists o).free_list.length ≤ 1 := by
    apply length_le_one_of_all_eq _ (h.free_nodup o (by omega))
    intro x y hx hy
    obtain ⟨dx, x1, x2⟩ := hpos x hx
    obtain ⟨dy, y1, y2⟩ := hpos y hy
    rcases Nat.lt_trichotomy x y with hlt | heq | hgt
    · have := dvd_lt_add_le dx dy hlt; omega
    · exact heq
    · have := dvd_lt_add_le dy dx hgt; omega
  rw [h.free_count o (by omega)]
  cases hl : (pool.free_lists o).free_list with
  | nil => simp
  | cons x t =>
    obtain ⟨⟨c, hc⟩, x1, x2⟩ := hpos x (by rw [hl]; exact List.mem_cons_self _ _)
    have hdiv : pool.pool_phys_page_num / 2 ^ o = 2 * c + 1 := by
      apply Nat.div_eq_of_lt_le
      · rw [Nat.add_mul, Nat.one_mul]
        have : 2 * c * 2 ^ o = 2 ^ (o + 1) * c := by rw [pow_succ]; ring
        omega
      · have : (2 * c + 1 + 1) * 2 ^ o = 2 ^ (o + 1) * c + 2 ^ (o + 1) := by rw [pow_succ]; ring
        show pool.pool_phys_page_num < (2 * c + 1 + 1) * 2 ^ o
        omega
    have hodd : (2 * c + 1) % 2 = 1 := by omega
    rw [hl] at hlen
    rw [hdiv, hodd]
    exact hlen

/-- With nothing outstanding, all merges done and the pool starting at a multiple of the
largest block size, the counters are the binary digits of the number of frames, the top
order holding the rest. -/
theorem canonical_counts {M : Nat} {pool : phys_mem_pool}
    (h : pool_inv M pool []) (hco : coalesced M pool)
    (hbase : 2 ^ (M - 1) ∣ frame_base pool) :
    (∀ o, o + 1 < M → (pool.free_lists o).nr_free = pool.pool_phys_page_num / 2 ^ o % 2) ∧
    (pool.free_lists (M - 1)).nr_free = pool.pool_phys_page_num / 2 ^ (M - 1) := by
  have hM := h.max_order_pos
  have hle := canonical_count_le h hco hbase
  have hacc := h.account
  simp only [List.map_nil, List.sum_nil, Nat.add_zero] at hacc
  obtain ⟨K, rfl⟩ : ∃ K, M = K + 1 := ⟨M - 1, by omega⟩
  rw [Finset.sum_range_succ] at hacc
  simp only [Nat.add_sub_cancel] at *
  have hsle : ∑ o ∈ Finset.range K, (pool.free_lists o).nr_free * 2 ^ o ≤
      ∑ o ∈ Finset.range K, (pool.pool_phys_page_num / 2 ^ o % 2) * 2 ^ o := by
    apply Finset.sum_le_sum
    intro o ho
    exact Nat.mul_le_mul_right _ (hle o (by have := Finset.mem_range.1 ho; omega))
  rw [sum_bits] at hsle
  have hmod := Nat.mod_lt pool.pool_phys_page_num (two_pow_pos K)
  have hdm := Nat.div_add_mod pool.pool_phys_page_num (2 ^ K)
  have hq : (pool.free_lists K).nr_free = pool.pool_phys_page_num / 2 ^ K := by
    symm
    apply Nat.div_eq_of_lt_le
    · omega
    · rw [Nat.add_mul, Nat.one_mul]; omega
  refine ⟨?_, hq⟩
  have hS : ∑ o ∈ Finset.range K, (pool.free_lists o).nr_free * 2 ^ o =
      ∑ o ∈ Finset.range K, (pool.pool_phys_page_num / 2 ^ o % 2) * 2 ^ o := by
    rw [sum_bits]
    rw [hq] at hacc
    have : 2 ^ K * (pool.pool_phys_page_num / 2 ^ K) =
        pool.pool_phys_page_num / 2 ^ K * 2 ^ K := Nat.mul_comm _ _
    omega
  have hterm := (Finset.sum_eq_sum_iff_of_le (fun o ho =>
    Nat.mul_le_mul_right (2 ^ o) (hle o (by have := Finset.mem_range.1 ho; omega)))).1 hS
  intro o ho
  have := hterm o (Finset.mem_range.2 (by omega))
  exact Nat.eq_of_mul_eq_mul_right (two_pow_pos o) this

/-! ## The allocator under the fault handler -/

theorem fault_pool_reachable : Reachable 3 fault_pool [] :=
  Reachable.init blank_pool 0x4000 4 (by decide) (by decide) (by decide)

theorem fault_pool_get :
    get_page 3 fault_pool 0 = some (fault_pool_acquired, 0x4000) := rfl

/-- The frame index of the address of a frame of the pool is that frame. -/
theorem virt_to_page_page_to_virt (pool : phys_mem_pool) (i : Nat)
    (hfit : pool.pool_start_addr + pool.pool_phys_page_num * BUDDY_PAGE_SIZE ≤ U64)
    (hi : i < pool.pool_phys_page_num) :
    virt_to_page pool (page_to_virt pool i) = i := by
  have h1 : i * BUDDY_PAGE_SIZE + BUDDY_PAGE_SIZE ≤ pool.pool_phys_page_num * BUDDY_PAGE_SIZE := by
    have := Nat.mul_le_mul_right BUDDY_PAGE_SIZE (Nat.succ_le_of_lt hi)
    rwa [Nat.succ_mul] at this
  have hP : BUDDY_PAGE_SIZE = 4096 := rfl
  have hU : U64 = 18446744073709551616 := by norm_num [U64]
  have hpv : page_to_virt pool i = i * BUDDY_PAGE_SIZE + pool.pool_start_addr :=
    Nat.mod_eq_of_lt (by omega)
  have e : i * BUDDY_PAGE_SIZE + pool.pool_start_addr + U64 - pool.pool_start_addr
      = i * BUDDY_PAGE_SIZE + U64 := by omega
  unfold virt_to_page
  rw [hpv, e, Nat.add_mod_right, Nat.mod_eq_of_lt (by omega), hP]
  exact Nat.mul_div_cancel _ (by norm_num)

/-- On a pool satisfying the invariants `buddy_get_pages` returns: a page or NULL. -/
theorem buddy_get_pages_total {M : Nat} {pool : phys_mem_pool} {out : List Nat}
    (h : pool_inv M pool out) (hco : coalesced M pool) (order : Nat) :
    ∃ pool1 r, buddy_get_pages M pool order = some (pool1, r) := by
  by_cases h1 : order ≥ M
  · refine ⟨pool, none, ?_⟩
    unfold buddy_get_pages
    rw [if_pos h1]
  · by_cases hz : ∀ k, order ≤ k → k < M → (pool.free_lists k).nr_free = 0
    · refine ⟨pool, none, ?_⟩
      unfold buddy_get_pages
      rw [if_neg h1, if_pos (hz order (le_refl _) (by omega)),
        scan_larger_order_zero M pool M order hz (by omega)]
    · push_neg at hz
      obtain ⟨k, hk1, hk2, hk3⟩ := hz
      obtain ⟨L, hL1, hL2, hLn, hLmin⟩ := exists_first_nonzero ⟨k, hk1, hk2, hk3⟩
      obtain ⟨p, rest, pool1, _, hget, _⟩ := buddy_get_pages_spec h hco hL1 hL2 hLn hLmin
      exact ⟨pool1, some p, hget⟩

/-- The descriptor fields are those of the pool given to a successful `buddy_get_pages`. -/
theorem buddy_get_pages_fields {M : Nat} {pool pool1 : phys_mem_pool} {out : List Nat}
    {order p : Nat} (h : pool_inv M pool out) (hco : coalesced M pool)
    (hget : buddy_get_pages M pool order = some (pool1, some p)) :
    pool1.pool_start_addr = pool.pool_start_addr := by
  obtain ⟨L, hL1, hL2, hLn, hLmin⟩ := buddy_get_pages_some hget
  obtain ⟨p2, rest, pool2, _, hget2, _, _, _, hs, _⟩ :=
    buddy_get_pages_spec h hco hL1 hL2 hLn hLmin
  rw [hget] at hget2
  simp only [Option.some.injEq, Prod.mk.injEq] at hget2
  rw [hget2.1]
  exact hs

/-- The address of a frame of a pool that does not start at address 0 is not `NULL`. -/
theorem page_to_virt_ne_null {M : Nat} {pool : phys_mem_pool} {out : List Nat} {pg : Nat}
    (h : pool_inv M pool out) (hs : pool.pool_start_addr ≠ 0)
    (hpg : pg < pool.pool_phys_page_num) : page_to_virt pool pg ≠ NULL := by
  have h1 : pg * BUDDY_PAGE_SIZE + BUDDY_PAGE_SIZE ≤ pool.pool_phys_page_num * BUDDY_PAGE_SIZE := by
    have := Nat.mul_le_mul_right BUDDY_PAGE_SIZE (Nat.succ_le_of_lt hpg)
    rwa [Nat.succ_mul] at this
  have h2 := h.no_wrap
  have hpv : page_to_virt pool pg = pg * BUDDY_PAGE_SIZE + pool.pool_start_addr :=
    Nat.mod_eq_of_lt (by omega)
  rw [hpv]
  unfold NULL
  omega

/-- An address other than `NULL` returned by `get_page` is the address of the page returned
by `buddy_get_pages`. -/
theorem get_page_some {M : Nat} {pool pool1 : phys_mem_pool} {order page : Nat}
    (hg : get_page M pool order = some (pool1, page)) (hnz : page ≠ NULL) :
    ∃ pg, buddy_get_pages M pool order = some (pool1, some pg) ∧
      page = page_to_virt pool1 pg := by
  unfold get_page at hg
  cases hb : buddy_get_pages M pool order with
  | none => rw [hb] at hg; simp at hg
  | some r =>
    obtain ⟨pl, q⟩ := r
    cases q with
    | none =>
      rw [hb] at hg
      simp only [Option.some.injEq, Prod.mk.injEq] at hg
      exact absurd hg.2.symm hnz
    | some pg =>
      rw [hb] at hg
      simp only [Option.some.injEq, Prod.mk.injEq] at hg
      obtain ⟨rfl, rfl⟩ := hg
      exact ⟨pg, rfl, rfl⟩

/-- Releasing the frame obtained by `get_page` restores every free list. -/
theorem get_page_then_free_page {M : Nat} {pool pool1 : phys_mem_pool} {out : List Nat}
    {order page : Nat} (h : pool_inv M pool out) (hco : coalesced M pool)
    (hg : get_page M pool order = some (pool1, page)) (hnz : page ≠ NULL) :
    ∀ o, o < M → (free_page M pool1 page).free_lists o = pool.free_lists o := by
  obtain ⟨pg, hb, rfl⟩ := get_page_some hg hnz
  have h1 := (buddy_get_pages_inv h hco hb).1
  have hlt : pg < pool1.pool_phys_page_num := h1.head_lt (Or.inl (List.mem_cons_self _ _))
  unfold free_page
  rw [virt_to_page_page_to_virt pool1 pg (Nat.le_of_lt h1.no_wrap) hlt]
  exact get_then_free_lists h hco hb

/-- On a pool that does not start at address 0, `get_page` returns `NULL` exactly when
`buddy_get_pages` returns no page. -/
theorem get_page_null_iff {M : Nat} {pool pool1 : phys_mem_pool} {out : List Nat}
    {order page : Nat} (h : pool_inv M pool out) (hco : coalesced M pool)
    (hs : pool.pool_start_addr ≠ 0)
    (hg : get_page M pool order = some (pool1, page)) :
    page ≠ NULL ↔ ∃ pg, buddy_get_pages M pool order = some (pool1, some pg) := by
  constructor
  · intro hnz
    obtain ⟨pg, hb, _⟩ := get_page_some hg hnz
    exact ⟨pg, hb⟩
  · rintro ⟨pg, hb⟩
    have h1 := (buddy_get_pages_inv h hco hb).1
    have hlt : pg < pool1.pool_phys_page_num := h1.head_lt (Or.inl (List.mem_cons_self _ _))
    have hs1 : pool1.pool_start_addr ≠ 0 := by
      rw [buddy_get_pages_fields h hco hb]; exact hs
    unfold get_page at hg
    rw [hb] at hg
    simp only [Option.some.injEq, Prod.mk.injEq] at hg
    rw [← hg.2]
    exact page_to_virt_ne_null h1 hs1 hlt

/-- The free size depends on the counters of the orders below `BUDDY_MAX_ORDER` only. -/
theorem free_mem_size_congr {M : Nat} {pool pool1 : phys_mem_pool}
    (hl : ∀ o, o < M → pool1.free_lists o = pool.free_lists o) :
    get_free_mem_size_from_buddy M pool1 = get_free_mem_size_from_buddy M pool := by
  rw [free_mem_size_mod, free_mem_size_mod]
  congr 1
  apply Finset.sum_congr rfl
  intro o ho
  rw [hl o (Finset.mem_range.1 ho)]

/-- On a reachable allocator state the handler returns. -/
theorem handle_trans_fault_total {PT : Type} (env : fault_env PT) (st : kernel_state PT)
    (vmspace : vmspace) (fault_addr : Nat) (out : List (Nat × Nat))
    (hr : Reachable env.BUDDY_MAX_ORDER st.global_mem out) :
    ∃ res, handle_trans_fault env st vmspace fault_addr = some res := by
  obtain ⟨h, hco, _⟩ := reachable_inv hr
  obtain ⟨pool1, r, hb⟩ := buddy_get_pages_total h hco 0
  have hgp : ∃ page, get_page env.BUDDY_MAX_ORDER st.global_mem 0 = some (pool1, page) := by
    unfold get_page
    rw [hb]
    cases r with
    | none => exact ⟨_, rfl⟩
    | some pg => exact ⟨_, rfl⟩
  obtain ⟨page, hgp⟩ := hgp
  unfold handle_trans_fault
  cases env.find_vmr_for_va vmspace fault_addr with
  | none => exact ⟨_, rfl⟩
  | some vmr =>
    dsimp only
    by_cases ht : vmr.pmo.type ≠ env.PMO_ANONYM
    · rw [if_pos ht]; exact ⟨_, rfl⟩
    · rw [if_neg ht, hgp]
      dsimp only
      by_cases hn : page = NULL
      · rw [if_pos hn]; exact ⟨_, rfl⟩
      · rw [if_neg hn]
        split
        · exact ⟨_, rfl⟩
        · exact ⟨_, rfl⟩

/-! ## Accounting of reachable states -/

/-- Accounting where the size of the largest block fits in `int` (`BUDDY_MAX_ORDER` at most
19): in every state reachable from `init_buddy` by acquisitions and by releases of
outstanding blocks, the bytes reported by `get_free_mem_size_from_buddy` plus
`2 ^ order * BUDDY_PAGE_SIZE` summed over the outstanding blocks equal `pool_mem_size`,
which is `page_num * BUDDY_PAGE_SIZE`. -/
theorem accounting_small_orders {M : Nat} {pool : phys_mem_pool} {out : List (Nat × Nat)}
    (hr : Reachable M pool out) (hint : M + BUDDY_PAGE_SIZE_ORDER ≤ 31) :
    get_free_mem_size_from_buddy M pool +
        (out.map (fun blk => 2 ^ blk.2 * BUDDY_PAGE_SIZE)).sum
      = pool.pool_mem_size ∧
    pool.pool_mem_size = pool.pool_phys_page_num * BUDDY_PAGE_SIZE ∧
    (out = [] → get_free_mem_size_from_buddy M pool = pool.pool_mem_size) ∧
    (∀ blk, blk ∈ out → (pool.page_metadata blk.1).order = blk.2) := by
  obtain ⟨h, _, hord⟩ := reachable_inv hr
  have hsum : get_free_mem_size_from_buddy M pool +
        (out.map (fun blk => 2 ^ blk.2 * BUDDY_PAGE_SIZE)).sum
      = pool.pool_mem_size := by
    have e : (out.map Prod.fst).map (fun pg => 2 ^ (pool.page_metadata pg).order)
        = out.map (fun blk => 2 ^ blk.2) := by
      rw [List.map_map]
      apply List.map_congr_left
      intro e he
      simp only [Function.comp_apply, hord e he]
    have hacc := h.account
    rw [e] at hacc
    rw [free_mem_size_eq h hint, h.mem_size, ← hacc, Nat.add_mul, List.sum_map_mul_right]
  refine ⟨hsum, h.mem_size, ?_, hord⟩
  intro he
  subst he
  simpa using hsum

/-- The accounting of the four-frame pool with one frame handed out. -/
theorem accounting_small_orders_four_frames :
    get_free_mem_size_from_buddy 3 four_frame_acquired +
        ([(0, 0)].map (fun blk => 2 ^ blk.2 * BUDDY_PAGE_SIZE)).sum
      = four_frame_acquired.pool_mem_size :=
  (accounting_small_orders four_frame_acquired_reachable (by decide)).1

/-- Claim C2. Acquire postcondition: in every reachable state, for every order below
`BUDDY_MAX_ORDER` such that some free list of that order or above is not empty,
`buddy_get_pages` returns a page (not NULL, and without fault) whose `allocated` flag is 1,
whose `order` field is the requested order, and which is linked in no free list of the
resulting pool. -/
theorem acquire_postcondition {M : Nat} {pool : phys_mem_pool} {out : List (Nat × Nat)}
    {order : Nat} (hr : Reachable M pool out) (_ho : order < M)
    (hne : ∃ k, order ≤ k ∧ k < M ∧ (pool.free_lists k).free_list ≠ []) :
    ∃ pool1 pg, buddy_get_pages M pool order = some (pool1, some pg) ∧
      (pool1.page_metadata pg).allocated = 1 ∧
      (pool1.page_metadata pg).order = order ∧
      ∀ o, o < M → pg ∉ (pool1.free_lists o).free_list := by
  obtain ⟨h, hco, _⟩ := reachable_inv hr
  obtain ⟨k, hk1, hk2, hk3⟩ := hne
  obtain ⟨L, hL1, hL2, hLn, hLmin⟩ :=
    exists_first_nonzero ⟨k, hk1, hk2, (h.count_ne_zero_iff hk2).2 hk3⟩
  obtain ⟨p, rest, pool1, _, hget, hinv, _, hmeta, _⟩ :=
    buddy_get_pages_spec h hco hL1 hL2 hLn hLmin
  refine ⟨pool1, p, hget, by rw [hmeta], by rw [hmeta], ?_⟩
  intro o ho2 hmem
  exact hinv.free_not_out ho2 hmem (List.mem_cons_self _ _)

/-- Witness for claim C2: the four-frame pool right after `init_buddy`, request of order 0. -/
theorem acquire_postcondition_witness :
    Reachable 3 four_frame_pool [] ∧
    ∃ pool1 pg, buddy_get_pages 3 four_frame_pool 0 = some (pool1, some pg) ∧
      (pool1.page_metadata pg).allocated = 1 ∧
      (pool1.page_metadata pg).order = 0 ∧
      ∀ o, o < 3 → pg ∉ (pool1.free_lists o).free_list :=
  ⟨four_frame_reachable,
    acquire_postcondition four_frame_reachable (by decide) ⟨2, by decide, by decide, by decide⟩⟩

/-- Claim C3. Exhaustion is side-effect-free: for every pool state, `buddy_get_pages` with an
order at or above `BUDDY_MAX_ORDER`, or with every free list of the orders from the
requested one up to `BUDDY_MAX_ORDER - 1` empty (counter `nr_free` zero, which is what the
code tests), returns NULL and the pool it leaves is the pool it was given. -/
theorem exhaustion_no_effect (M : Nat) (pool : phys_mem_pool) (order : Nat)
    (h : order ≥ M ∨ ∀ k, order ≤ k → k < M → (pool.free_lists k).nr_free = 0) :
    buddy_get_pages M pool order = some (pool, none) := by
  unfold buddy_get_pages
  by_cases h1 : order ≥ M
  · rw [if_pos h1]
  · rw [if_neg h1]
    rcases h with h | h
    · exact absurd h h1
    · rw [if_pos (h order (le_refl _) (by omega)),
        scan_larger_order_zero M pool M order h (by omega)]

/-- Witness for claim C3: the four-frame pool with its only block handed out, request of
order 2. -/
theorem exhaustion_no_effect_witness :
    (2 ≥ 3 ∨ ∀ k, 2 ≤ k → k < 3 → (four_frame_acquired.free_lists k).nr_free = 0) ∧
    buddy_get_pages 3 four_frame_acquired 2 = some (four_frame_acquired, none) :=
  ⟨Or.inr (by decide),
    exhaustion_no_effect 3 four_frame_acquired 2 (Or.inr (by decide))⟩

/-- Claim C4. Acquire/release round trip: in every reachable state, when `buddy_get_pages`
returns a page, releasing that page at once with `buddy_free_pages` gives back every free
list as it was before the acquisition, members (in their order) and counter `nr_free`,
also when the acquisition split a block several orders larger. -/
theorem acquire_release_round_trip {M : Nat} {pool pool1 : phys_mem_pool}
    {out : List (Nat × Nat)}
    {order pg : Nat} (hr : Reachable M pool out)
    (hget : buddy_get_pages M pool order = some (pool1, some pg)) :
    ∀ o, o < M → (buddy_free_pages M pool1 pg).free_lists o = pool.free_lists o :=
  get_then_free_lists (reachable_inv hr).1 (reachable_inv hr).2.1 hget

/-- Witness for claim C4: in the four-frame pool, a request of order 0 splits the block of
order 2 twice, and the release gives the counters 0, 0, 1 again. -/
theorem acquire_release_round_trip_witness :
    (Reachable 3 four_frame_pool [] ∧
      buddy_get_pages 3 four_frame_pool 0 = some (four_frame_acquired, some 0)) ∧
    ∀ o, o < 3 →
      (buddy_free_pages 3 four_frame_acquired 0).free_lists o = four_frame_pool.free_lists o :=
  ⟨⟨four_frame_reachable, four_frame_get⟩,
    acquire_release_round_trip four_frame_reachable four_frame_get⟩

/-- Claim C5. Split/merge round trip: in every reachable state and for every order `o` with
`1 <= o < BUDDY_MAX_ORDER` whose free list is not empty while the free list of order
`o - 1` is empty, two successive `buddy_get_pages` of order `o - 1` return the two halves of
the first free block of order `o`, and releasing both halves with `buddy_free_pages`, in
either order and with nothing in between, gives back every free list as it was: the block
of order `o` is free again and every other free list is unchanged. -/
theorem split_merge_round_trip {M : Nat} {pool : phys_mem_pool} {out : List (Nat × Nat)}
    {o : Nat}
    (hr : Reachable M pool out) (ho1 : 1 ≤ o) (ho2 : o < M)
    (hne : (pool.free_lists o).free_list ≠ [])
    (hempty : (pool.free_lists (o - 1)).free_list = []) :
    ∃ pool1 a pool2 b,
      buddy_get_pages M pool (o - 1) = some (pool1, some a) ∧
      buddy_get_pages M pool1 (o - 1) = some (pool2, some b) ∧
      (pool.free_lists o).free_list.head? = some a ∧ b = a + 2 ^ (o - 1) ∧
      (∀ k, k < M →
        (buddy_free_pages M (buddy_free_pages M pool2 a) b).free_lists k = pool.free_lists k) ∧
      (∀ k, k < M →
        (buddy_free_pages M (buddy_free_pages M pool2 b) a).free_lists k = pool.free_lists k) := by
  obtain ⟨h, hco, _⟩ := reachable_inv hr
  obtain ⟨t, rfl⟩ : ∃ t, o = t + 1 := ⟨o - 1, by omega⟩
  simp only [Nat.add_sub_cancel] at hempty ⊢
  have ht : t < M := by omega
  -- the first acquisition splits the first block of order `t + 1`
  obtain ⟨a, rest, pool1, hlist, hget1, hinv1, hco1, hmeta1, hs1, _, _, hl1, _⟩ :=
    buddy_get_pages_spec h hco (Nat.le_succ t) ho2 ((h.count_ne_zero_iff ho2).2 hne)
      (fun j h1 h3 => by
        have : j = t := by omega
        rw [this]; exact (h.count_eq_zero_iff ht).2 hempty)
  have hl1t : (pool1.free_lists t).free_list = [a + 2 ^ t] := by
    rw [hl1 t ht, if_neg (by omega), if_pos ⟨le_refl _, by omega⟩]
  -- the second acquisition takes the upper half
  obtain ⟨b, rest2, pool2, hlist2, hget2, hinv2, hco2, hmeta2, hs2, _, _, hl2, hout2⟩ :=
    buddy_get_pages_spec hinv1 hco1 (le_refl t) ht
      ((hinv1.count_ne_zero_iff ht).2 (by rw [hl1t]; simp))
      (fun j h1 h3 => by omega)
  rw [hl1t] at hlist2
  have hb : b = a + 2 ^ t := by
    have := List.cons.inj hlist2
    exact this.1.symm
  have hrest2 : rest2 = [] := by
    have := List.cons.inj hlist2
    exact this.2.symm
  have hma : (pool2.page_metadata a).order = t := by
    rw [hout2 a (List.mem_cons_self _ _), hmeta1]
  have hmb : (pool2.page_metadata b).order = t := by rw [hmeta2]
  have hl2' : ∀ j, j < M → (pool2.free_lists j).free_list =
      if j = t + 1 then rest else (pool.free_lists j).free_list := by
    intro j hj
    rw [hl2 j hj]
    by_cases hjt : j = t
    · subst hjt
      rw [if_pos rfl, if_neg (by omega), hrest2, hempty]
    · rw [if_neg hjt, if_neg (by omega), hl1 j hj]
      by_cases hj1 : j = t + 1
      · rw [if_pos hj1, if_pos hj1]
      · rw [if_neg hj1, if_neg hj1, if_neg (by omega)]
  have ha_out : a ∈ b :: a :: out.map Prod.fst :=
    List.mem_cons_of_mem _ (List.mem_cons_self _ _)
  have hb_out : b ∈ b :: a :: out.map Prod.fst := List.mem_cons_self _ _
  refine ⟨pool1, a, pool2, b, hget1, hget2, by rw [hlist]; rfl, hb, ?_, ?_⟩
  · exact release_pair_restore h hco hinv2 hco2 ho2 hlist hempty (hs2.trans hs1) hl2'
      ha_out hb_out (Or.inl ⟨rfl, hb⟩) hma hmb
  · exact release_pair_restore h hco hinv2 hco2 ho2 hlist hempty (hs2.trans hs1) hl2'
      hb_out ha_out (Or.inr ⟨hb, rfl⟩) hmb hma

/-- Witness for claim C5: the four-frame pool right after `init_buddy`, order 2. -/
theorem split_merge_round_trip_witness :
    Reachable 3 four_frame_pool [] ∧
    ∃ pool1 a pool2 b,
      buddy_get_pages 3 four_frame_pool (2 - 1) = some (pool1, some a) ∧
      buddy_get_pages 3 pool1 (2 - 1) = some (pool2, some b) ∧
      (four_frame_pool.free_lists 2).free_list.head? = some a ∧ b = a + 2 ^ (2 - 1) ∧
      (∀ k, k < 3 →
        (buddy_free_pages 3 (buddy_free_pages 3 pool2 a) b).free_lists k
          = four_frame_pool.free_lists k) ∧
      (∀ k, k < 3 →
        (buddy_free_pages 3 (buddy_free_pages 3 pool2 b) a).free_lists k
          = four_frame_pool.free_lists k) :=
  ⟨four_frame_reachable,
    split_merge_round_trip four_frame_reachable (by decide) (by decide) (by decide)
      (by decide)⟩

/-- Counterexample to claim C6 as stated: a pool of 4 frames whose start address 0x1000 is
page-aligned but not a multiple of `4 * BUDDY_PAGE_SIZE`. The buddy of a block is found by
flipping a bit of its address, so after `init_buddy` the frames form two blocks of order 0
and one of order 1; the free list of order 2 is empty. -/
theorem init_four_frames_counterexample :
    0x1000 + 4 * BUDDY_PAGE_SIZE < U64 ∧
    ((init_buddy 3 blank_pool 0x1000 4).free_lists 2).nr_free = 0 ∧
    ((init_buddy 3 blank_pool 0x1000 4).free_lists 1).nr_free = 1 ∧
    ((init_buddy 3 blank_pool 0x1000 4).free_lists 0).nr_free = 2 :=
  ⟨by decide, by decide, by decide, by decide⟩

/-- Claim C6, as amended. Concrete init scenario: for every pool of 4 frames with
`BUDDY_MAX_ORDER = 3` that lies in the `u64` address space and whose first frame number
`start_addr / BUDDY_PAGE_SIZE` is a multiple of 4 (as when the start address is a multiple
of `4 * BUDDY_PAGE_SIZE`), after `init_buddy` the free list of order 2 has `nr_free = 1`
and the free lists of orders 0 and 1 have `nr_free = 0`. -/
theorem init_four_frames (pool : phys_mem_pool) (start_addr : Nat)
    (hal : (start_addr / BUDDY_PAGE_SIZE) % 4 = 0)
    (hfit : start_addr + 4 * BUDDY_PAGE_SIZE < U64) :
    ((init_buddy 3 pool start_addr 4).free_lists 2).nr_free = 1 ∧
    ((init_buddy 3 pool start_addr 4).free_lists 0).nr_free = 0 ∧
    ((init_buddy 3 pool start_addr 4).free_lists 1).nr_free = 0 := by
  obtain ⟨h, hco⟩ := init_buddy_inv 3 pool start_addr 4 (by norm_num) (by decide) hfit
  obtain ⟨f1, _, f3⟩ := init_buddy_fields 3 pool start_addr 4
  exact four_frame_canonical h hco f3 (by unfold frame_base; rw [f1]; exact hal)

/-- Witness for claim C6 as amended: a pool of four frames starting at address 0x4000. -/
theorem init_four_frames_witness :
    ((0x4000 / BUDDY_PAGE_SIZE) % 4 = 0 ∧ 0x4000 + 4 * BUDDY_PAGE_SIZE < U64) ∧
    ((init_buddy 3 blank_pool 0x4000 4).free_lists 2).nr_free = 1 ∧
    ((init_buddy 3 blank_pool 0x4000 4).free_lists 0).nr_free = 0 ∧
    ((init_buddy 3 blank_pool 0x4000 4).free_lists 1).nr_free = 0 :=
  ⟨⟨by decide, by decide⟩, init_four_frames blank_pool 0x4000 (by decide) (by decide)⟩

/-- Claim C7. Net effect of a splitting acquire: in every reachable state, for an order
below `BUDDY_MAX_ORDER` whose free list is empty, with `L` the smallest order above it
whose free list is not empty, `buddy_get_pages` returns a page and afterwards `nr_free` of
order `L` has gone down by exactly 1, `nr_free` of every order from the requested one to
`L - 1` has gone up by exactly 1, and the counter of every other order is unchanged. -/
theorem splitting_acquire_counts {M : Nat} {pool : phys_mem_pool} {out : List (Nat × Nat)}
    {order L : Nat} (hr : Reachable M pool out)
    (hz : (pool.free_lists order).free_list = [])
    (hL1 : order < L) (hL2 : L < M) (hLn : (pool.free_lists L).free_list ≠ [])
    (hLmin : ∀ j, order < j → j < L → (pool.free_lists j).free_list = []) :
    ∃ pool1 pg, buddy_get_pages M pool order = some (pool1, some pg) ∧
      (pool1.free_lists L).nr_free + 1 = (pool.free_lists L).nr_free ∧
      (∀ k, order ≤ k → k < L →
        (pool1.free_lists k).nr_free = (pool.free_lists k).nr_free + 1) ∧
      (∀ k, k < M → k < order ∨ L < k →
        (pool1.free_lists k).nr_free = (pool.free_lists k).nr_free) := by
  obtain ⟨h, hco, _⟩ := reachable_inv hr
  have hempty : ∀ j, order ≤ j → j < L → (pool.free_lists j).free_list = [] := by
    intro j h1 h3
    by_cases hj : j = order
    · subst hj; exact hz
    · exact hLmin j (by omega) h3
  obtain ⟨p, rest, pool1, hlist, hget, hinv, _, _, _, _, _, hl1, _⟩ :=
    buddy_get_pages_spec h hco (le_of_lt hL1) hL2 ((h.count_ne_zero_iff hL2).2 hLn)
      (fun j h1 h3 => (h.count_eq_zero_iff (by omega)).2 (hempty j h1 h3))
  refine ⟨pool1, p, hget, ?_, ?_, ?_⟩
  · rw [hinv.free_count L hL2, h.free_count L hL2, hl1 L hL2, if_pos rfl, hlist]
    rfl
  · intro k h1 h3
    rw [hinv.free_count k (by omega), h.free_count k (by omega), hl1 k (by omega),
      if_neg (by omega), if_pos ⟨h1, h3⟩, hempty k h1 h3]
    rfl
  · intro k hk hcase
    rw [hinv.free_count k hk, h.free_count k hk, hl1 k hk, if_neg (by omega),
      if_neg (by omega)]

/-- Witness for claim C7: in the four-frame pool right after `init_buddy`, a request of
order 0 turns the counters 0, 0, 1 into 1, 1, 0. -/
theorem splitting_acquire_counts_witness :
    Reachable 3 four_frame_pool [] ∧
    ∃ pool1 pg, buddy_get_pages 3 four_frame_pool 0 = some (pool1, some pg) ∧
      (pool1.free_lists 2).nr_free + 1 = (four_frame_pool.free_lists 2).nr_free ∧
      (∀ k, 0 ≤ k → k < 2 →
        (pool1.free_lists k).nr_free = (four_frame_pool.free_lists k).nr_free + 1) ∧
      (∀ k, k < 3 → k < 0 ∨ 2 < k →
        (pool1.free_lists k).nr_free = (four_frame_pool.free_lists k).nr_free) :=
  ⟨four_frame_reachable,
    splitting_acquire_counts four_frame_reachable (by decide) (by decide) (by decide)
      (by decide)
      (fun j h1 h2 => by
        have e : j = 1 := by omega
        subst e; decide)⟩

/-- Claim C8. Buddy address law: for every pool that lies in the `u64` address space and
every page record `chunk` of the pool, with address `A = page_to_virt(pool, chunk)` and an
order `o` that the shift of line 66 can take, `get_buddy_chunk` returns NULL if and only if
`A XOR (BUDDY_PAGE_SIZE << o)` lies outside `[pool_start_addr, pool_start_addr +
pool_mem_size)`, and otherwise returns a page record of the pool whose address is exactly
`A XOR (BUDDY_PAGE_SIZE << o)`. -/
theorem buddy_address_law (pool : phys_mem_pool) (chunk : Nat)
    (hfit : pool.pool_start_addr + pool.pool_mem_size < U64)
    (hchunk : chunk * BUDDY_PAGE_SIZE < pool.pool_mem_size)
    (ho : (pool.page_metadata chunk).order + BUDDY_PAGE_SIZE_ORDER < 64) :
    (get_buddy_chunk pool chunk = none ↔
      ¬ (pool.pool_start_addr ≤
            page_to_virt pool chunk ^^^ (BUDDY_PAGE_SIZE <<< (pool.page_metadata chunk).order) ∧
          page_to_virt pool chunk ^^^ (BUDDY_PAGE_SIZE <<< (pool.page_metadata chunk).order)
            < pool.pool_start_addr + pool.pool_mem_size)) ∧
    (∀ b, get_buddy_chunk pool chunk = some b →
      b * BUDDY_PAGE_SIZE < pool.pool_mem_size ∧
      page_to_virt pool b =
        page_to_virt pool chunk ^^^ (BUDDY_PAGE_SIZE <<< (pool.page_metadata chunk).order)) := by
  generalize hoo : (pool.page_metadata chunk).order = o at *
  unfold BUDDY_PAGE_SIZE_ORDER at ho
  have hshift : (1 <<< (o + BUDDY_PAGE_SIZE_ORDER)) % U64 = BUDDY_PAGE_SIZE <<< o := by
    unfold BUDDY_PAGE_SIZE_ORDER U64 BUDDY_PAGE_SIZE
    rw [Nat.shiftLeft_eq, Nat.shiftLeft_eq, Nat.one_mul,
      Nat.mod_eq_of_lt (Nat.pow_lt_pow_right (by norm_num) (by omega)), pow_add]
    norm_num [Nat.mul_comm]
  have hend : (pool.pool_start_addr + pool.pool_mem_size) % U64
      = pool.pool_start_addr + pool.pool_mem_size := Nat.mod_eq_of_lt hfit
  have hB : BUDDY_PAGE_SIZE <<< o = 2 ^ 12 * 2 ^ o := by
    unfold BUDDY_PAGE_SIZE; rw [Nat.shiftLeft_eq]; norm_num
  have hA : page_to_virt pool chunk = chunk * BUDDY_PAGE_SIZE + pool.pool_start_addr := by
    unfold page_to_virt; exact Nat.mod_eq_of_lt (by omega)
  unfold get_buddy_chunk
  simp only [hoo, hshift, hend]
  generalize hbd : page_to_virt pool chunk ^^^ (BUDDY_PAGE_SIZE <<< o) = B
  have hmod : B % 2 ^ 12 = pool.pool_start_addr % 2 ^ 12 := by
    rw [← hbd, hB, xor_shift_mod, hA]
    unfold BUDDY_PAGE_SIZE
    omega
  constructor
  · by_cases hc : B < pool.pool_start_addr ∨ B ≥ pool.pool_start_addr + pool.pool_mem_size
    · rw [if_pos hc]
      exact ⟨fun _ => by omega, fun _ => rfl⟩
    · rw [if_neg hc]
      constructor
      · intro h; exact absurd h (by simp)
      · intro h
        have : pool.pool_start_addr ≤ B ∧ B < pool.pool_start_addr + pool.pool_mem_size := by
          omega
        exact absurd this h
  · intro b hb
    by_cases hc : B < pool.pool_start_addr ∨ B ≥ pool.pool_start_addr + pool.pool_mem_size
    · rw [if_pos hc] at hb; exact absurd hb (by simp)
    · rw [if_neg hc] at hb
      have hbe : b = virt_to_page pool B := (Option.some.inj hb).symm
      have hv : virt_to_page pool B = (B - pool.pool_start_addr) / 2 ^ 12 := by
        unfold virt_to_page U64 BUDDY_PAGE_SIZE
        unfold U64 at hfit
        have e : B + 2 ^ 64 - pool.pool_start_addr = (B - pool.pool_start_addr) + 2 ^ 64 := by
          omega
        rw [e, Nat.add_mod_right, Nat.mod_eq_of_lt (by omega)]
        norm_num
      have hmul : b * BUDDY_PAGE_SIZE = B - pool.pool_start_addr := by
        rw [hbe, hv]
        unfold BUDDY_PAGE_SIZE
        omega
      refine ⟨by omega, ?_⟩
      unfold page_to_virt
      rw [hmul]
      unfold U64 at hfit ⊢
      rw [Nat.mod_eq_of_lt (by omega)]
      omega

/-- Witness for claim C8: the head of the block of order 2 of the four-frame pool. -/
theorem buddy_address_law_witness :
    (four_frame_pool.pool_start_addr + four_frame_pool.pool_mem_size < U64 ∧
      0 * BUDDY_PAGE_SIZE < four_frame_pool.pool_mem_size ∧
      (four_frame_pool.page_metadata 0).order + BUDDY_PAGE_SIZE_ORDER < 64) ∧
    (get_buddy_chunk four_frame_pool 0 = none ↔
      ¬ (four_frame_pool.pool_start_addr ≤
            page_to_virt four_frame_pool 0 ^^^
              (BUDDY_PAGE_SIZE <<< (four_frame_pool.page_metadata 0).order) ∧
          page_to_virt four_frame_pool 0 ^^^
              (BUDDY_PAGE_SIZE <<< (four_frame_pool.page_metadata 0).order)
            < four_frame_pool.pool_start_addr + four_frame_pool.pool_mem_size)) ∧
    (∀ b, get_buddy_chunk four_frame_pool 0 = some b →
      b * BUDDY_PAGE_SIZE < four_frame_pool.pool_mem_size ∧
      page_to_virt four_frame_pool b =
        page_to_virt four_frame_pool 0 ^^^
          (BUDDY_PAGE_SIZE <<< (four_frame_pool.page_metadata 0).order)) :=
  ⟨⟨by decide, by decide, by decide⟩,
    buddy_address_law four_frame_pool 0 (by decide) (by decide) (by decide)⟩

/-- Counterexample to claim C9 as stated: after `init_buddy` of a two-frame pool the record
of frame 1 has `allocated == 0` (it was released, then absorbed into the block of order 1
headed by frame 0) and is linked in no free list. -/
theorem free_list_membership_counterexample :
    Reachable 3 two_frame_pool [] ∧
    1 < two_frame_pool.pool_phys_page_num ∧
    (two_frame_pool.page_metadata 1).allocated = 0 ∧
    ∀ o, o < 3 → 1 ∉ (two_frame_pool.free_lists o).free_list :=
  ⟨Reachable.init blank_pool 0 2 (by decide) (by decide) (by decide),
    by decide, by decide, by decide⟩

/-- Claim C9, as amended. Free-list membership invariant: in every reachable state, a page
record of the pool whose `allocated` flag is 0 either heads a free block, and is then linked
exactly once in exactly one free list, the one indexed by its `order` field, or is an
interior frame of a free or outstanding block, and is then linked in no free list. -/
theorem free_list_membership {M : Nat} {pool : phys_mem_pool} {out : List (Nat × Nat)}
    (hr : Reachable M pool out) :
    ∀ pg, pg < pool.pool_phys_page_num → (pool.page_metadata pg).allocated = 0 →
      ((pool.page_metadata pg).order < M ∧
        (pool.free_lists (pool.page_metadata pg).order).free_list.count pg = 1 ∧
        ∀ o, o < M → pg ∈ (pool.free_lists o).free_list → o = (pool.page_metadata pg).order) ∨
      ((∃ hd, is_head M pool (out.map Prod.fst) hd ∧ hd < pg ∧
          pg < hd + 2 ^ (pool.page_metadata hd).order) ∧
        ∀ o, o < M → pg ∉ (pool.free_lists o).free_list) := by
  intro pg hpg ha
  have h := (reachable_inv hr).1
  obtain ⟨hd, hhd, h1, h2⟩ := h.tiles.cover pg hpg
  by_cases he : hd = pg
  · subst he
    left
    have hmem := h.head_free hhd (by omega)
    have hlt := h.head_order_lt hhd
    refine ⟨hlt, List.count_eq_one_of_mem (h.free_nodup _ hlt) hmem, ?_⟩
    intro o ho hx
    exact h.free_unique ho hlt hx hmem
  · right
    refine ⟨⟨hd, hhd, by omega, h2⟩, ?_⟩
    intro o ho hx
    exact he (h.tiles.disjoint hd pg hhd (h.free_is_head ho hx) h1 h2).symm

/-- Witness for claim C9 as amended: the four-frame pool with one frame handed out. -/
theorem free_list_membership_witness :
    Reachable 3 four_frame_acquired [(0, 0)] ∧
    ∀ pg, pg < four_frame_acquired.pool_phys_page_num →
      (four_frame_acquired.page_metadata pg).allocated = 0 →
      ((four_frame_acquired.page_metadata pg).order < 3 ∧
        (four_frame_acquired.free_lists
          (four_frame_acquired.page_metadata pg).order).free_list.count pg = 1 ∧
        ∀ o, o < 3 → pg ∈ (four_frame_acquired.free_lists o).free_list →
          o = (four_frame_acquired.page_metadata pg).order) ∨
      ((∃ hd, is_head 3 four_frame_acquired ([(0, 0)].map Prod.fst) hd ∧ hd < pg ∧
          pg < hd + 2 ^ (four_frame_acquired.page_metadata hd).order) ∧
        ∀ o, o < 3 → pg ∉ (four_frame_acquired.free_lists o).free_list) :=
  ⟨four_frame_acquired_reachable, free_list_membership four_frame_acquired_reachable⟩

/-- Claim C10. Count/length invariant: in every reachable state, for every order below
`BUDDY_MAX_ORDER`, `nr_free` of the free list of that order is the number of records linked
in it, and each of those records has `allocated == 0` and `order` equal to the order of the
list. -/
theorem count_length_invariant {M : Nat} {pool : phys_mem_pool} {out : List (Nat × Nat)}
    (hr : Reachable M pool out) :
    ∀ o, o < M →
      (pool.free_lists o).nr_free = (pool.free_lists o).free_list.length ∧
      ∀ pg, pg ∈ (pool.free_lists o).free_list →
        (pool.page_metadata pg).allocated = 0 ∧ (pool.page_metadata pg).order = o := by
  intro o ho
  have h := (reachable_inv hr).1
  exact ⟨h.free_count o ho, fun pg hpg => h.free_rec o pg ho hpg⟩

/-- Witness for claim C10: the four-frame pool with one frame handed out. -/
theorem count_length_invariant_witness :
    Reachable 3 four_frame_acquired [(0, 0)] ∧
    ∀ o, o < 3 →
      (four_frame_acquired.free_lists o).nr_free
        = (four_frame_acquired.free_lists o).free_list.length ∧
      ∀ pg, pg ∈ (four_frame_acquired.free_lists o).free_list →
        (four_frame_acquired.page_metadata pg).allocated = 0 ∧
        (four_frame_acquired.page_metadata pg).order = o :=
  ⟨four_frame_acquired_reachable, count_length_invariant four_frame_acquired_reachable⟩

/-- Claim C11. Fault rejection without side effects: for every address space and fault
address, if `find_vmr_for_va` returns no region, or a region whose `pmo->type` is not
`PMO_ANONYM`, then `handle_trans_fault` returns `-ENOMAPPING` without calling `get_page`,
`free_page` or `map_range_in_pgtbl`, and leaves the allocator and the page tables as they
were. -/
theorem fault_rejection_no_side_effects {PT : Type} (env : fault_env PT) (st : kernel_state PT)
    (vmspace : vmspace) (fault_addr : Nat)
    (h : env.find_vmr_for_va vmspace fault_addr = none ∨
      ∃ vmr, env.find_vmr_for_va vmspace fault_addr = some vmr ∧
        vmr.pmo.type ≠ env.PMO_ANONYM) :
    handle_trans_fault env st vmspace fault_addr =
      some { ret := -env.ENOMAPPING, state := st, calls := [] } := by
  unfold handle_trans_fault
  rcases h with h | ⟨vmr, h, ht⟩
  · rw [h]
  · rw [h]
    dsimp only
    rw [if_pos ht]

/-- Witness for claim C11: a fault in the region of another type of the scenario. -/
theorem fault_rejection_no_side_effects_witness :
    (scenario_env.find_vmr_for_va scenario_vmspace 0x20010 = none ∨
      ∃ vmr, scenario_env.find_vmr_for_va scenario_vmspace 0x20010 = some vmr ∧
        vmr.pmo.type ≠ scenario_env.PMO_ANONYM) ∧
    handle_trans_fault scenario_env scenario_state scenario_vmspace 0x20010 =
      some { ret := -scenario_env.ENOMAPPING, state := scenario_state, calls := [] } :=
  ⟨Or.inr ⟨_, rfl, by decide⟩,
    fault_rejection_no_side_effects scenario_env scenario_state scenario_vmspace 0x20010
      (Or.inr ⟨_, rfl, by decide⟩)⟩

/-- Claim C12. Rollback on mapper failure: for every reachable state of the allocator, if
`handle_trans_fault` finds an anonymous region, obtains a frame with `get_page(0)` (an
address that passes the `NULL` test of line 100, without which the mapper is not called) and
`map_range_in_pgtbl` then returns a negative value, the handler calls `free_page` on exactly
that frame, returns `-ENOMAPPING`, and leaves every free list, hence the bytes reported by
`get_free_mem_size_from_buddy`, as before the fault. -/
theorem rollback_on_mapper_failure {PT : Type} (env : fault_env PT) (st : kernel_state PT)
    (vmspace : vmspace) (fault_addr : Nat) (out : List (Nat × Nat)) (vmr : vmregion)
    (pool1 : phys_mem_pool) (page : Nat)
    (hr : Reachable env.BUDDY_MAX_ORDER st.global_mem out)
    (hv : env.find_vmr_for_va vmspace fault_addr = some vmr)
    (ht : vmr.pmo.type = env.PMO_ANONYM)
    (hg : get_page env.BUDDY_MAX_ORDER st.global_mem 0 = some (pool1, page))
    (hnz : page ≠ NULL)
    (hm : (env.map_range_in_pgtbl st.page_tables vmspace.pgtbl
      (ROUND_DOWN fault_addr PAGE_SIZE) (env.virt_to_phys page) PAGE_SIZE vmr.perm).2 < 0) :
    ∃ res, handle_trans_fault env st vmspace fault_addr = some res ∧
      res.ret = -env.ENOMAPPING ∧
      res.calls = [fault_call.get_page 0,
        fault_call.map_range_in_pgtbl vmspace.pgtbl (ROUND_DOWN fault_addr PAGE_SIZE)
          (env.virt_to_phys page) PAGE_SIZE vmr.perm,
        fault_call.free_page page] ∧
      res.state.global_mem = free_page env.BUDDY_MAX_ORDER pool1 page ∧
      (∀ o, o < env.BUDDY_MAX_ORDER →
        res.state.global_mem.free_lists o = st.global_mem.free_lists o) ∧
      get_free_mem_size_from_buddy env.BUDDY_MAX_ORDER res.state.global_mem =
        get_free_mem_size_from_buddy env.BUDDY_MAX_ORDER st.global_mem := by
  obtain ⟨h, hco, _⟩ := reachable_inv hr
  have hl := get_page_then_free_page h hco hg hnz
  refine ⟨{ ret := -env.ENOMAPPING
            state := { global_mem := free_page env.BUDDY_MAX_ORDER pool1 page
                       page_tables := (env.map_range_in_pgtbl st.page_tables vmspace.pgtbl
                         (ROUND_DOWN fault_addr PAGE_SIZE) (env.virt_to_phys page) PAGE_SIZE
                         vmr.perm).1 }
            calls := [fault_call.get_page 0,
              fault_call.map_range_in_pgtbl vmspace.pgtbl (ROUND_DOWN fault_addr PAGE_SIZE)
                (env.virt_to_phys page) PAGE_SIZE vmr.perm,
              fault_call.free_page page] }, ?_, rfl, rfl, rfl, hl, free_mem_size_congr hl⟩
  unfold handle_trans_fault
  rw [hv]
  dsimp only
  rw [if_neg (by rw [ht]; exact fun e => e rfl), hg]
  dsimp only
  rw [if_neg hnz, if_pos hm]

/-- Witness for claim C12: a fault in the anonymous region of the scenario at an address
the mapper refuses. -/
theorem rollback_on_mapper_failure_witness :
    (Reachable scenario_env.BUDDY_MAX_ORDER scenario_state.global_mem [] ∧
      get_page scenario_env.BUDDY_MAX_ORDER scenario_state.global_mem 0
        = some (fault_pool_acquired, 0x4000) ∧
      0x4000 ≠ NULL ∧
      (scenario_env.map_range_in_pgtbl scenario_state.page_tables scenario_vmspace.pgtbl
        (ROUND_DOWN 0x13234 PAGE_SIZE) (scenario_env.virt_to_phys 0x4000) PAGE_SIZE 3).2 < 0) ∧
    ∃ res, handle_trans_fault scenario_env scenario_state scenario_vmspace 0x13234 = some res ∧
      res.ret = -scenario_env.ENOMAPPING ∧
      get_free_mem_size_from_buddy scenario_env.BUDDY_MAX_ORDER res.state.global_mem =
        get_free_mem_size_from_buddy scenario_env.BUDDY_MAX_ORDER scenario_state.global_mem :=
  ⟨⟨fault_pool_reachable, fault_pool_get, by decide, by decide⟩,
    match rollback_on_mapper_failure scenario_env scenario_state scenario_vmspace 0x13234 []
        { start := 0x10000, size := 0x4000, perm := 3, pmo := { type := 0 } }
        fault_pool_acquired 0x4000 fault_pool_reachable rfl rfl fault_pool_get (by decide)
        (by decide) with
    | ⟨res, h1, h2, _, _, _, h6⟩ => ⟨res, h1, h2, h6⟩⟩

/-- Claim C13. Fault success path: for a fault address covered by a `PMO_ANONYM` region, when
`get_page(0)` yields a frame (an address that passes the `NULL` test of line 100) and the
mapper does not return a negative value, `handle_trans_fault` returns 0 having called
`get_page(0)` once and `free_page` not at all, and having called `map_range_in_pgtbl`
exactly once, with the virtual address `ROUND_DOWN(fault_addr, PAGE_SIZE)` (a multiple of
`PAGE_SIZE`, at most `fault_addr` and above `fault_addr - PAGE_SIZE`), the physical address
`virt_to_phys(frame)`, the length `PAGE_SIZE` and the permission bits of the region.
Whenever the handler returns, it returns 0 or `-ENOMAPPING` (a non-zero code), and 0 only in
the case above; the mapper is called exactly when the region is anonymous and the address
returned by `get_page` is not `NULL`. On a reachable state of the allocator the handler
does return, and when the pool does not start at address 0 the address returned by
`get_page` is `NULL` exactly when the allocator has no frame. -/
theorem fault_success_path {PT : Type} (env : fault_env PT) (st : kernel_state PT)
    (vmspace : vmspace) (fault_addr : Nat) (vmr : vmregion) (pool1 : phys_mem_pool)
    (page : Nat)
    (hpos : 0 < env.ENOMAPPING)
    (hv : env.find_vmr_for_va vmspace fault_addr = some vmr)
    (ht : vmr.pmo.type = env.PMO_ANONYM)
    (hg : get_page env.BUDDY_MAX_ORDER st.global_mem 0 = some (pool1, page))
    (hnz : page ≠ NULL)
    (hm : 0 ≤ (env.map_range_in_pgtbl st.page_tables vmspace.pgtbl
      (ROUND_DOWN fault_addr PAGE_SIZE) (env.virt_to_phys page) PAGE_SIZE vmr.perm).2) :
    handle_trans_fault env st vmspace fault_addr =
      some { ret := 0
             state := { global_mem := pool1
                        page_tables := (env.map_range_in_pgtbl st.page_tables vmspace.pgtbl
                          (ROUND_DOWN fault_addr PAGE_SIZE) (env.virt_to_phys page) PAGE_SIZE
                          vmr.perm).1 }
             calls := [fault_call.get_page 0,
               fault_call.map_range_in_pgtbl vmspace.pgtbl (ROUND_DOWN fault_addr PAGE_SIZE)
                 (env.virt_to_phys page) PAGE_SIZE vmr.perm] } ∧
    ROUND_DOWN fault_addr PAGE_SIZE % PAGE_SIZE = 0 ∧
    ROUND_DOWN fault_addr PAGE_SIZE ≤ fault_addr ∧
    fault_addr < ROUND_DOWN fault_addr PAGE_SIZE + PAGE_SIZE ∧
    (∀ (st2 : kernel_state PT) (vs2 : ChCore.vmspace) (addr2 : Nat) (res : fault_result PT),
      handle_trans_fault env st2 vs2 addr2 = some res →
        (res.ret = 0 ∨ res.ret = -env.ENOMAPPING) ∧
        (res.ret = 0 ↔ ∃ vmr2 pool2 page2,
          env.find_vmr_for_va vs2 addr2 = some vmr2 ∧ vmr2.pmo.type = env.PMO_ANONYM ∧
          get_page env.BUDDY_MAX_ORDER st2.global_mem 0 = some (pool2, page2) ∧
          page2 ≠ NULL ∧
          0 ≤ (env.map_range_in_pgtbl st2.page_tables vs2.pgtbl
            (ROUND_DOWN addr2 PAGE_SIZE) (env.virt_to_phys page2) PAGE_SIZE vmr2.perm).2) ∧
        ((∃ pgtbl va pa len perm,
            fault_call.map_range_in_pgtbl pgtbl va pa len perm ∈ res.calls) ↔
          ∃ vmr2 pool2 page2,
            env.find_vmr_for_va vs2 addr2 = some vmr2 ∧ vmr2.pmo.type = env.PMO_ANONYM ∧
            get_page env.BUDDY_MAX_ORDER st2.global_mem 0 = some (pool2, page2) ∧
            page2 ≠ NULL)) ∧
    (∀ (st2 : kernel_state PT) (vs2 : ChCore.vmspace) (addr2 : Nat) (out2 : List (Nat × Nat)),
      Reachable env.BUDDY_MAX_ORDER st2.global_mem out2 →
        (∃ res, handle_trans_fault env st2 vs2 addr2 = some res) ∧
        (st2.global_mem.pool_start_addr ≠ 0 → ∀ pool2 page2,
          get_page env.BUDDY_MAX_ORDER st2.global_mem 0 = some (pool2, page2) →
          (page2 ≠ NULL ↔
            ∃ pg, buddy_get_pages env.BUDDY_MAX_ORDER st2.global_mem 0
              = some (pool2, some pg)))) := by
  have hne : -env.ENOMAPPING ≠ 0 := by omega
  have hmod := Nat.mod_lt fault_addr (show 0 < PAGE_SIZE by decide)
  have hle := Nat.mod_le fault_addr PAGE_SIZE
  have hdm := Nat.div_add_mod fault_addr PAGE_SIZE
  refine ⟨?_, ?_, ?_, ?_, ?_, ?_⟩
  · unfold handle_trans_fault
    rw [hv]
    dsimp only
    rw [if_neg (by rw [ht]; exact fun e => e rfl), hg]
    dsimp only
    rw [if_neg hnz, if_neg (by omega)]
  · unfold ROUND_DOWN
    have : fault_addr - fault_addr % PAGE_SIZE = PAGE_SIZE * (fault_addr / PAGE_SIZE) := by omega
    rw [this]
    exact Nat.mul_mod_right _ _
  · unfold ROUND_DOWN; omega
  · unfold ROUND_DOWN; omega
  · intro st2 vs2 addr2 res hres
    unfold handle_trans_fault at hres
    cases hf : env.find_vmr_for_va vs2 addr2 with
    | none =>
      rw [hf] at hres
      simp only [Option.some.injEq] at hres
      subst hres
      refine ⟨Or.inr rfl, ⟨fun e => absurd e hne, ?_⟩, ⟨?_, ?_⟩⟩
      · rintro ⟨vmr2, pool2, page2, h1, -⟩
        simp at h1
      · rintro ⟨_, _, _, _, _, hmem⟩
        simp at hmem
      · rintro ⟨vmr2, pool2, page2, h1, -⟩
        simp at h1
    | some v =>
      rw [hf] at hres
      dsimp only at hres
      by_cases htype : v.pmo.type ≠ env.PMO_ANONYM
      · rw [if_pos htype] at hres
        simp only [Option.some.injEq] at hres
        subst hres
        refine ⟨Or.inr rfl, ⟨fun e => absurd e hne, ?_⟩, ⟨?_, ?_⟩⟩
        · rintro ⟨vmr2, pool2, page2, h1, h2, -⟩
          simp only [Option.some.injEq] at h1
          subst h1
          exact absurd h2 htype
        · rintro ⟨_, _, _, _, _, hmem⟩
          simp at hmem
        · rintro ⟨vmr2, pool2, page2, h1, h2, -⟩
          simp only [Option.some.injEq] at h1
          subst h1
          exact absurd h2 htype
      · rw [if_neg htype] at hres
        push_neg at htype
        cases hgp : get_page env.BUDDY_MAX_ORDER st2.global_mem 0 with
        | none => rw [hgp] at hres; simp at hres
        | some r =>
          obtain ⟨pl, pg⟩ := r
          rw [hgp] at hres
          dsimp only at hres
          by_cases hnull : pg = NULL
          · rw [if_pos hnull] at hres
            simp only [Option.some.injEq] at hres
            subst hres
            refine ⟨Or.inr rfl, ⟨fun e => absurd e hne, ?_⟩, ⟨?_, ?_⟩⟩
            · rintro ⟨vmr2, pool2, page2, -, -, h3, h4, -⟩
              simp only [Option.some.injEq, Prod.mk.injEq] at h3
              exact (h4 (h3.2 ▸ hnull)).elim
            · rintro ⟨_, _, _, _, _, hmem⟩
              simp at hmem
            · rintro ⟨vmr2, pool2, page2, -, -, h3, h4⟩
              simp only [Option.some.injEq, Prod.mk.injEq] at h3
              exact (h4 (h3.2 ▸ hnull)).elim
          · rw [if_neg hnull] at hres
            by_cases hsign : (env.map_range_in_pgtbl st2.page_tables vs2.pgtbl
                (ROUND_DOWN addr2 PAGE_SIZE) (env.virt_to_phys pg) PAGE_SIZE v.perm).2 < 0
            · rw [if_pos hsign] at hres
              simp only [Option.some.injEq] at hres
              subst hres
              refine ⟨Or.inr rfl, ⟨fun e => absurd e hne, ?_⟩, ⟨fun _ => ?_, fun _ => ?_⟩⟩
              · rintro ⟨vmr2, pool2, page2, h1, -, h3, -, h4⟩
                simp only [Option.some.injEq] at h1
                subst h1
                simp only [Option.some.injEq, Prod.mk.injEq] at h3
                obtain ⟨-, rfl⟩ := h3
                omega
              · exact ⟨v, pl, pg, rfl, htype, rfl, hnull⟩
              · exact ⟨_, _, _, _, _, List.mem_cons_of_mem _ (List.mem_cons_self _ _)⟩
            · rw [if_neg hsign] at hres
              simp only [Option.some.injEq] at hres
              subst hres
              refine ⟨Or.inl rfl, ⟨fun _ => ?_, fun _ => rfl⟩, ⟨fun _ => ?_, fun _ => ?_⟩⟩
              · exact ⟨v, pl, pg, rfl, htype, rfl, hnull, by omega⟩
              · exact ⟨v, pl, pg, rfl, htype, rfl, hnull⟩
              · exact ⟨_, _, _, _, _, List.mem_cons_of_mem _ (List.mem_cons_self _ _)⟩
  · intro st2 vs2 addr2 out2 hr
    refine ⟨handle_trans_fault_total env st2 vs2 addr2 out2 hr, ?_⟩
    intro hs pool2 page2 hg2
    obtain ⟨h, hco, _⟩ := reachable_inv hr
    exact get_page_null_iff h hco hs hg2

/-- Witness for claim C13: a fault in the anonymous region of the scenario at an address
the mapper accepts. -/
theorem fault_success_path_witness :
    (0 < scenario_env.ENOMAPPING ∧
      get_page scenario_env.BUDDY_MAX_ORDER scenario_state.global_mem 0
        = some (fault_pool_acquired, 0x4000) ∧
      0x4000 ≠ NULL ∧
      0 ≤ (scenario_env.map_range_in_pgtbl scenario_state.page_tables scenario_vmspace.pgtbl
        (ROUND_DOWN 0x11234 PAGE_SIZE) (scenario_env.virt_to_phys 0x4000) PAGE_SIZE 3).2) ∧
    handle_trans_fault scenario_env scenario_state scenario_vmspace 0x11234 =
      some { ret := 0
             state := { global_mem := fault_pool_acquired, page_tables := [(0x11000, 0x4000)] }
             calls := [fault_call.get_page 0,
               fault_call.map_range_in_pgtbl 0 0x11000 0x4000 0x1000 3] } :=
  ⟨⟨by decide, fault_pool_get, by decide, by decide⟩,
    (fault_success_path scenario_env scenario_state scenario_vmspace 0x11234
      { start := 0x10000, size := 0x4000, perm := 3, pmo := { type := 0 } }
      fault_pool_acquired 0x4000 (by decide) rfl rfl fault_pool_get (by decide)
      (by decide)).1⟩

/-- Claim C14. Fault dispatch: for every value of the status register, when the code decoded
by `GET_ESR_EL1_FSC` is one of `DFSC_TRANS_FAULT_L0 .. L3`, `do_page_fault` calls
`handle_trans_fault` on the fault address, calls `sys_exit` with the value returned when
that value is not zero, and does not call `sys_exit` when it is zero; for every other code
it reaches `BUG_ON(1)` without calling the handler. -/
theorem fault_dispatch {PT : Type} (env : fault_env PT) (st : kernel_state PT)
    (current_vmspace : vmspace) (far_el1 esr fault_ins_addr : Nat) :
    ((env.GET_ESR_EL1_FSC esr = env.DFSC_TRANS_FAULT_L0 ∨
        env.GET_ESR_EL1_FSC esr = env.DFSC_TRANS_FAULT_L1 ∨
        env.GET_ESR_EL1_FSC esr = env.DFSC_TRANS_FAULT_L2 ∨
        env.GET_ESR_EL1_FSC esr = env.DFSC_TRANS_FAULT_L3) →
      do_page_fault env st current_vmspace far_el1 esr fault_ins_addr =
        (handle_trans_fault env st current_vmspace far_el1).map (fun r =>
          { handler_ret := some r.ret
            exit_code := if r.ret ≠ 0 then some r.ret else none
            bug_on := false
            state := r.state
            calls := r.calls })) ∧
    (¬ (env.GET_ESR_EL1_FSC esr = env.DFSC_TRANS_FAULT_L0 ∨
        env.GET_ESR_EL1_FSC esr = env.DFSC_TRANS_FAULT_L1 ∨
        env.GET_ESR_EL1_FSC esr = env.DFSC_TRANS_FAULT_L2 ∨
        env.GET_ESR_EL1_FSC esr = env.DFSC_TRANS_FAULT_L3) →
      do_page_fault env st current_vmspace far_el1 esr fault_ins_addr =
        some { handler_ret := none, exit_code := none, bug_on := true, state := st,
               calls := [] }) := by
  constructor
  · intro h
    unfold do_page_fault
    dsimp only
    rw [if_pos h]
    cases handle_trans_fault env st current_vmspace far_el1 with
    | none => rfl
    | some r =>
      dsimp only [Option.map]
      by_cases hr : r.ret ≠ 0
      · rw [if_pos hr, if_pos hr]
      · rw [if_neg hr, if_neg hr]
  · intro h
    unfold do_page_fault
    dsimp only
    rw [if_neg h]

/-- Witness for claim C14: a level-0 translation fault that the handler serves, and a code
that is no translation fault. -/
theorem fault_dispatch_witness :
    do_page_fault scenario_env scenario_state scenario_vmspace 0x11234 4 0 =
      (handle_trans_fault scenario_env scenario_state scenario_vmspace 0x11234).map (fun r =>
        { handler_ret := some r.ret
          exit_code := if r.ret ≠ 0 then some r.ret else none
          bug_on := false
          state := r.state
          calls := r.calls }) ∧
    do_page_fault scenario_env scenario_state scenario_vmspace 0x11234 9 0 =
      some { handler_ret := none, exit_code := none, bug_on := true, state := scenario_state,
             calls := [] } :=
  ⟨(fault_dispatch scenario_env scenario_state scenario_vmspace 0x11234 4 0).1 (by decide),
    (fault_dispatch scenario_env scenario_state scenario_vmspace 0x11234 9 0).2 (by decide)⟩

/-- Claim C15. No overlapping allocations: in every reachable state the frame ranges
`[i, i + 2 ^ order)` of the outstanding blocks and of the members of the free lists lie
inside `[0, page_num)`, are pairwise disjoint, and together cover every frame of the pool;
so a block handed out by `buddy_get_pages` shares no frame with a block that is
outstanding. -/
theorem no_overlapping_allocations {M : Nat} {pool : phys_mem_pool} {out : List (Nat × Nat)}
    (hr : Reachable M pool out) :
    (∀ i o, is_block M pool out i o → i + 2 ^ o ≤ pool.pool_phys_page_num) ∧
    (∀ i o j p, is_block M pool out i o → is_block M pool out j p → (i, o) ≠ (j, p) →
      i + 2 ^ o ≤ j ∨ j + 2 ^ p ≤ i) ∧
    (∀ f, f < pool.pool_phys_page_num →
      ∃ i o, is_block M pool out i o ∧ i ≤ f ∧ f < i + 2 ^ o) ∧
    (∀ order pool1 pg, buddy_get_pages M pool order = some (pool1, some pg) →
      ∀ j p, (j, p) ∈ out → pg + 2 ^ order ≤ j ∨ j + 2 ^ p ≤ pg) := by
  obtain ⟨h, hco, hord⟩ := reachable_inv hr
  refine ⟨?_, ?_, ?_, ?_⟩
  · intro i o hb
    obtain ⟨hh, ho⟩ := is_block_head hord h hb
    have := h.tiles.within i hh
    rwa [ho] at this
  · intro i o j p hi hj hne
    exact blocks_disjoint hr hi hj hne
  · intro f hf
    obtain ⟨i, hh, h1, h2⟩ := h.tiles.cover f hf
    refine ⟨i, (pool.page_metadata i).order, ?_, h1, h2⟩
    rcases hh with hh | ⟨o, ho, hh⟩
    · obtain ⟨e, he, rfl⟩ := List.mem_map.1 hh
      left
      have := hord e he
      rw [this]
      exact he
    · right
      rw [(h.free_rec o i ho hh).2]
      exact ⟨ho, hh⟩
  · intro order pool1 pg hget j p hjp
    have hr1 := Reachable.get_pages pool out order pool1 pg hr hget
    have hnd := (buddy_get_pages_inv h hco hget).1.out_nodup
    apply blocks_disjoint hr1 (Or.inl (List.mem_cons_self _ _))
      (Or.inl (List.mem_cons_of_mem _ hjp))
    intro e
    rw [← e] at hjp
    exact (List.nodup_cons.1 hnd).1 (List.mem_map.2 ⟨(pg, order), hjp, rfl⟩)

/-- Witness for claim C15: the four-frame pool with one frame handed out. -/
theorem no_overlapping_allocations_witness :
    Reachable 3 four_frame_acquired [(0, 0)] ∧
    ((∀ i o, is_block 3 four_frame_acquired [(0, 0)] i o →
      i + 2 ^ o ≤ four_frame_acquired.pool_phys_page_num) ∧
    (∀ i o j p, is_block 3 four_frame_acquired [(0, 0)] i o →
      is_block 3 four_frame_acquired [(0, 0)] j p → (i, o) ≠ (j, p) →
      i + 2 ^ o ≤ j ∨ j + 2 ^ p ≤ i) ∧
    (∀ f, f < four_frame_acquired.pool_phys_page_num →
      ∃ i o, is_block 3 four_frame_acquired [(0, 0)] i o ∧ i ≤ f ∧ f < i + 2 ^ o) ∧
    (∀ order pool1 pg, buddy_get_pages 3 four_frame_acquired order = some (pool1, some pg) →
      ∀ j p, (j, p) ∈ ([(0, 0)] : List (Nat × Nat)) → pg + 2 ^ order ≤ j ∨ j + 2 ^ p ≤ pg)) :=
  ⟨four_frame_acquired_reachable, no_overlapping_allocations four_frame_acquired_reachable⟩

/-- Claim C16. Maximal coalescing: in every reachable state no two members of the free list
of an order below `BUDDY_MAX_ORDER - 1` are buddies of each other, that is `get_buddy_chunk`
of a member is never a member of the same list; every possible merge has been performed:
`merge_page` on a member of a free list changes nothing. -/
theorem maximal_coalescing {M : Nat} {pool : phys_mem_pool} {out : List (Nat × Nat)}
    (hr : Reachable M pool out) :
    (∀ o x y, o + 1 < M → x ∈ (pool.free_lists o).free_list →
      y ∈ (pool.free_lists o).free_list → get_buddy_chunk pool x ≠ some y) ∧
    (∀ o x, o < M → x ∈ (pool.free_lists o).free_list → merge_page M pool x = (pool, x)) := by
  obtain ⟨h, hco, _⟩ := reachable_inv hr
  have key : ∀ o x y, o + 1 < M → x ∈ (pool.free_lists o).free_list →
      y ∈ (pool.free_lists o).free_list → get_buddy_chunk pool x ≠ some y := by
    intro o x y ho hx hy hb
    have hox := (h.free_rec o x (by omega) hx).2
    obtain ⟨lo, hi, hcase, hhi, hal, -, -⟩ := h.buddy_pair (h.free_is_head (by omega) hx) hb
    rw [hox] at hhi hal
    rcases hcase with ⟨rfl, rfl⟩ | ⟨rfl, rfl⟩
    · exact hco o x ho hx (hhi ▸ hy) hal
    · exact hco o y ho hy (hhi ▸ hx) hal
  refine ⟨key, ?_⟩
  intro o x ho hx
  obtain ⟨hax, hox⟩ := h.free_rec o x ho hx
  unfold merge_page
  cases hf : M - 1 - (pool.page_metadata x).order with
  | zero => rfl
  | succ d =>
    have ho1 : o + 1 < M := by rw [hox] at hf; omega
    unfold merge_page_aux
    rw [if_neg (by rw [hox, hax]; omega)]
    cases hb : get_buddy_chunk pool x with
    | none => rfl
    | some b =>
      dsimp only
      rw [if_pos]
      by_contra hc
      push_neg at hc
      obtain ⟨hab, hob⟩ := hc
      obtain ⟨lo, hi, -, -, -, hhb, -⟩ := h.buddy_pair (h.free_is_head ho hx) hb
      have hbf := h.head_free hhb hab
      rw [hob, hox] at hbf
      exact key o x b ho1 hx hbf hb

/-- Witness for claim C16: the four-frame pool with one frame handed out. -/
theorem maximal_coalescing_witness :
    Reachable 3 four_frame_acquired [(0, 0)] ∧
    ((∀ o x y, o + 1 < 3 → x ∈ (four_frame_acquired.free_lists o).free_list →
      y ∈ (four_frame_acquired.free_lists o).free_list →
      get_buddy_chunk four_frame_acquired x ≠ some y) ∧
    (∀ o x, o < 3 → x ∈ (four_frame_acquired.free_lists o).free_list →
      merge_page 3 four_frame_acquired x = (four_frame_acquired, x))) :=
  ⟨four_frame_acquired_reachable, maximal_coalescing four_frame_acquired_reachable⟩

/-- Claim C17. Initialisation discovers maximal blocks: for a pool whose start address is a
multiple of `BUDDY_PAGE_SIZE << (BUDDY_MAX_ORDER - 1)` and every number of frames `n`
(the pool lying in the `u64` address space and the orders small enough for the shift of
line 66), after `init_buddy` the counter `nr_free` of each order `o` below
`BUDDY_MAX_ORDER - 1` is the binary digit `o` of `n`, and the counter of the order
`BUDDY_MAX_ORDER - 1` is `n / 2 ^ (BUDDY_MAX_ORDER - 1)`. -/
theorem init_discovers_maximal_blocks (M : Nat) (pool : phys_mem_pool)
    (start_addr page_num : Nat) (hpos : 0 < M) (hmax : M + BUDDY_PAGE_SIZE_ORDER ≤ 64)
    (hfit : start_addr + page_num * BUDDY_PAGE_SIZE < U64)
    (hal : (BUDDY_PAGE_SIZE <<< (M - 1)) ∣ start_addr) :
    (∀ o, o + 1 < M →
      ((init_buddy M pool start_addr page_num).free_lists o).nr_free
        = page_num / 2 ^ o % 2) ∧
    ((init_buddy M pool start_addr page_num).free_lists (M - 1)).nr_free
      = page_num / 2 ^ (M - 1) := by
  obtain ⟨h, hco⟩ := init_buddy_inv M pool start_addr page_num hpos hmax hfit
  obtain ⟨hs, -, hn⟩ := init_buddy_fields M pool start_addr page_num
  have hbase : 2 ^ (M - 1) ∣ frame_base (init_buddy M pool start_addr page_num) := by
    unfold frame_base
    rw [hs]
    rw [Nat.shiftLeft_eq] at hal
    exact Nat.dvd_div_of_mul_dvd hal
  have hc := canonical_counts h hco hbase
  rw [hn] at hc
  exact hc

/-- Witness for claim C17: five frames from address 0 with three orders. -/
theorem init_discovers_maximal_blocks_witness :
    (0 < 3 ∧ 3 + BUDDY_PAGE_SIZE_ORDER ≤ 64 ∧ 0 + 5 * BUDDY_PAGE_SIZE < U64 ∧
      (BUDDY_PAGE_SIZE <<< (3 - 1)) ∣ 0) ∧
    ((∀ o, o + 1 < 3 → ((init_buddy 3 blank_pool 0 5).free_lists o).nr_free = 5 / 2 ^ o % 2) ∧
    ((init_buddy 3 blank_pool 0 5).free_lists (3 - 1)).nr_free = 5 / 2 ^ (3 - 1)) :=
  ⟨⟨by decide, by decide, by decide, by decide⟩,
    init_discovers_maximal_blocks 3 blank_pool 0 5 (by decide) (by decide) (by decide)
      (by decide)⟩

/-- Claim C18. Split never fails: in every reachable state, for every member `p` of the free
list of an order `O` and every target order `t < O`, `split_page(pool, t, p)` returns without
fault, so every halving finds its buddy inside the pool (`get_buddy_chunk` is not NULL); the
buddy written at each order `k` from `t` to `O - 1` is the upper half `p + 2 ^ k` of the
block being halved, a frame of the pool left free at order `k`; and the page returned is
the same block `p` with order exactly `t`. -/
theorem split_never_fails {M : Nat} {pool : phys_mem_pool} {out : List (Nat × Nat)}
    {O t p : Nat} (hr : Reachable M pool out) (hO : O < M)
    (hp : p ∈ (pool.free_lists O).free_list) (ht : t < O) :
    ∃ pool1, split_page pool t p = some (pool1, p) ∧
      (pool1.page_metadata p).order = t ∧
      ∀ k, t ≤ k → k < O →
        p + 2 ^ k < pool.pool_phys_page_num ∧
        (pool1.page_metadata (p + 2 ^ k)).allocated = 0 ∧
        (pool1.page_metadata (p + 2 ^ k)).order = k ∧
        p + 2 ^ k ∈ (pool1.free_lists k).free_list := by
  obtain ⟨h, _, _⟩ := reachable_inv hr
  have hox := (h.free_rec O p hO hp).2
  have hsum : t + (O - t) = O := by omega
  obtain ⟨pool1, e1, h1, en1, hp1, hup1⟩ :=
    split_page_aux_total pool p (O - t) t h (by omega) (by rw [hsum]; exact hp)
  refine ⟨pool1, ?_, (h1.free_rec t p (by omega) hp1).2, ?_⟩
  · unfold split_page
    rw [hox]
    exact e1
  · intro k hk1 hk2
    have hm := hup1 k hk1 (by omega)
    have hrec := h1.free_rec k _ (by omega) hm
    have hlt := h1.head_lt (h1.free_is_head (by omega : k < M) hm)
    rw [en1] at hlt
    exact ⟨hlt, hrec.1, hrec.2, hm⟩

/-- Witness for claim C18: the block of order 2 of the four-frame pool, split to order 0. -/
theorem split_never_fails_witness :
    (Reachable 3 four_frame_pool [] ∧ 2 < 3 ∧
      0 ∈ (four_frame_pool.free_lists 2).free_list ∧ 0 < 2) ∧
    ∃ pool1, split_page four_frame_pool 0 0 = some (pool1, 0) ∧
      (pool1.page_metadata 0).order = 0 ∧
      ∀ k, 0 ≤ k → k < 2 →
        0 + 2 ^ k < four_frame_pool.pool_phys_page_num ∧
        (pool1.page_metadata (0 + 2 ^ k)).allocated = 0 ∧
        (pool1.page_metadata (0 + 2 ^ k)).order = k ∧
        0 + 2 ^ k ∈ (pool1.free_lists k).free_list :=
  ⟨⟨four_frame_reachable, by decide, by decide, by decide⟩,
    split_never_fails four_frame_reachable (by decide) (by decide) (by decide)⟩

/-- Claim C19. Bounded recursion: on every pool state `merge_page` terminates, its recursion
never going deeper than the distance of the order of the block to `BUDDY_MAX_ORDER - 1`:
each coalescing step leaves a surviving block whose order is exactly one greater, so a
merge started at order `o` makes at most `BUDDY_MAX_ORDER - 1 - o` coalescing steps and
returns a block whose order is `o` plus the number of steps, between `o` and
`BUDDY_MAX_ORDER - 1`. `split_page(pool, t, block)` terminates, its recursion never going
deeper than the distance of the order of the block to `t`; it makes at most that many
halvings, exactly that many when the block is not marked allocated and no halving faults,
which is the case for every member of a free list of a reachable state. -/
theorem bounded_recursion (M : Nat) (pool : phys_mem_pool) (pg t : Nat) (_hM : 0 < M) :
    (∀ fuel, M - 1 - (pool.page_metadata pg).order ≤ fuel →
      merge_page_aux M fuel pool pg = merge_page M pool pg) ∧
    (∀ buddy, (pool.page_metadata buddy).order = (pool.page_metadata pg).order →
      ((merge_page_step pool pg buddy).1.page_metadata (merge_page_step pool pg buddy).2).order
        = (pool.page_metadata pg).order + 1) ∧
    merge_page_steps M (M - 1 - (pool.page_metadata pg).order) pool pg
      ≤ M - 1 - (pool.page_metadata pg).order ∧
    ((merge_page M pool pg).1.page_metadata (merge_page M pool pg).2).order
      = (pool.page_metadata pg).order +
        merge_page_steps M (M - 1 - (pool.page_metadata pg).order) pool pg ∧
    ((pool.page_metadata pg).order ≤ M - 1 →
      (pool.page_metadata pg).order
        ≤ ((merge_page M pool pg).1.page_metadata (merge_page M pool pg).2).order ∧
      ((merge_page M pool pg).1.page_metadata (merge_page M pool pg).2).order ≤ M - 1) ∧
    (∀ fuel, (pool.page_metadata pg).order - t ≤ fuel →
      split_page_aux fuel pool t pg = split_page pool t pg) ∧
    split_page_halvings ((pool.page_metadata pg).order - t) pool t pg
      ≤ (pool.page_metadata pg).order - t ∧
    ((pool.page_metadata pg).allocated ≠ 1 → (split_page pool t pg).isSome = true →
      split_page_halvings ((pool.page_metadata pg).order - t) pool t pg
        = (pool.page_metadata pg).order - t) ∧
    (∀ out O, Reachable M pool out → O < M → pg ∈ (pool.free_lists O).free_list → t ≤ O →
      (split_page pool t pg).isSome = true ∧
      split_page_halvings ((pool.page_metadata pg).order - t) pool t pg = O - t) := by
  obtain ⟨hs1, hs2⟩ :=
    merge_page_steps_spec M (M - 1 - (pool.page_metadata pg).order) pool pg
  refine ⟨?_, ?_, hs1, hs2, ?_, ?_, ?_, ?_, ?_⟩
  · intro fuel hf
    have := merge_page_aux_fuel_le M pool pg (fuel - (M - 1 - (pool.page_metadata pg).order))
    rwa [Nat.add_sub_cancel' hf] at this
  · intro buddy hb
    exact merge_page_step_order pool pg buddy hb
  · intro ho
    have e : (merge_page M pool pg) =
        merge_page_aux M (M - 1 - (pool.page_metadata pg).order) pool pg := rfl
    rw [e, hs2]
    omega
  · intro fuel hf
    have := split_page_aux_fuel_le pool t pg (fuel - ((pool.page_metadata pg).order - t))
    rwa [Nat.add_sub_cancel' hf] at this
  · exact split_page_halvings_le _ pool t pg
  · intro ha hs
    exact split_page_halvings_eq _ pool t pg ha rfl hs
  · intro out O hr hO hp ht
    obtain ⟨h, _, _⟩ := reachable_inv hr
    obtain ⟨hax, hox⟩ := h.free_rec O pg hO hp
    have hsum : t + (O - t) = O := by omega
    obtain ⟨pool1, e1, -⟩ :=
      split_page_aux_total pool pg (O - t) t h (by omega) (by rw [hsum]; exact hp)
    have hsome : (split_page pool t pg).isSome = true := by
      unfold split_page
      rw [hox, e1]
      rfl
    refine ⟨hsome, ?_⟩
    rw [split_page_halvings_eq _ pool t pg (by rw [hax]; decide) rfl hsome, hox]

/-- Witness for claim C19: the block of order 2 of the four-frame pool with three orders,
target order 0. -/
theorem bounded_recursion_witness :
    0 < 3 ∧
    merge_page_steps 3 (3 - 1 - (four_frame_pool.page_metadata 0).order) four_frame_pool 0
      ≤ 3 - 1 - (four_frame_pool.page_metadata 0).order ∧
    split_page_halvings ((four_frame_pool.page_metadata 0).order - 0) four_frame_pool 0 0
      ≤ (four_frame_pool.page_metadata 0).order - 0 ∧
    ((split_page four_frame_pool 0 0).isSome = true ∧
      split_page_halvings ((four_frame_pool.page_metadata 0).order - 0) four_frame_pool 0 0
        = 2 - 0) :=
  ⟨by decide,
    (bounded_recursion 3 four_frame_pool 0 0 (by decide)).2.2.1,
    (bounded_recursion 3 four_frame_pool 0 0 (by decide)).2.2.2.2.2.2.1,
    (bounded_recursion 3 four_frame_pool 0 0 (by decide)).2.2.2.2.2.2.2.2 [] 2
      four_frame_reachable (by decide) (by decide) (by decide)⟩

/-- Claim C20. Address and index round trip: for every pool that is a region of the `u64`
address space and every index `i < page_num`, `virt_to_page(page_to_virt(page_metadata + i))`
is `page_metadata + i`; for every address `a` in `[start, start + size)`,
`page_to_virt(virt_to_page(a))` is `start + BUDDY_PAGE_SIZE * floor((a - start) /
BUDDY_PAGE_SIZE)`, which is at most `a` and above `a - BUDDY_PAGE_SIZE`; and both functions
depend on the start address of the pool only, not on any allocation state. -/
theorem address_index_round_trip (pool : phys_mem_pool)
    (hsize : pool.pool_mem_size = pool.pool_phys_page_num * BUDDY_PAGE_SIZE)
    (hfit : pool.pool_start_addr + pool.pool_mem_size ≤ U64) :
    (∀ i, i < pool.pool_phys_page_num → virt_to_page pool (page_to_virt pool i) = i) ∧
    (∀ a, pool.pool_start_addr ≤ a → a < pool.pool_start_addr + pool.pool_mem_size →
      page_to_virt pool (virt_to_page pool a) =
        pool.pool_start_addr + BUDDY_PAGE_SIZE * ((a - pool.pool_start_addr) / BUDDY_PAGE_SIZE) ∧
      page_to_virt pool (virt_to_page pool a) ≤ a ∧
      a < page_to_virt pool (virt_to_page pool a) + BUDDY_PAGE_SIZE) ∧
    (∀ pool2 : phys_mem_pool, pool2.pool_start_addr = pool.pool_start_addr →
      (∀ pg, page_to_virt pool2 pg = page_to_virt pool pg) ∧
      (∀ a, virt_to_page pool2 a = virt_to_page pool a)) := by
  refine ⟨?_, ?_, ?_⟩
  · intro i hi
    exact virt_to_page_page_to_virt pool i (by rw [← hsize]; exact hfit) hi
  · intro a h1 h2
    have hP : BUDDY_PAGE_SIZE = 4096 := rfl
    have hU : U64 = 18446744073709551616 := by norm_num [U64]
    have hv : virt_to_page pool a = (a - pool.pool_start_addr) / BUDDY_PAGE_SIZE := by
      unfold virt_to_page
      have e : a + U64 - pool.pool_start_addr = (a - pool.pool_start_addr) + U64 := by omega
      rw [e, Nat.add_mod_right, Nat.mod_eq_of_lt (by omega)]
    have hd := Nat.div_add_mod (a - pool.pool_start_addr) BUDDY_PAGE_SIZE
    have hm := Nat.mod_lt (a - pool.pool_start_addr)
      (show 0 < BUDDY_PAGE_SIZE by norm_num [BUDDY_PAGE_SIZE])
    have hp : page_to_virt pool (virt_to_page pool a) =
        pool.pool_start_addr +
          BUDDY_PAGE_SIZE * ((a - pool.pool_start_addr) / BUDDY_PAGE_SIZE) := by
      unfold page_to_virt
      rw [hv, Nat.mod_eq_of_lt (by rw [Nat.mul_comm]; omega), Nat.mul_comm, Nat.add_comm]
    rw [hp]
    refine ⟨rfl, by omega, by omega⟩
  · intro pool2 hs
    refine ⟨fun pg => ?_, fun a => ?_⟩
    · unfold page_to_virt; rw [hs]
    · unfold virt_to_page; rw [hs]

/-- Witness for claim C20: the pool of four frames from address `0x4000`. -/
theorem address_index_round_trip_witness :
    (fault_pool.pool_mem_size = fault_pool.pool_phys_page_num * BUDDY_PAGE_SIZE ∧
      fault_pool.pool_start_addr + fault_pool.pool_mem_size ≤ U64) ∧
    virt_to_page fault_pool (page_to_virt fault_pool 3) = 3 ∧
    page_to_virt fault_pool (virt_to_page fault_pool 0x5abc) = 0x5000 :=
  ⟨⟨by decide, by decide⟩,
    (address_index_round_trip fault_pool (by decide) (by decide)).1 3 (by decide),
    ((address_index_round_trip fault_pool (by decide) (by decide)).2.1 0x5abc
      (by decide) (by decide)).1⟩

end ChCore
